import Mathlib

/-!
# lab0-c `queue.c`: a circular doubly-linked queue of strings

A shallow embedding of `queue.c`.  Memory is a `Heap`: the `next` and `prev`
fields of every `struct list_head`, the string each `element_t` owns, and the
`q` field of every `queue_contex_t`, all indexed by address.  `container_of`
is the identity on addresses.  A pointer that may be `NULL` is an `Option Nat`.
`int` is modelled by `Int`; queue lengths are taken to stay below `INT_MAX`.
Loops that follow links carry a fuel argument and return `none` when it runs
out; `for` loops over `0 .. k-1` are folds over `List.range`.
-/

namespace Lab0

/-! ## Strings -/

/-- A character of a C string: one nonzero `unsigned char`. -/
structure CChar where
  val : Nat
  pos : 0 < val
  lt : val < 256
deriving DecidableEq

/-- A C string, as the bytes before its terminating NUL. -/
abbrev CString := List CChar

/-- The C library `strcmp`: the difference of the first pair of bytes (as
`unsigned char`) that differ, the terminating NUL counting as byte 0. -/
def strcmp : CString → CString → Int
  | [], [] => 0
  | [], b :: _ => 0 - (b.val : Int)
  | a :: _, [] => (a.val : Int) - 0
  | a :: as, b :: bs =>
    if a.val = b.val then strcmp as bs else (a.val : Int) - (b.val : Int)

/-! ## Memory -/

/-- The memory `queue.c` works on.  `released e` is what the string buffer of
element `e` reads as once it has been handed back to the allocator (the
allocator is free to overwrite it). -/
structure Heap where
  next : Nat → Nat
  prev : Nat → Nat
  value : Nat → CString
  q : Nat → Option Nat
  released : Nat → CString

/-- The assignment `p->next = v`. -/
def Heap.setNext (h : Heap) (p v : Nat) : Heap :=
  { h with next := Function.update h.next p v }

/-- The assignment `p->prev = v`. -/
def Heap.setPrev (h : Heap) (p v : Nat) : Heap :=
  { h with prev := Function.update h.prev p v }

/-- The assignment `e->value = s` (the element now owns the string `s`). -/
def Heap.setValue (h : Heap) (e : Nat) (s : CString) : Heap :=
  { h with value := Function.update h.value e s }

/-- The assignment `ctx->q = v`. -/
def Heap.setQ (h : Heap) (ctx : Nat) (v : Option Nat) : Heap :=
  { h with q := Function.update h.q ctx v }

/-! ## The ring primitives of `list.h` -/

/-- Modelled from the spec: `INIT_LIST_HEAD` of `list.h` (§4.1 `init`), which
makes `head` a self-referencing ring of size 0. -/
def INIT_LIST_HEAD (h : Heap) (head : Nat) : Heap :=
  (h.setNext head head).setPrev head head

/-- Modelled from the spec: `list_add` of `list.h` (§4.1 `insert_after`),
which splices `node` in right after `head`, relinking four pointers. -/
def list_add (h : Heap) (node head : Nat) : Heap :=
  let next := h.next head
  (((h.setPrev next node).setNext node next).setPrev node head).setNext head node

/-- Modelled from the spec: `list_add_tail` of `list.h` (§4.1
`insert_before`), which splices `node` in right before `head`. -/
def list_add_tail (h : Heap) (node head : Nat) : Heap :=
  let prev := h.prev head
  (((h.setNext prev node).setNext node head).setPrev node prev).setPrev head node

/-- Modelled from the spec: `list_del` of `list.h` (§4.1 `remove`), which
unlinks `node` by joining its neighbours; the links of `node` itself are left
as they were. -/
def list_del (h : Heap) (node : Nat) : Heap :=
  let next := h.next node
  let prev := h.prev node
  (h.setPrev next prev).setNext prev next

/-- Modelled from the spec: `list_empty` of `list.h` (§4.1 `is_empty`), true
iff `head->next == head`. -/
def list_empty (h : Heap) (head : Nat) : Bool :=
  h.next head == head

/-- The call `free(e->value)`: the string buffer of `e` goes back to the
allocator, and reads through a pointer into it see `released e` from now on. -/
def free_value (h : Heap) (e : Nat) : Heap :=
  h.setValue e (h.released e)

/-- Modelled from the spec: `q_release_element` of `queue.h` (§3 Element),
which frees the string of the element first and then the element itself. -/
def q_release_element (h : Heap) (e : Nat) : Heap :=
  free_value h e

/-- The loop form `for (i = 0; i < n; i++) s = body i s`. -/
def forRange {σ : Type} (n : Nat) (body : Nat → σ → σ) (s : σ) : σ :=
  (List.range n).foldl (fun s i => body i s) s

/-! ## `queue.c` -/

/-- The two results of `malloc` and `strdup` in an insertion: the address of
the new element (`none` for `NULL`) and whether the string copy succeeded. -/
structure InsertAlloc where
  new_elem : Option Nat
  strdup_ok : Bool

/-- Source `q_insert_head`: returns the result and the memory afterwards. -/
def q_insert_head (h : Heap) (head : Option Nat) (s : CString) (m : InsertAlloc) :
    Bool × Heap :=
  match head with
  | none => (false, h)
  | some head =>
    match m.new_elem with
    | none => (false, h)
    | some new_elem =>
      if !m.strdup_ok then (false, h)
      else (true, list_add (h.setValue new_elem s) new_elem head)

/-- Source `q_insert_tail`. -/
def q_insert_tail (h : Heap) (head : Option Nat) (s : CString) (m : InsertAlloc) :
    Bool × Heap :=
  match head with
  | none => (false, h)
  | some head =>
    match m.new_elem with
    | none => (false, h)
    | some new_elem =>
      if !m.strdup_ok then (false, h)
      else (true, list_add_tail (h.setValue new_elem s) new_elem head)

/-- The `list_for_each` loop of `q_size`, from `cur` on. -/
def q_size_loop (h : Heap) (head : Nat) : Nat → Nat → Int → Option Int
  | 0, _, _ => none
  | fuel + 1, cur, count =>
    if cur = head then some count
    else q_size_loop h head fuel (h.next cur) (count + 1)

/-- Source `q_size`. -/
def q_size (fuel : Nat) (h : Heap) (head : Option Nat) : Option Int :=
  match head with
  | none => some 0
  | some head => q_size_loop h head fuel (h.next head) 0

/-- The slow/fast loop of `q_delete_mid`; returns the final `slow`. -/
def q_delete_mid_loop (h : Heap) (head : Nat) : Nat → Nat → Nat → Option Nat
  | 0, _, _ => none
  | fuel + 1, slow, fast =>
    if fast ≠ head ∧ h.next fast ≠ head then
      q_delete_mid_loop h head fuel (h.next slow) (h.next (h.next fast))
    else some slow

/-- Source `q_delete_mid`. -/
def q_delete_mid (fuel : Nat) (h : Heap) (head : Option Nat) : Option (Bool × Heap) :=
  match head with
  | none => some (false, h)
  | some head =>
    if list_empty h head ∨ h.next (h.next head) = head then some (false, h)
    else
      match q_delete_mid_loop h head fuel (h.next head) (h.next head) with
      | none => none
      | some slow => some (true, free_value (list_del h slow) slow)

/-- The removal loop of `q_delete_dup`.  `dup_val` is a pointer into the
string buffer of the element `dup_owner`, so what it reads is that buffer in
the current memory.  Returns memory, `cur` and `removed`. -/
def q_delete_dup_remove (head dup_owner : Nat) :
    Nat → Heap → Nat → Bool → Option (Heap × Nat × Bool)
  | 0, _, _, _ => none
  | fuel + 1, h, cur, removed =>
    if cur ≠ head ∧ strcmp (h.value cur) (h.value dup_owner) = 0 then
      let tmp := h.next cur
      let h1 := list_del h cur
      let h2 := q_release_element h1 cur
      q_delete_dup_remove head dup_owner fuel h2 tmp true
    else some (h, cur, removed)

/-- The outer loop of `q_delete_dup`.  The inner `while (cur->next != head)`
leaves through `break` in its first round on either branch, so it is the one
test it makes. -/
def q_delete_dup_loop (head fuel0 : Nat) : Nat → Heap → Nat → Bool → Option (Bool × Heap)
  | 0, _, _, _ => none
  | fuel + 1, h, cur, removed =>
    if cur ≠ head then
      let dup : Bool :=
        if h.next cur ≠ head then
          if strcmp (h.value cur) (h.value (h.next cur)) = 0 then true else false
        else false
      let next_cur := h.next cur
      if dup then
        match q_delete_dup_remove head cur fuel0 h cur removed with
        | none => none
        | some (h1, cur1, removed1) => q_delete_dup_loop head fuel0 fuel h1 cur1 removed1
      else q_delete_dup_loop head fuel0 fuel h next_cur removed
    else some (removed, h)

/-- Source `q_delete_dup`. -/
def q_delete_dup (fuel : Nat) (h : Heap) (head : Option Nat) : Option (Bool × Heap) :=
  match head with
  | none => some (false, h)
  | some head =>
    if list_empty h head then some (false, h)
    else q_delete_dup_loop head fuel fuel h (h.next head) false

/-- The loop of `q_swap`. -/
def q_swap_loop (head : Nat) : Nat → Heap → Nat → Option Heap
  | 0, _, _ => none
  | fuel + 1, h, cur =>
    if cur ≠ head ∧ h.next cur ≠ head then
      let first := cur
      let second := h.next cur
      let temp := h.value first
      let h1 := h.setValue first (h.value second)
      let h2 := h1.setValue second temp
      q_swap_loop head fuel h2 (h2.next (h2.next cur))
    else some h

/-- Source `q_swap`. -/
def q_swap (fuel : Nat) (h : Heap) (head : Option Nat) : Option Heap :=
  match head with
  | none => some h
  | some head =>
    if list_empty h head then some h
    else q_swap_loop head fuel h (h.next head)

/-- The `do ... while (cur != head)` loop of `q_reverse`. -/
def q_reverse_loop (head : Nat) : Nat → Heap → Nat → Option Heap
  | 0, _, _ => none
  | fuel + 1, h, cur =>
    let temp := h.next cur
    let h1 := h.setNext cur (h.prev cur)
    let h2 := h1.setPrev cur temp
    if temp ≠ head then q_reverse_loop head fuel h2 temp else some h2

/-- Source `q_reverse`. -/
def q_reverse (fuel : Nat) (h : Heap) (head : Option Nat) : Option Heap :=
  match head with
  | none => some h
  | some head =>
    if list_empty h head then some h
    else q_reverse_loop head fuel h head

/-- The counting loop of `q_reverseK`: `while (temp != head && count < k)`. -/
def q_reverseK_count (h : Heap) (head : Nat) (k : Int) : Nat → Nat → Int → Option Int
  | 0, _, _ => none
  | fuel + 1, temp, count =>
    if temp ≠ head ∧ count < k then
      q_reverseK_count h head k fuel (h.next temp) (count + 1)
    else some count

/-- The first `for` loop of `q_reverseK`, which records the `k` nodes of the
group in the scratch array; the state is the array and `temp`. -/
def q_reverseK_fill (h : Heap) (k : Nat) (cur : Nat) : List Nat × Nat :=
  forRange k (fun i s => (s.1.set i s.2, h.next s.2)) (List.replicate k 0, cur)

/-- The second `for` loop of `q_reverseK`, which turns the links of the group
around. -/
def q_reverseK_relink (h : Heap) (k : Nat) (group : List Nat) (before after : Nat) : Heap :=
  forRange k (fun i h =>
    let h1 := h.setPrev (group.getD i 0) (if i = k - 1 then before else group.getD (i + 1) 0)
    h1.setNext (group.getD i 0) (if i = 0 then after else group.getD (i - 1) 0)) h

/-- The outer loop of `q_reverseK`; `malloc_ok g` tells whether the scratch
array of group number `g` could be allocated. -/
def q_reverseK_loop (head : Nat) (k : Int) (malloc_ok : Nat → Bool) (fuel0 : Nat) :
    Nat → Heap → Nat → Nat → Option Heap
  | 0, _, _, _ => none
  | fuel + 1, h, cur, g =>
    if cur ≠ head then
      match q_reverseK_count h head k fuel0 cur 0 with
      | none => none
      | some count =>
        if count < k then some h
        else if !malloc_ok g then some h
        else
          let group := (q_reverseK_fill h k.toNat cur).1
          let before := h.prev (group.getD 0 0)
          let after := h.next (group.getD (k.toNat - 1) 0)
          let h1 := q_reverseK_relink h k.toNat group before after
          let h2 := h1.setNext before (group.getD (k.toNat - 1) 0)
          let h3 := h2.setPrev after (group.getD 0 0)
          q_reverseK_loop head k malloc_ok fuel0 fuel h3 after (g + 1)
    else some h

/-- Source `q_reverseK`. -/
def q_reverseK (fuel : Nat) (h : Heap) (head : Option Nat) (k : Int)
    (malloc_ok : Nat → Bool) : Option Heap :=
  match head with
  | none => some h
  | some head =>
    if list_empty h head ∨ k ≤ 1 then some h
    else q_reverseK_loop head k malloc_ok fuel fuel h (h.next head) 0

/-- Source `cmp_asc`, on the two elements the array slots point to. -/
def cmp_asc (h : Heap) (a b : Nat) : Int :=
  strcmp (h.value a) (h.value b)

/-- Source `cmp_desc`. -/
def cmp_desc (h : Heap) (a b : Nat) : Int :=
  strcmp (h.value b) (h.value a)

/-- The `list_for_each` loop of `q_sort`, which stores `cur` at `arr[i++]`. -/
def q_sort_collect (h : Heap) (head : Nat) : Nat → Nat → List Nat → Nat → Option (List Nat)
  | 0, _, _, _ => none
  | fuel + 1, cur, arr, i =>
    if cur ≠ head then q_sort_collect h head fuel (h.next cur) (arr.set i cur) (i + 1)
    else some arr

/-- The rebuilding `for` loop of `q_sort`. -/
def q_sort_rebuild (h : Heap) (head : Nat) (arr : List Nat) (n : Nat) : Heap :=
  forRange n (fun i h => list_add_tail h (arr.getD i 0) head) h

/-- Source `q_sort`.  `qsort` is the C library routine, taken as a parameter
acting on the array of element pointers; `malloc_ok` tells whether the scratch
array could be allocated. -/
def q_sort (qsort : (Nat → Nat → Int) → List Nat → List Nat) (fuel : Nat) (h : Heap)
    (head : Option Nat) (descend : Bool) (malloc_ok : Bool) : Option Heap :=
  match head with
  | none => some h
  | some head =>
    if list_empty h head ∨ h.next (h.next head) = head then some h
    else
      match q_size fuel h (some head) with
      | none => none
      | some n =>
        if !malloc_ok then some h
        else
          match q_sort_collect h head fuel (h.next head) (List.replicate n.toNat 0) 0 with
          | none => none
          | some arr =>
            let arr1 := if descend then qsort (cmp_desc h) arr else qsort (cmp_asc h) arr
            let h1 := INIT_LIST_HEAD h head
            some (q_sort_rebuild h1 head arr1 n.toNat)

/-- The loop of `q_ascend`.  `min_val` points into the string buffer of the
element `min_owner`.  The counter `removed_count`, which the source never
reads, is left out. -/
def q_ascend_loop (head : Nat) : Nat → Heap → Nat → Nat → Option Heap
  | 0, _, _, _ => none
  | fuel + 1, h, cur, min_owner =>
    if cur ≠ head then
      let elem := cur
      let prev_node := h.prev cur
      if strcmp (h.value elem) (h.value min_owner) > 0 then
        let h1 := list_del h cur
        let h2 := q_release_element h1 elem
        q_ascend_loop head fuel h2 prev_node min_owner
      else if strcmp (h.value elem) (h.value min_owner) < 0 then
        q_ascend_loop head fuel h prev_node elem
      else q_ascend_loop head fuel h prev_node min_owner
    else some h

/-- Source `q_ascend`: returns the result and the memory afterwards. -/
def q_ascend (fuel : Nat) (h : Heap) (head : Option Nat) : Option (Int × Heap) :=
  match head with
  | none => (q_size fuel h none).map (fun n => (n, h))
  | some head =>
    if list_empty h head ∨ h.next (h.next head) = head then
      (q_size fuel h (some head)).map (fun n => (n, h))
    else
      let cur := h.prev head
      let last_elem := cur
      match q_ascend_loop head fuel h (h.prev cur) last_elem with
      | none => none
      | some h1 => (q_size fuel h1 (some head)).map (fun n => (n, h1))

/-- The loop of `q_descend`; `max_val` points into the string buffer of the
element `max_owner`. -/
def q_descend_loop (head : Nat) : Nat → Heap → Nat → Nat → Option Heap
  | 0, _, _, _ => none
  | fuel + 1, h, cur, max_owner =>
    if cur ≠ head then
      let elem := cur
      let prev_node := h.prev cur
      if strcmp (h.value elem) (h.value max_owner) < 0 then
        let h1 := list_del h cur
        let h2 := q_release_element h1 elem
        q_descend_loop head fuel h2 prev_node max_owner
      else if strcmp (h.value elem) (h.value max_owner) > 0 then
        q_descend_loop head fuel h prev_node elem
      else q_descend_loop head fuel h prev_node max_owner
    else some h

/-- Source `q_descend`. -/
def q_descend (fuel : Nat) (h : Heap) (head : Option Nat) : Option (Int × Heap) :=
  match head with
  | none => (q_size fuel h none).map (fun n => (n, h))
  | some head =>
    if list_empty h head ∨ h.next (h.next head) = head then
      (q_size fuel h (some head)).map (fun n => (n, h))
    else
      let cur := h.prev head
      let last_elem := cur
      match q_descend_loop head fuel h (h.prev cur) last_elem with
      | none => none
      | some h1 => (q_size fuel h1 (some head)).map (fun n => (n, h1))

/-- The `while (p != dest && q != src)` loop of `merge_two`; returns memory
and the final `q`. -/
def merge_two_loop (dest src : Nat) (descend : Bool) : Nat → Heap → Nat → Nat → Option (Heap × Nat)
  | 0, _, _, _ => none
  | fuel + 1, h, p, q =>
    if p ≠ dest ∧ q ≠ src then
      let cmp := strcmp (h.value p) (h.value q)
      let cmp := if descend then -cmp else cmp
      if cmp ≤ 0 then merge_two_loop dest src descend fuel h (h.next p) q
      else
        let q_next := h.next q
        let h1 := list_del h q
        let h2 := h1.setPrev q (h1.prev p)
        let h3 := h2.setNext q p
        let h4 := h3.setNext (h3.prev p) q
        let h5 := h4.setPrev p q
        merge_two_loop dest src descend fuel h5 p q_next
    else some (h, q)

/-- Source `merge_two`. -/
def merge_two (fuel : Nat) (h : Heap) (dest src : Nat) (descend : Bool) : Option Heap :=
  match merge_two_loop dest src descend fuel h (h.next dest) (h.next src) with
  | none => none
  | some (h1, q) =>
    let h2 :=
      if q ≠ src then
        let dest_tail := h1.prev dest
        let h2 := h1.setNext dest_tail q
        let h3 := h2.setPrev q dest_tail
        let h4 := h3.setPrev dest (h3.prev src)
        h4.setNext (h4.prev src) dest
      else h1
    some (INIT_LIST_HEAD h2 src)

/-- The loop of `q_merge` over the chain, from `cur` on. -/
def q_merge_loop (head dest : Nat) (descend : Bool) (fuel0 : Nat) :
    Nat → Heap → Nat → Option Heap
  | 0, _, _ => none
  | fuel + 1, h, cur =>
    if cur ≠ head then
      let ctx := cur
      match h.q ctx with
      | some src =>
        match merge_two fuel0 h dest src descend with
        | none => none
        | some h1 =>
          let h2 := h1.setQ ctx none
          q_merge_loop head dest descend fuel0 fuel h2 (h2.next cur)
      | none => q_merge_loop head dest descend fuel0 fuel h (h.next cur)
    else some h

/-- Source `q_merge`: returns the result and the memory afterwards. -/
def q_merge (fuel : Nat) (h : Heap) (head : Option Nat) (descend : Bool) :
    Option (Int × Heap) :=
  match head with
  | none => some (0, h)
  | some head =>
    if list_empty h head ∨ h.next head = head then some (0, h)
    else
      let first_ctx := h.next head
      match h.q first_ctx with
      | none => some (0, h)
      | some dest =>
        match q_merge_loop head dest descend fuel fuel h (h.next (h.next head)) with
        | none => none
        | some h1 => (q_size fuel h1 (some dest)).map (fun n => (n, h1))

/-- What the C standard promises of `qsort`: handed a comparison function that
orders the entries consistently (any two are comparable, and the order is
transitive), it leaves the array holding the same entries, each as often as
before, in ascending order of that function. -/
def QsortSpec (qsort : (Nat → Nat → Int) → List Nat → List Nat) : Prop :=
  ∀ (cmp : Nat → Nat → Int) (arr : List Nat),
    (∀ a b, cmp a b ≤ 0 ∨ cmp b a ≤ 0) →
    (∀ a b c, cmp a b ≤ 0 → cmp b c ≤ 0 → cmp a c ≤ 0) →
    (qsort cmp arr).Perm arr ∧ (qsort cmp arr).Pairwise (fun a b => cmp a b ≤ 0)

/-- One `qsort` that meets `QsortSpec`: insertion sort. -/
def isort (cmp : Nat → Nat → Int) (arr : List Nat) : List Nat :=
  arr.insertionSort (fun a b => cmp a b ≤ 0)

/-! ## Queues as sequences -/

/-- The nodes `x` and `y` are linked: `y` is the `next` of `x` and `x` the
`prev` of `y`. -/
def Link (h : Heap) (x y : Nat) : Prop :=
  h.next x = y ∧ h.prev y = x

/-- The links from `a` through the nodes `l` to `b` are in place: each
node's `next` is the node after it and that node's `prev` points back. -/
def Seg (h : Heap) : Nat → List Nat → Nat → Prop
  | a, [], b => h.next a = b ∧ h.prev b = a
  | a, n :: ns, b => (h.next a = n ∧ h.prev n = a) ∧ Seg h n ns b

/-- Deciding `Seg`. -/
def Seg.dec (h : Heap) : (a : Nat) → (l : List Nat) → (b : Nat) → Decidable (Seg h a l b)
  | a, [], b => inferInstanceAs (Decidable (h.next a = b ∧ h.prev b = a))
  | a, n :: ns, b =>
    have := Seg.dec h n ns b
    inferInstanceAs (Decidable ((h.next a = n ∧ h.prev n = a) ∧ Seg h n ns b))

instance (h : Heap) (a : Nat) (l : List Nat) (b : Nat) : Decidable (Seg h a l b) :=
  Seg.dec h a l b

/-- The nodes `l`, in this cyclic order, form one closed ring. -/
def Cyc (h : Heap) : List Nat → Prop
  | [] => False
  | a :: l => (a :: l).Nodup ∧ Seg h a l a

instance (h : Heap) (l : List Nat) : Decidable (Cyc h l) :=
  match l with
  | [] => inferInstanceAs (Decidable False)
  | a :: l => inferInstanceAs (Decidable ((a :: l).Nodup ∧ Seg h a l a))

/-- The queue with sentinel `head` is a well-formed ring whose elements, from
head to tail, are the nodes `ns`: the nodes are distinct and none is the
sentinel, and following `next` from the sentinel runs through `ns` and back
to the sentinel, with every `prev` pointing the other way. -/
def Ring (h : Heap) (head : Nat) (ns : List Nat) : Prop :=
  Cyc h (head :: ns)

instance (h : Heap) (head : Nat) (ns : List Nat) : Decidable (Ring h head ns) :=
  inferInstanceAs (Decidable (Cyc h (head :: ns)))

/-- One entry of a chain of queues: the address of the `queue_contex_t`, and
the queue its `q` field refers to, if any, as sentinel and elements. -/
abbrev Entry := Nat × Option (Nat × List Nat)

/-- In memory `h` the context `c` refers to the given queue, or to none. -/
def Attached (h : Heap) (c : Nat) : Option (Nat × List Nat) → Prop
  | none => h.q c = none
  | some (s, ns) => h.q c = some s ∧ Ring h s ns

instance (h : Heap) (c : Nat) : (o : Option (Nat × List Nat)) → Decidable (Attached h c o)
  | none => inferInstanceAs (Decidable (h.q c = none))
  | some (s, ns) => inferInstanceAs (Decidable (h.q c = some s ∧ Ring h s ns))

/-- All nodes of the queues of a chain, sentinels included. -/
def chainNodes : List Entry → List Nat
  | [] => []
  | (_, none) :: es => chainNodes es
  | (_, some (s, ns)) :: es => s :: ns ++ chainNodes es

/-- All elements of the queues of a chain, queue after queue. -/
def chainElems : List Entry → List Nat
  | [] => []
  | (_, none) :: es => chainElems es
  | (_, some (_, ns)) :: es => ns ++ chainElems es

/-- The chain with sentinel `head` is a well-formed ring of the contexts of
`es`, every context refers to its queue, every queue is a well-formed ring,
and no node belongs to two of them (the queues are pairwise distinct and
share nothing with each other or with the chain). -/
def ChainOK (h : Heap) (head : Nat) (es : List Entry) : Prop :=
  Ring h head (es.map Prod.fst) ∧ (∀ e ∈ es, Attached h e.1 e.2) ∧
  (head :: (es.map Prod.fst ++ chainNodes es)).Nodup

instance (h : Heap) (head : Nat) (es : List Entry) : Decidable (ChainOK h head es) :=
  inferInstanceAs (Decidable (_ ∧ _ ∧ _))

/-- The values held by the nodes `ns`, in order. -/
def vals (h : Heap) (ns : List Nat) : List CString :=
  ns.map h.value

/-- A memory with nothing linked. -/
def Heap.init : Heap :=
  { next := fun _ => 0, prev := fun _ => 0, value := fun _ => [], q := fun _ => none,
    released := fun _ => [] }

/-- The string made of the bytes `bs`, bytes outside `1 .. 255` dropped. -/
def str (bs : List Nat) : CString :=
  bs.filterMap (fun b => if hb : 0 < b ∧ b < 256 then some ⟨b, hb.1, hb.2⟩ else none)

/-- Memory `h` with a fresh queue at sentinel `head` whose elements are at
the addresses `head + 1, head + 2, ...` and hold the values `vs`, built by
`INIT_LIST_HEAD` and one `list_add_tail` per value. -/
def mkQueue (h : Heap) (head : Nat) (vs : List CString) : Heap :=
  forRange vs.length
    (fun i h => list_add_tail (h.setValue (head + 1 + i) (vs.getD i [])) (head + 1 + i) head)
    (INIT_LIST_HEAD h head)

/-- Following `next` from `cur` up to `head`: the nodes met, at most `fuel`. -/
def nodesFrom (h : Heap) (head : Nat) : Nat → Nat → List Nat
  | 0, _ => []
  | fuel + 1, cur => if cur = head then [] else cur :: nodesFrom h head fuel (h.next cur)

/-- The values of the queue at `head` read from head to tail (at most `fuel`). -/
def contents (fuel : Nat) (h : Heap) (head : Nat) : List CString :=
  vals h (nodesFrom h head fuel (h.next head))

/-! ## Concrete memories -/

/-- The queue `["c", "a", "b"]` at sentinel 0, elements at 1, 2, 3. -/
def queueCAB : Heap :=
  mkQueue Heap.init 0 [str [99], str [97], str [98]]

/-- The queue `["5", "2", "8", "1", "9"]` at sentinel 0, elements at 1 to 5. -/
def queue52819 : Heap :=
  mkQueue Heap.init 0 [str [53], str [50], str [56], str [49], str [57]]

/-- The sorted queue `["a", "a", "b", "c", "c"]` at sentinel 0, in a memory
whose released string buffers read as `"UU"` (bytes `0x55`). -/
def queueAABCC : Heap :=
  mkQueue { Heap.init with released := fun _ => str [85, 85] } 0
    [str [97], str [97], str [98], str [99], str [99]]

/-- A chain at sentinel 100 with two contexts, 101 and 102, that refer to the
queues `["1", "3", "5"]` at sentinel 0 and `["2", "4"]` at sentinel 10. -/
def chain135_24 : Heap :=
  ((mkQueue (mkQueue (mkQueue Heap.init 100 [[], []]) 0 [str [49], str [51], str [53]]) 10
    [str [50], str [52]]).setQ 101 (some 0)).setQ 102 (some 10)

/-! ## The sequences the operations are meant to produce -/

/-- Every two adjacent entries exchanged: `[v1, v0, v3, v2, ...]`, an odd last
entry staying where it is. -/
def swapPairs {α : Type} : List α → List α
  | a :: b :: l => b :: a :: swapPairs l
  | l => l

/-- The test `cmp <= 0` of `merge_two` on the nodes `p` and `q`, with `v`
giving the value of a node: true when `p` stays in front of `q`. -/
def mergeLe (v : Nat → CString) (descend : Bool) (p q : Nat) : Bool :=
  decide ((if descend then -strcmp (v p) (v q) else strcmp (v p) (v q)) ≤ 0)

/-- The sequence the destination holds after the queues of `es` have been
merged into `D` one after the other. -/
def mergeChain (le : Nat → Nat → Bool) (D : List Nat) : List Entry → List Nat
  | [] => D
  | (_, none) :: es => mergeChain le D es
  | (_, some (_, ns)) :: es => mergeChain le (List.merge D ns le) es

/-- The list cut into consecutive groups of exactly `k` entries, each full
group turned around and a final group of fewer than `k` entries left as it
is; the first argument bounds the number of groups. -/
def reverseGroupsAux {α : Type} (k : Nat) : Nat → List α → List α
  | 0, l => l
  | f + 1, l =>
    if k ≤ l.length then (l.take k).reverse ++ reverseGroupsAux k f (l.drop k) else l

/-- The list with every full group of `k` consecutive entries turned around. -/
def reverseGroups {α : Type} (k : Nat) (l : List α) : List α :=
  reverseGroupsAux k l.length l

/-- The nodes that have no node with a strictly smaller value anywhere to their
right, in their original order (`v` gives the value of a node). -/
def noSmallerRight (v : Nat → CString) : List Nat → List Nat
  | [] => []
  | x :: l =>
    if ∃ y ∈ l, strcmp (v y) (v x) < 0 then noSmallerRight v l else x :: noSmallerRight v l

/-- The nodes that have no node with a strictly greater value anywhere to their
right, in their original order. -/
def noGreaterRight (v : Nat → CString) : List Nat → List Nat
  | [] => []
  | x :: l =>
    if ∃ y ∈ l, strcmp (v y) (v x) > 0 then noGreaterRight v l else x :: noGreaterRight v l

/-! ## Removal and its output buffer -/

/-- The number of values of `size_t` (64 bits). -/
def SIZE_RANGE : Nat := 2 ^ 64

/-- The `size_t` expression `bufsize - 1`: unsigned, so it wraps around at 0. -/
def size_minus_one (bufsize : Nat) : Nat :=
  (bufsize + (SIZE_RANGE - 1)) % SIZE_RANGE

/-- The C library `strncpy(dst, src, n)`, as the bytes it stores into `dst`,
each with its index: exactly `n` of them, the bytes of `src` first and NUL
from the end of `src` on. -/
def strncpy (src : CString) (n : Nat) : List (Nat × Nat) :=
  (List.range n).map (fun i => (i, (src.map CChar.val).getD i 0))

/-- A buffer (its bytes by index) after the stores `ws`, made in order. -/
def store (buf : Nat → Nat) (ws : List (Nat × Nat)) : Nat → Nat :=
  ws.foldl (fun b w => Function.update b w.1 w.2) buf

/-- What a removal gives: the element returned (`none` for `NULL`), the
memory afterwards, and the bytes stored through `sp`, each with its index,
in the order they are stored. -/
structure Removed where
  elem : Option Nat
  heap : Heap
  stores : List (Nat × Nat)

/-- The two statements under `if (sp)` in `q_remove_head` and `q_remove_tail`:
`strncpy(sp, elem->value, bufsize - 1); sp[bufsize - 1] = 0;`. -/
def copy_out (value : CString) (bufsize : Nat) : List (Nat × Nat) :=
  strncpy value (size_minus_one bufsize) ++ [(size_minus_one bufsize, 0)]

/-- Source `q_remove_head`; `sp` is the address of the caller's buffer. -/
def q_remove_head (h : Heap) (head : Option Nat) (sp : Option Nat) (bufsize : Nat) : Removed :=
  match head with
  | none => ⟨none, h, []⟩
  | some head =>
    if list_empty h head then ⟨none, h, []⟩
    else
      let node := h.next head
      let elem := node
      let h1 := list_del h node
      match sp with
      | some _ => ⟨some elem, h1, copy_out (h1.value elem) bufsize⟩
      | none => ⟨some elem, h1, []⟩

/-- Source `q_remove_tail`. -/
def q_remove_tail (h : Heap) (head : Option Nat) (sp : Option Nat) (bufsize : Nat) : Removed :=
  match head with
  | none => ⟨none, h, []⟩
  | some head =>
    if list_empty h head then ⟨none, h, []⟩
    else
      let node := h.prev head
      let elem := node
      let h1 := list_del h node
      match sp with
      | some _ => ⟨some elem, h1, copy_out (h1.value elem) bufsize⟩
      | none => ⟨some elem, h1, []⟩

/-- Following `next` from `a` runs through the nodes `l` and then reaches `b`. -/
def NextPath (h : Heap) : Nat → List Nat → Nat → Prop
  | a, [], b => h.next a = b
  | a, n :: ns, b => h.next a = n ∧ NextPath h n ns b

/-- Deciding `NextPath`. -/
def NextPath.dec (h : Heap) : (a : Nat) → (l : List Nat) → (b : Nat) →
    Decidable (NextPath h a l b)
  | a, [], b => inferInstanceAs (Decidable (h.next a = b))
  | a, n :: ns, b =>
    have := NextPath.dec h n ns b
    inferInstanceAs (Decidable (h.next a = n ∧ NextPath h n ns b))

instance (h : Heap) (a : Nat) (l : List Nat) (b : Nat) : Decidable (NextPath h a l b) :=
  NextPath.dec h a l b

/-- The ring invariant in the words of the data model: following `next` from
the sentinel runs through the nodes `ns`, none of them the sentinel, and back
to the sentinel, and every node `n` of the ring has `n.next.prev == n` and
`n.prev.next == n`. -/
def WellFormedRing (h : Heap) (head : Nat) (ns : List Nat) : Prop :=
  NextPath h head ns head ∧ head ∉ ns ∧
  ∀ n ∈ head :: ns, h.prev (h.next n) = n ∧ h.next (h.prev n) = n

instance (h : Heap) (head : Nat) (ns : List Nat) : Decidable (WellFormedRing h head ns) :=
  inferInstanceAs (Decidable (_ ∧ _ ∧ _))

/-! ## More concrete memories -/

/-- The sorted queue `["a", "b", "c"]` at sentinel 0, elements at 1, 2, 3. -/
def queueABC : Heap :=
  mkQueue Heap.init 0 [str [97], str [98], str [99]]

/-- A chain at sentinel 100 with two contexts, 101 and 102, that refer to the
unsorted queues `["5", "1", "3"]` at sentinel 0 and `["4", "2"]` at sentinel
10. -/
def chain513_42 : Heap :=
  ((mkQueue (mkQueue (mkQueue Heap.init 100 [[], []]) 0 [str [53], str [49], str [51]]) 10
    [str [52], str [50]]).setQ 101 (some 0)).setQ 102 (some 10)

/-- Two queues in one memory: `["c", "a", "b"]` at sentinel 0 with elements at
1, 2, 3, and `["a", "d"]` at sentinel 10 with elements at 11, 12. -/
def queueCAB_AD : Heap :=
  mkQueue queueCAB 10 [str [97], str [100]]

/-! # Lemmas and theorems -/

/-! ## Field updates -/

@[simp] theorem setNext_next (h : Heap) (p v x : Nat) :
    (h.setNext p v).next x = if x = p then v else h.next x := by
  simp [Heap.setNext, Function.update_apply]
@[simp] theorem setNext_prev (h : Heap) (p v : Nat) : (h.setNext p v).prev = h.prev := rfl
@[simp] theorem setNext_value (h : Heap) (p v : Nat) : (h.setNext p v).value = h.value := rfl
@[simp] theorem setNext_q (h : Heap) (p v : Nat) : (h.setNext p v).q = h.q := rfl
@[simp] theorem setNext_released (h : Heap) (p v : Nat) :
    (h.setNext p v).released = h.released := rfl
@[simp] theorem setPrev_prev (h : Heap) (p v x : Nat) :
    (h.setPrev p v).prev x = if x = p then v else h.prev x := by
  simp [Heap.setPrev, Function.update_apply]
@[simp] theorem setPrev_next (h : Heap) (p v : Nat) : (h.setPrev p v).next = h.next := rfl
@[simp] theorem setPrev_value (h : Heap) (p v : Nat) : (h.setPrev p v).value = h.value := rfl
@[simp] theorem setPrev_q (h : Heap) (p v : Nat) : (h.setPrev p v).q = h.q := rfl
@[simp] theorem setPrev_released (h : Heap) (p v : Nat) :
    (h.setPrev p v).released = h.released := rfl
@[simp] theorem setValue_value (h : Heap) (p : Nat) (s : CString) (x : Nat) :
    (h.setValue p s).value x = if x = p then s else h.value x := by
  simp [Heap.setValue, Function.update_apply]
@[simp] theorem setValue_next (h : Heap) (p : Nat) (s : CString) :
    (h.setValue p s).next = h.next := rfl
@[simp] theorem setValue_prev (h : Heap) (p : Nat) (s : CString) :
    (h.setValue p s).prev = h.prev := rfl
@[simp] theorem setValue_q (h : Heap) (p : Nat) (s : CString) : (h.setValue p s).q = h.q := rfl
@[simp] theorem setValue_released (h : Heap) (p : Nat) (s : CString) :
    (h.setValue p s).released = h.released := rfl
@[simp] theorem setQ_q (h : Heap) (p : Nat) (v : Option Nat) (x : Nat) :
    (h.setQ p v).q x = if x = p then v else h.q x := by
  simp [Heap.setQ, Function.update_apply]
@[simp] theorem setQ_next (h : Heap) (p : Nat) (v : Option Nat) : (h.setQ p v).next = h.next := rfl
@[simp] theorem setQ_prev (h : Heap) (p : Nat) (v : Option Nat) : (h.setQ p v).prev = h.prev := rfl
@[simp] theorem setQ_value (h : Heap) (p : Nat) (v : Option Nat) :
    (h.setQ p v).value = h.value := rfl
@[simp] theorem setQ_released (h : Heap) (p : Nat) (v : Option Nat) :
    (h.setQ p v).released = h.released := rfl

/-! ## Segments -/

theorem seg_append (h : Heap) (l1 : List Nat) (x : Nat) (l2 : List Nat) (a b : Nat) :
    Seg h a (l1 ++ x :: l2) b ↔ Seg h a l1 x ∧ Seg h x l2 b := by
  induction l1 generalizing a with
  | nil => simp [Seg]
  | cons n l1 ih => simp [Seg, ih, and_assoc]

theorem seg_snoc (h : Heap) (l : List Nat) (x a b : Nat) :
    Seg h a (l ++ [x]) b ↔ Seg h a l x ∧ (h.next x = b ∧ h.prev b = x) := by
  rw [seg_append]; simp [Seg]

/-- A segment only looks at `next` on its start and inner nodes and at
`prev` on its inner nodes and end. -/
theorem seg_congr {h h1 : Heap} {a b : Nat} {l : List Nat}
    (hn : ∀ x ∈ a :: l, h1.next x = h.next x)
    (hp : ∀ y ∈ l ++ [b], h1.prev y = h.prev y) :
    Seg h1 a l b ↔ Seg h a l b := by
  induction l generalizing a with
  | nil => simp [Seg, hn a (by simp), hp b (by simp)]
  | cons n l ih =>
    have h1 := hn a (by simp)
    have h2 := hp n (by simp)
    have h3 := ih (a := n) (fun x hx => hn x (by simp at hx ⊢; tauto))
      (fun y hy => hp y (by simp at hy ⊢; tauto))
    simp [Seg, h1, h2, h3]

theorem seg_next_head {h : Heap} {a b : Nat} {l : List Nat} (hs : Seg h a l b) :
    h.next a = l.headD b := by
  cases l <;> simp [Seg] at hs ⊢ <;> tauto

theorem seg_prev_last {h : Heap} {a b : Nat} {l : List Nat} (hs : Seg h a l b) :
    h.prev b = (a :: l).getLast (by simp) := by
  induction l using List.reverseRecOn with
  | nil => simp [Seg] at hs ⊢; tauto
  | append_singleton l x _ =>
    rw [seg_snoc] at hs
    simp [hs.2.2]

/-! ## Rings -/

theorem cyc_rotate (h : Heap) (l1 l2 : List Nat) : Cyc h (l1 ++ l2) ↔ Cyc h (l2 ++ l1) := by
  cases l1 with
  | nil => simp
  | cons a l1 =>
    cases l2 with
    | nil => simp
    | cons b l2 =>
      have hnd : (a :: l1 ++ b :: l2).Nodup ↔ (b :: l2 ++ a :: l1).Nodup :=
        List.nodup_append_comm
      simp only [List.cons_append] at hnd ⊢
      simp only [Cyc, seg_append, hnd]
      tauto

theorem cyc_congr {h h1 : Heap} {l : List Nat}
    (hn : ∀ x ∈ l, h1.next x = h.next x) (hp : ∀ x ∈ l, h1.prev x = h.prev x) :
    Cyc h1 l ↔ Cyc h l := by
  cases l with
  | nil => simp [Cyc]
  | cons a l =>
    simp only [Cyc]
    rw [seg_congr hn (fun y hy => hp y (by simp at hy ⊢; tauto))]

theorem ring_iff_cyc (h : Heap) (head : Nat) (ns : List Nat) :
    Ring h head ns ↔ Cyc h (head :: ns) := Iff.rfl

/-! ## The ring primitives on rings -/

theorem eq_nil_or_snoc {α : Type} (l : List α) : l = [] ∨ ∃ m a, l = m ++ [a] := by
  rcases List.eq_nil_or_concat l with h | ⟨m, a, h⟩
  · exact Or.inl h
  · exact Or.inr ⟨m, a, by simpa using h⟩

theorem list_del_next (h : Heap) (x y : Nat) :
    (list_del h x).next y = if y = h.prev x then h.next x else h.next y := by
  simp [list_del]

theorem list_del_prev (h : Heap) (x y : Nat) :
    (list_del h x).prev y = if y = h.next x then h.prev x else h.prev y := by
  simp [list_del]

@[simp] theorem list_del_value (h : Heap) (x : Nat) : (list_del h x).value = h.value := rfl
@[simp] theorem list_del_q (h : Heap) (x : Nat) : (list_del h x).q = h.q := rfl
@[simp] theorem list_del_released (h : Heap) (x : Nat) :
    (list_del h x).released = h.released := rfl

/-- Unlinking the first node of a ring of at least two nodes. -/
theorem cyc_del {h : Heap} {x c : Nat} {l : List Nat} (hc : Cyc h (x :: c :: l)) :
    Cyc (list_del h x) (c :: l) := by
  obtain ⟨hnd, hs⟩ := hc
  rcases eq_nil_or_snoc l with rfl | ⟨m, a, rfl⟩
  · simp [Seg] at hs
    simp [Cyc, Seg, list_del_next, list_del_prev, hs]
  · simp only [Seg, seg_snoc] at hs
    obtain ⟨⟨h1, h2⟩, h3, h4, h5⟩ := hs
    have hnd' : (c :: (m ++ [a])).Nodup := (List.nodup_cons.1 hnd).2
    refine ⟨hnd', ?_⟩
    rw [seg_snoc]
    simp only [List.nodup_cons, List.mem_cons, List.mem_append, List.mem_singleton,
      List.nodup_append, List.nodup_singleton, not_or] at hnd
    refine ⟨?_, ?_, ?_⟩
    · rw [seg_congr (h := h)]
      · exact h3
      · intro y hy
        rw [list_del_next, h5, if_neg]
        rintro rfl
        simp at hy
        rcases hy with rfl | hy
        · simp at hnd
        · have := hnd.2.2.2.2; simp at this; exact this hy
      · intro y hy
        rw [list_del_prev, h1, if_neg]
        rintro rfl
        simp at hy
        rcases hy with hy | rfl
        · exact hnd.2.1.1 hy
        · simp at hnd
    · simp [list_del_next, h5, h1]
    · simp [list_del_prev, h5, h1]

/-- Unlinking a node of a queue. -/
theorem ring_del {h : Heap} {head x : Nat} {pre post : List Nat}
    (hr : Ring h head (pre ++ x :: post)) : Ring (list_del h x) head (pre ++ post) := by
  have h1 : Cyc h (x :: (post ++ head :: pre)) := by
    have := (cyc_rotate h (head :: pre) (x :: post)).1 (by simpa [Ring] using hr)
    simpa using this
  have h2 : Cyc (list_del h x) (post ++ head :: pre) := by
    cases hpp : post ++ head :: pre with
    | nil => simp at hpp
    | cons c l => rw [hpp] at h1; exact cyc_del h1
  have := (cyc_rotate _ post (head :: pre)).1 h2
  simpa [Ring] using this

/-- A ring is closed under `next` and `prev`. -/
theorem cyc_closed {h : Heap} {l : List Nat} (hc : Cyc h l) {x : Nat} (hx : x ∈ l) :
    h.next x ∈ l ∧ h.prev x ∈ l := by
  obtain ⟨l1, l2, rfl⟩ := List.append_of_mem hx
  have h1 : Cyc h (x :: (l2 ++ l1)) := by
    simpa using (cyc_rotate h l1 (x :: l2)).1 hc
  have hn := seg_next_head h1.2
  have hp := seg_prev_last h1.2
  have hm : ∀ y, y ∈ x :: (l2 ++ l1) → y ∈ l1 ++ x :: l2 := by
    intro y hy; simp at hy ⊢; tauto
  constructor
  · apply hm; rw [hn]
    cases hl : l2 ++ l1 with
    | nil => simp
    | cons c m => simp
  · apply hm; rw [hp]; exact List.getLast_mem _

/-- Unlinking a node of a ring leaves the links of every node outside that
ring alone. -/
theorem list_del_frame {h : Heap} {l : List Nat} {x : Nat} (hc : Cyc h l) (hx : x ∈ l)
    {y : Nat} (hy : y ∉ l) :
    (list_del h x).next y = h.next y ∧ (list_del h x).prev y = h.prev y := by
  have := cyc_closed hc hx
  rw [list_del_next, list_del_prev, if_neg, if_neg]
  · simp
  · rintro rfl; exact hy this.1
  · rintro rfl; exact hy this.2

/-- Linking a fresh node `x` in right before the first node `p` of a ring. -/
theorem cyc_insert_before {h h1 : Heap} {p x : Nat} {l : List Nat} (hc : Cyc h (p :: l))
    (hx : x ∉ p :: l)
    (hn : ∀ y, h1.next y = if y = x then p else if y = h.prev p then x else h.next y)
    (hp : ∀ y, h1.prev y = if y = p then x else if y = x then h.prev p else h.prev y) :
    Cyc h1 (p :: (l ++ [x])) := by
  obtain ⟨hnd, hs⟩ := hc
  have hnd1 : (p :: (l ++ [x])).Nodup := by
    have : (p :: l ++ [x]).Nodup := by
      rw [List.nodup_append]
      exact ⟨hnd, by simp, by simpa using hx⟩
    simpa using this
  refine ⟨hnd1, ?_⟩
  simp only [List.mem_cons, not_or] at hx
  rcases eq_nil_or_snoc l with rfl | ⟨m, a, rfl⟩
  · simp only [Seg] at hs
    have hxp : p ≠ x := fun e => hx.1 e.symm
    simp [Seg, hn, hp, hs, hxp]
  · rw [seg_snoc] at hs
    obtain ⟨h3, h4, h5⟩ := hs
    simp only [List.nodup_cons, List.mem_append, List.mem_singleton, List.nodup_append,
      not_or] at hnd
    have hxa : a ≠ x := by rintro rfl; simp at hx
    have hxp : p ≠ x := fun e => hx.1 e.symm
    rw [seg_snoc, seg_snoc]
    refine ⟨⟨?_, ?_, ?_⟩, ?_, ?_⟩
    · rw [seg_congr (h := h)]
      · exact h3
      · intro y hy
        have hya : y ≠ a := by
          rintro rfl; simp at hy
          rcases hy with rfl | hy
          · exact hnd.1.2 rfl
          · have := hnd.2.2.2; simp at this; exact this hy
        have hyx : y ≠ x := by
          rintro rfl; simp at hy
          rcases hy with rfl | hy
          · exact hx.1 rfl
          · simp at hx; exact hx.2.1 hy
        simp [hn, h5, hya, hyx]
      · intro y hy
        have hyp : y ≠ p := by
          rintro rfl; simp at hy
          rcases hy with hy | rfl
          · exact hnd.1.1 hy
          · exact hnd.1.2 rfl
        have hyx : y ≠ x := by
          rintro rfl; simp at hy hx
          rcases hy with hy | rfl
          · exact hx.2.1 hy
          · exact hx.2.2 rfl
        simp [hp, hyp, hyx]
    · simp [hn, h5, hxa]
    · simp [hp, h5, hxp.symm]
    · simp [hn]
    · simp [hp]

/-- Linking a fresh node `x` in right after the first node `p` of a ring. -/
theorem cyc_insert_after {h h1 : Heap} {p x : Nat} {l : List Nat} (hc : Cyc h (p :: l))
    (hx : x ∉ p :: l)
    (hn : ∀ y, h1.next y = if y = p then x else if y = x then h.next p else h.next y)
    (hp : ∀ y, h1.prev y = if y = x then p else if y = h.next p then x else h.prev y) :
    Cyc h1 (p :: x :: l) := by
  obtain ⟨hnd, hs⟩ := hc
  have hnd1 : (p :: x :: l).Nodup := by
    simp only [List.nodup_cons, List.mem_cons, not_or] at hnd hx ⊢
    exact ⟨⟨fun e => hx.1 e.symm, hnd.1⟩, hx.2, hnd.2⟩
  refine ⟨hnd1, ?_⟩
  simp only [List.mem_cons, not_or] at hx
  have hxp : p ≠ x := fun e => hx.1 e.symm
  cases l with
  | nil =>
    simp only [Seg] at hs
    simp [Seg, hn, hp, hs, hxp, hxp.symm]
  | cons c m =>
    simp only [Seg] at hs
    obtain ⟨⟨h1', h2⟩, h3⟩ := hs
    simp only [List.nodup_cons, List.mem_cons, not_or] at hnd
    have hcx : c ≠ x := by rintro rfl; simp at hx
    have hcp : c ≠ p := fun e => hnd.1.1 e.symm
    simp only [Seg]
    refine ⟨⟨by simp [hn], by simp [hp]⟩, ⟨by simp [hn, hxp.symm, h1'], by simp [hp, hcx, h1']⟩, ?_⟩
    rw [seg_congr (h := h)]
    · exact h3
    · intro y hy
      have hyp : y ≠ p := by
        rintro rfl; simp at hy
        rcases hy with rfl | hy
        · exact hcp rfl
        · exact hnd.1.2 hy
      have hyx : y ≠ x := by
        rintro rfl; simp at hy hx
        rcases hy with rfl | hy
        · exact hcx rfl
        · exact hx.2.2 hy
      simp [hn, hyp, hyx]
    · intro y hy
      have hyc : y ≠ c := by
        rintro rfl; simp at hy
        rcases hy with hy | rfl
        · exact hnd.2.1 hy
        · exact hcp rfl
      have hyx : y ≠ x := by
        rintro rfl; simp at hy hx
        rcases hy with hy | rfl
        · exact hx.2.2 hy
        · exact hx.1 rfl
      simp [hp, h1', hyc, hyx]

theorem list_add_tail_next {h : Heap} {x p : Nat} (y : Nat) :
    (list_add_tail h x p).next y = if y = x then p else if y = h.prev p then x else h.next y := by
  simp only [list_add_tail, setPrev_next, setNext_next]

theorem list_add_tail_prev {h : Heap} {x p : Nat} (y : Nat) :
    (list_add_tail h x p).prev y = if y = p then x else if y = x then h.prev p else h.prev y := by
  simp only [list_add_tail, setPrev_prev, setNext_prev]

@[simp] theorem list_add_tail_value (h : Heap) (x p : Nat) :
    (list_add_tail h x p).value = h.value := rfl
@[simp] theorem list_add_tail_q (h : Heap) (x p : Nat) : (list_add_tail h x p).q = h.q := rfl
@[simp] theorem list_add_tail_released (h : Heap) (x p : Nat) :
    (list_add_tail h x p).released = h.released := rfl

theorem list_add_next {h : Heap} {x p : Nat} (y : Nat) :
    (list_add h x p).next y = if y = p then x else if y = x then h.next p else h.next y := by
  simp only [list_add, setPrev_next, setNext_next]

theorem list_add_prev {h : Heap} {x p : Nat} (y : Nat) :
    (list_add h x p).prev y = if y = x then p else if y = h.next p then x else h.prev y := by
  simp only [list_add, setPrev_prev, setNext_prev]

@[simp] theorem list_add_value (h : Heap) (x p : Nat) : (list_add h x p).value = h.value := rfl
@[simp] theorem list_add_q (h : Heap) (x p : Nat) : (list_add h x p).q = h.q := rfl
@[simp] theorem list_add_released (h : Heap) (x p : Nat) :
    (list_add h x p).released = h.released := rfl

/-- Source `list_add_tail` on a queue: the fresh node becomes the last element. -/
theorem ring_add_tail {h : Heap} {head x : Nat} {ns : List Nat} (hr : Ring h head ns)
    (hx : x ∉ head :: ns) : Ring (list_add_tail h x head) head (ns ++ [x]) := by
  exact cyc_insert_before hr hx list_add_tail_next list_add_tail_prev

/-- Source `list_add` on a queue: the fresh node becomes the first element. -/
theorem ring_add {h : Heap} {head x : Nat} {ns : List Nat} (hr : Ring h head ns)
    (hx : x ∉ head :: ns) : Ring (list_add h x head) head (x :: ns) := by
  exact cyc_insert_after hr hx list_add_next list_add_prev

theorem ring_init (h : Heap) (head : Nat) : Ring (INIT_LIST_HEAD h head) head [] := by
  simp [Ring, Cyc, Seg, INIT_LIST_HEAD]

/-! ## `strcmp` is a total preorder with equality as its zero -/

theorem CChar.ext_val {a b : CChar} (h : a.val = b.val) : a = b := by
  cases a; cases b; simp at h; subst h; rfl

theorem strcmp_self (a : CString) : strcmp a a = 0 := by
  induction a with
  | nil => simp [strcmp]
  | cons x a ih => simp [strcmp, ih]

theorem strcmp_eq_zero {a b : CString} : strcmp a b = 0 ↔ a = b := by
  constructor
  · intro h
    induction a generalizing b with
    | nil =>
      cases b with
      | nil => rfl
      | cons y b => have := y.pos; simp [strcmp] at h; omega
    | cons x a ih =>
      cases b with
      | nil => have := x.pos; simp [strcmp] at h; omega
      | cons y b =>
        simp only [strcmp] at h
        split at h
        · rename_i hxy; rw [ih h, CChar.ext_val hxy]
        · omega
  · rintro rfl; exact strcmp_self a

theorem strcmp_antisymm (a b : CString) : strcmp b a = - strcmp a b := by
  induction a generalizing b with
  | nil => cases b <;> simp [strcmp]
  | cons x a ih =>
    cases b with
    | nil => simp [strcmp]
    | cons y b =>
      simp only [strcmp]
      by_cases hxy : x.val = y.val
      · simp [hxy, ih]
      · have : ¬ y.val = x.val := fun e => hxy e.symm
        simp [hxy, this]

theorem strcmp_pos_iff (a b : CString) : 0 < strcmp a b ↔ strcmp b a < 0 := by
  rw [strcmp_antisymm a b]; omega

theorem strcmp_total (a b : CString) : strcmp a b ≤ 0 ∨ strcmp b a ≤ 0 := by
  rw [strcmp_antisymm a b]; omega

theorem strcmp_trans {a b c : CString} (h1 : strcmp a b ≤ 0) (h2 : strcmp b c ≤ 0) :
    strcmp a c ≤ 0 := by
  induction a generalizing b c with
  | nil => cases c <;> simp [strcmp]
  | cons x a ih =>
    cases b with
    | nil => have := x.pos; simp [strcmp] at h1; omega
    | cons y b =>
      cases c with
      | nil => have := y.pos; simp [strcmp] at h2; omega
      | cons z c =>
        simp only [strcmp] at h1 h2 ⊢
        by_cases hxy : x.val = y.val <;> by_cases hyz : y.val = z.val <;>
          by_cases hxz : x.val = z.val <;> simp only [hxy, hyz, hxz, if_true, if_false] at h1 h2 ⊢
          <;> first | exact ih h1 h2 | omega

theorem strcmp_lt_of_lt_of_le {a b c : CString} (h1 : strcmp a b < 0) (h2 : strcmp b c ≤ 0) :
    strcmp a c < 0 := by
  have h3 := strcmp_trans (Int.le_of_lt h1) h2
  by_cases h : strcmp a c = 0
  · rw [strcmp_eq_zero.1 h] at h1
    have := strcmp_antisymm c b
    omega
  · omega

theorem strcmp_lt_of_le_of_lt {a b c : CString} (h1 : strcmp a b ≤ 0) (h2 : strcmp b c < 0) :
    strcmp a c < 0 := by
  have h3 := strcmp_trans h1 (Int.le_of_lt h2)
  by_cases h : strcmp a c = 0
  · rw [strcmp_eq_zero.1 h] at h1
    have := strcmp_antisymm c b
    omega
  · omega

/-! ## Walking a ring -/

theorem ring_head_not_mem {h : Heap} {head : Nat} {ns : List Nat} (hr : Ring h head ns) :
    head ∉ ns := (List.nodup_cons.1 hr.1).1

theorem ring_nodup {h : Heap} {head : Nat} {ns : List Nat} (hr : Ring h head ns) :
    ns.Nodup := (List.nodup_cons.1 hr.1).2

theorem q_size_loop_seg {h : Heap} {head : Nat} {l : List Nat} (hl : head ∉ l) :
    ∀ {a : Nat} {fuel : Nat} (c : Int), Seg h a l head → l.length < fuel →
      q_size_loop h head fuel (h.next a) c = some (c + l.length) := by
  induction l with
  | nil =>
    intro a fuel c hs hf
    obtain ⟨f, rfl⟩ : ∃ f, fuel = f + 1 := ⟨fuel - 1, by simp at hf; omega⟩
    simp only [Seg] at hs
    simp [q_size_loop, hs.1]
  | cons n l ih =>
    intro a fuel c hs hf
    obtain ⟨f, rfl⟩ : ∃ f, fuel = f + 1 := ⟨fuel - 1, by simp at hf; omega⟩
    simp only [Seg] at hs
    simp only [List.mem_cons, not_or] at hl
    have hn : n ≠ head := fun e => hl.1 e.symm
    simp only [q_size_loop, hs.1.1, hn, if_false]
    rw [ih hl.2 (c + 1) hs.2 (by simp at hf; omega)]
    simp; omega

/-- Source `q_size` on a queue of `n` elements returns `n`. -/
theorem q_size_ring {h : Heap} {head : Nat} {ns : List Nat} (hr : Ring h head ns)
    {fuel : Nat} (hf : ns.length < fuel) :
    q_size fuel h (some head) = some (ns.length : Int) := by
  have := q_size_loop_seg (ring_head_not_mem hr) 0 hr.2 hf
  simpa [q_size] using this

theorem nodesFrom_seg {h : Heap} {head : Nat} {l : List Nat} (hl : head ∉ l) :
    ∀ {a : Nat} {fuel : Nat}, Seg h a l head → l.length < fuel →
      nodesFrom h head fuel (h.next a) = l := by
  induction l with
  | nil =>
    intro a fuel hs hf
    obtain ⟨f, rfl⟩ : ∃ f, fuel = f + 1 := ⟨fuel - 1, by simp at hf; omega⟩
    simp only [Seg] at hs
    simp [nodesFrom, hs.1]
  | cons n l ih =>
    intro a fuel hs hf
    obtain ⟨f, rfl⟩ : ∃ f, fuel = f + 1 := ⟨fuel - 1, by simp at hf; omega⟩
    simp only [Seg] at hs
    simp only [List.mem_cons, not_or] at hl
    have hn : n ≠ head := fun e => hl.1 e.symm
    simp only [nodesFrom, hs.1.1, hn, if_false]
    rw [ih hl.2 hs.2 (by simp at hf; omega)]

/-- Reading a queue from head to tail gives the values of its nodes. -/
theorem contents_ring {h : Heap} {head : Nat} {ns : List Nat} (hr : Ring h head ns)
    {fuel : Nat} (hf : ns.length < fuel) : contents fuel h head = vals h ns := by
  simp [contents, nodesFrom_seg (ring_head_not_mem hr) hr.2 hf]

/-- The element sequence of a queue is determined by the memory. -/
theorem ring_unique {h : Heap} {head : Nat} {ns ms : List Nat} (h1 : Ring h head ns)
    (h2 : Ring h head ms) : ns = ms := by
  have a := @nodesFrom_seg h head ns (ring_head_not_mem h1) head (ns.length + ms.length + 1)
    h1.2 (by omega)
  have b := @nodesFrom_seg h head ms (ring_head_not_mem h2) head (ns.length + ms.length + 1)
    h2.2 (by omega)
  exact a.symm.trans b

theorem ring_nil_iff {h : Heap} {head : Nat} :
    Ring h head [] ↔ h.next head = head ∧ h.prev head = head := by
  simp [Ring, Cyc, Seg]

theorem ring_next_head {h : Heap} {head : Nat} {ns : List Nat} (hr : Ring h head ns) :
    h.next head = ns.headD head := seg_next_head hr.2

theorem ring_empty_iff {h : Heap} {head : Nat} {ns : List Nat} (hr : Ring h head ns) :
    list_empty h head = true ↔ ns = [] := by
  rw [list_empty, ring_next_head hr]
  cases ns with
  | nil => simp
  | cons n l =>
    have := ring_head_not_mem hr
    simp at this ⊢
    exact fun e => this.1 e.symm

/-- Rings only depend on the links of their own nodes. -/
theorem ring_congr {h h1 : Heap} {head : Nat} {ns : List Nat}
    (hn : ∀ x ∈ head :: ns, h1.next x = h.next x)
    (hp : ∀ x ∈ head :: ns, h1.prev x = h.prev x) : Ring h1 head ns ↔ Ring h head ns :=
  cyc_congr hn hp

/-! ## C10: insertion -/

/-- C10: on a queue with element sequence `ns`, when `malloc` returns a fresh
element `e` and `strdup` succeeds, `q_insert_head` returns true and the
sequence becomes `e` (holding `v`) followed by `ns`, and `q_insert_tail`
returns true and the sequence becomes `ns` followed by `e`; when either
allocation fails both return false and leave memory as it was. -/
theorem q_insert_head_tail_spec (h : Heap) (head : Nat) (ns : List Nat) (v : CString)
    (m : InsertAlloc) (hr : Ring h head ns)
    (hfresh : ∀ e, m.new_elem = some e → e ∉ head :: ns) :
    (∀ e, m.new_elem = some e → m.strdup_ok = true →
      ((q_insert_head h (some head) v m).1 = true ∧
        Ring (q_insert_head h (some head) v m).2 head (e :: ns) ∧
        vals (q_insert_head h (some head) v m).2 (e :: ns) = v :: vals h ns) ∧
      ((q_insert_tail h (some head) v m).1 = true ∧
        Ring (q_insert_tail h (some head) v m).2 head (ns ++ [e]) ∧
        vals (q_insert_tail h (some head) v m).2 (ns ++ [e]) = vals h ns ++ [v])) ∧
    ((m.new_elem = none ∨ m.strdup_ok = false) →
      q_insert_head h (some head) v m = (false, h) ∧
      q_insert_tail h (some head) v m = (false, h)) := by
  constructor
  · intro e he hd
    have hx := hfresh e he
    have hr1 : Ring (h.setValue e v) head ns := (ring_congr (by simp) (by simp)).2 hr
    have hv : ∀ x ∈ ns, (h.setValue e v).value x = h.value x := by
      intro x hxn
      rw [setValue_value, if_neg]
      rintro rfl
      exact hx (List.mem_cons_of_mem _ hxn)
    refine ⟨⟨?_, ?_, ?_⟩, ?_, ?_, ?_⟩
    · simp [q_insert_head, he, hd]
    · simpa [q_insert_head, he, hd] using ring_add hr1 hx
    · simp only [q_insert_head, he, hd, vals, List.map_cons]
      simp only [Bool.not_true, Bool.false_eq_true, ↓reduceIte, list_add_value,
        setValue_value, List.cons.injEq, true_and]
      exact List.map_congr_left hv
    · simp [q_insert_tail, he, hd]
    · simpa [q_insert_tail, he, hd] using ring_add_tail hr1 hx
    · simp only [q_insert_tail, he, hd, vals, List.map_append, List.map_cons, List.map_nil]
      simp only [Bool.not_true, Bool.false_eq_true, ↓reduceIte, list_add_tail_value,
        setValue_value, List.append_cancel_right_eq]
      exact List.map_congr_left hv
  · rintro (hn | hd)
    · simp [q_insert_head, q_insert_tail, hn]
    · cases hm : m.new_elem <;> simp [q_insert_head, q_insert_tail, hm, hd]

/-! ## C9: `q_swap` -/

theorem swapPairs_length {α : Type} : ∀ l : List α, (swapPairs l).length = l.length
  | [] => rfl
  | [_] => rfl
  | _ :: _ :: l => by simp [swapPairs, swapPairs_length l]

theorem swapPairs_get {α : Type} : ∀ (l : List α) (i : Nat), 2 * i + 1 < l.length →
    (swapPairs l)[2 * i]? = l[2 * i + 1]? ∧ (swapPairs l)[2 * i + 1]? = l[2 * i]?
  | [], _, hi => by simp at hi
  | [_], _, hi => by simp at hi
  | a :: b :: l, 0, _ => by simp [swapPairs]
  | a :: b :: l, i + 1, hi => by
    have := swapPairs_get l i (by simp at hi; omega)
    have e1 : 2 * (i + 1) = (2 * i + 1) + 1 := by ring
    have e2 : 2 * (i + 1) + 1 = (2 * i + 1 + 1) + 1 := by ring
    simp only [swapPairs, e1, List.getElem?_cons_succ] at this ⊢
    exact this

theorem swapPairs_last {α : Type} : ∀ (l : List α), l.length % 2 = 1 →
    (swapPairs l)[l.length - 1]? = l[l.length - 1]?
  | [], h => by simp at h
  | [_], _ => rfl
  | a :: b :: l, h => by
    have hl : l.length % 2 = 1 := by simp at h; omega
    have := swapPairs_last l hl
    have hpos : 0 < l.length := by omega
    have e : (a :: b :: l).length - 1 = (l.length - 1) + 1 + 1 := by simp; omega
    rw [e]
    simpa [swapPairs] using this

theorem q_swap_loop_seg (head : Nat) : ∀ (l : List Nat) (a : Nat) (h : Heap) (fuel : Nat),
    Seg h a l head → head ∉ l → l.Nodup → l.length < fuel →
    ∃ h1, q_swap_loop head fuel h (h.next a) = some h1 ∧ h1.next = h.next ∧
      h1.prev = h.prev ∧ h1.q = h.q ∧ h1.released = h.released ∧
      (∀ x, x ∉ l → h1.value x = h.value x) ∧ vals h1 l = swapPairs (vals h l)
  | [], a, h, fuel, hs, _, _, hf => by
    obtain ⟨f, rfl⟩ : ∃ f, fuel = f + 1 := ⟨fuel - 1, by simp at hf; omega⟩
    simp only [Seg] at hs
    exact ⟨h, by simp [q_swap_loop, hs.1], rfl, rfl, rfl, rfl, fun _ _ => rfl, rfl⟩
  | [x], a, h, fuel, hs, hh, _, hf => by
    obtain ⟨f, rfl⟩ : ∃ f, fuel = f + 1 := ⟨fuel - 1, by simp at hf; omega⟩
    simp only [Seg] at hs
    exact ⟨h, by simp [q_swap_loop, hs.1.1, hs.2.1], rfl, rfl, rfl, rfl, fun _ _ => rfl, rfl⟩
  | x :: y :: l, a, h, fuel, hs, hh, hnd, hf => by
    obtain ⟨f, rfl⟩ : ∃ f, fuel = f + 1 := ⟨fuel - 1, by simp at hf; omega⟩
    simp only [Seg] at hs
    obtain ⟨⟨hax, _⟩, ⟨hxy, _⟩, hs3⟩ := hs
    simp only [List.mem_cons, not_or] at hh
    simp only [List.nodup_cons, List.mem_cons, not_or] at hnd
    have hx : x ≠ head := fun e => hh.1 e.symm
    have hy : y ≠ head := fun e => hh.2.1 e.symm
    let h2 := (h.setValue x (h.value y)).setValue y (h.value x)
    have hs3' : Seg h2 y l head := (seg_congr (by simp [h2]) (by simp [h2])).2 hs3
    obtain ⟨h1, e1, e2, e3, e4, e5, e6, e7⟩ :=
      q_swap_loop_seg head l y h2 f hs3' hh.2.2 hnd.2.2 (by simp at hf; omega)
    refine ⟨h1, ?_, ?_, ?_, ?_, ?_, ?_, ?_⟩
    · simp only [q_swap_loop, hax, hxy]
      rw [if_pos ⟨hx, hy⟩]
      simpa [h2, hxy] using e1
    · simpa [h2] using e2
    · simpa [h2] using e3
    · simpa [h2] using e4
    · simpa [h2] using e5
    · intro z hz
      simp only [List.mem_cons, not_or] at hz
      rw [e6 z hz.2.2]
      simp [h2, hz.1, hz.2.1]
    · have hxl : h1.value x = h.value y := by
        rw [e6 x hnd.1.2]; simp [h2, hnd.1.1]
      have hyl : h1.value y = h.value x := by
        rw [e6 y hnd.2.1]; simp [h2]
      have hl : vals h2 l = vals h l := by
        apply List.map_congr_left
        intro z hz
        have hzx : z ≠ x := by rintro rfl; exact hnd.1.2 hz
        have hzy : z ≠ y := by rintro rfl; exact hnd.2.1 hz
        simp [h2, hzx, hzy]
      simp only [vals, List.map_cons, swapPairs, hxl, hyl]
      simp only [vals] at e7 hl
      rw [e7, hl]

/-- C9: on a queue with nodes `ns`, `q_swap` keeps the ring and its nodes,
so the number of elements is unchanged, and exchanges the values at positions
`2i` and `2i+1` for every `i` with `2i+1 < n`; when `n` is odd the last
element keeps its value. -/
theorem q_swap_spec (h : Heap) (head : Nat) (ns : List Nat) (fuel : Nat)
    (hr : Ring h head ns) (hf : ns.length < fuel) :
    ∃ h1, q_swap fuel h (some head) = some h1 ∧ Ring h1 head ns ∧
      (vals h1 ns).length = (vals h ns).length ∧
      (∀ i, 2 * i + 1 < ns.length →
        (vals h1 ns)[2 * i]? = (vals h ns)[2 * i + 1]? ∧
        (vals h1 ns)[2 * i + 1]? = (vals h ns)[2 * i]?) ∧
      (ns.length % 2 = 1 → (vals h1 ns)[ns.length - 1]? = (vals h ns)[ns.length - 1]?) := by
  obtain ⟨h1, e1, e2, e3, _, _, _, e7⟩ :=
    q_swap_loop_seg head ns head h fuel hr.2 (ring_head_not_mem hr) (ring_nodup hr) hf
  have hr1 : Ring h1 head ns := (ring_congr (by simp [e2]) (by simp [e3])).2 hr
  have hq : q_swap fuel h (some head) = some h1 := by
    simp only [q_swap]
    split
    · rename_i he
      have := (ring_empty_iff hr).1 he
      subst this
      obtain ⟨f, rfl⟩ : ∃ f, fuel = f + 1 := ⟨fuel - 1, by simp at hf; omega⟩
      have hn := ring_next_head hr
      simp only [List.headD_nil] at hn
      simp [q_swap_loop, hn] at e1
      rw [e1]
    · exact e1
  refine ⟨h1, hq, hr1, by simp [vals], ?_, ?_⟩
  · intro i hi
    rw [e7]
    exact swapPairs_get _ i (by simpa [vals] using hi)
  · intro hodd
    rw [e7]
    have := swapPairs_last (vals h ns) (by simpa [vals] using hodd)
    simpa [vals] using this

/-! ## C8: `q_delete_mid` -/

theorem seg_next_getD {h : Heap} {b : Nat} : ∀ {l : List Nat} {a : Nat}, Seg h a l b →
    ∀ i, i < l.length → h.next (l.getD i b) = l.getD (i + 1) b
  | [], _, _, i, hi => by simp at hi
  | [x], _, hs, i, hi => by
    simp only [Seg] at hs
    have : i = 0 := by simp at hi; omega
    subst this
    simp [hs.2.1]
  | x :: y :: l, _, hs, 0, _ => by
    simp only [Seg] at hs
    simp [hs.2.1.1]
  | x :: y :: l, _, hs, i + 1, hi => by
    simp only [Seg] at hs
    have := seg_next_getD (l := y :: l) (a := x) (by simp only [Seg]; exact hs.2) i
      (by simp at hi ⊢; omega)
    simpa using this

theorem getD_eq_head_iff {head : Nat} {ns : List Nat} (hh : head ∉ ns) (i : Nat) :
    ns.getD i head = head ↔ ns.length ≤ i := by
  constructor
  · intro h
    by_contra hlt
    push_neg at hlt
    rw [List.getD_eq_getElem _ _ hlt] at h
    exact hh (h ▸ List.getElem_mem hlt)
  · intro h
    exact List.getD_eq_default _ _ h

theorem q_delete_mid_loop_spec {h : Heap} {head : Nat} {ns : List Nat}
    (hr : Ring h head ns) : ∀ (k i fuel : Nat), ns.length / 2 - i = k → 2 * i ≤ ns.length →
      k < fuel →
      q_delete_mid_loop h head fuel (ns.getD i head) (ns.getD (2 * i) head) =
        some (ns.getD (ns.length / 2) head) := by
  have hh := ring_head_not_mem hr
  intro k
  induction k with
  | zero =>
    intro i fuel hk hi hf
    obtain ⟨f, rfl⟩ : ∃ f, fuel = f + 1 := ⟨fuel - 1, by omega⟩
    have hi2 : i = ns.length / 2 := by omega
    simp only [q_delete_mid_loop]
    rw [if_neg, hi2]
    rintro ⟨h1, h2⟩
    have h1' : 2 * i < ns.length := by
      by_contra hc; push_neg at hc
      exact h1 ((getD_eq_head_iff hh _).2 hc)
    rw [seg_next_getD hr.2 _ h1'] at h2
    exact h2 ((getD_eq_head_iff hh _).2 (by omega))
  | succ k ih =>
    intro i fuel hk hi hf
    obtain ⟨f, rfl⟩ : ∃ f, fuel = f + 1 := ⟨fuel - 1, by omega⟩
    have h1 : 2 * i + 1 < ns.length := by omega
    simp only [q_delete_mid_loop]
    rw [if_pos]
    · rw [seg_next_getD hr.2 _ (by omega), seg_next_getD hr.2 _ (by omega),
        seg_next_getD hr.2 _ (by omega)]
      have := ih (i + 1) f (by omega) (by omega) (by omega)
      have e : 2 * (i + 1) = 2 * i + 1 + 1 := by ring
      rw [e] at this
      exact this
    · constructor
      · intro hc
        have := (getD_eq_head_iff hh _).1 hc
        omega
      · rw [seg_next_getD hr.2 _ (by omega)]
        intro hc
        have := (getD_eq_head_iff hh _).1 hc
        omega

theorem free_value_ring {h : Heap} {head : Nat} {ns : List Nat} (e : Nat) :
    Ring (free_value h e) head ns ↔ Ring h head ns :=
  ring_congr (by simp [free_value]) (by simp [free_value])

theorem free_value_value_of_ne {h : Heap} {e x : Nat} (hx : x ≠ e) :
    (free_value h e).value x = h.value x := by
  simp [free_value, hx]

/-- C8: on a queue of `n ≥ 2` elements `q_delete_mid` returns true and leaves
the original sequence without the element at index `n / 2`, the others in
their order and with their values; on an absent, empty or single-element
queue it returns false and changes nothing. -/
theorem q_delete_mid_spec (h : Heap) (head : Nat) (ns : List Nat) (fuel : Nat)
    (hr : Ring h head ns) (hf : ns.length < fuel) :
    (2 ≤ ns.length → ∃ h1, q_delete_mid fuel h (some head) = some (true, h1) ∧
      Ring h1 head (ns.eraseIdx (ns.length / 2)) ∧
      vals h1 (ns.eraseIdx (ns.length / 2)) = (vals h ns).eraseIdx (ns.length / 2)) ∧
    (ns.length ≤ 1 → q_delete_mid fuel h (some head) = some (false, h)) ∧
    q_delete_mid fuel h none = some (false, h) := by
  have hh := ring_head_not_mem hr
  have hn0 : h.next head = ns.getD 0 head := by
    rw [ring_next_head hr]; cases ns <;> simp
  refine ⟨?_, ?_, rfl⟩
  · intro hn
    have hmid : ns.length / 2 < ns.length := by omega
    have hne : ¬ (list_empty h head = true ∨ h.next (h.next head) = head) := by
      rintro (hc | hc)
      · have := (ring_empty_iff hr).1 hc
        subst this; simp at hn
      · rw [hn0, seg_next_getD hr.2 _ (by omega)] at hc
        have := (getD_eq_head_iff hh _).1 hc
        omega
    have hloop := q_delete_mid_loop_spec hr (ns.length / 2) 0 fuel (by omega) (by omega)
      (by omega)
    simp only [Nat.mul_zero] at hloop
    rw [← hn0] at hloop
    rw [List.getD_eq_getElem _ _ hmid] at hloop
    have hsplit : ns = ns.take (ns.length / 2) ++ ns[ns.length / 2] ::
        ns.drop (ns.length / 2 + 1) := by
      rw [List.cons_getElem_drop_succ, List.take_append_drop]
    have herase : ns.eraseIdx (ns.length / 2) =
        ns.take (ns.length / 2) ++ ns.drop (ns.length / 2 + 1) :=
      List.eraseIdx_eq_take_drop_succ _ _
    have hr1 : Ring (list_del h ns[ns.length / 2]) head (ns.eraseIdx (ns.length / 2)) := by
      rw [herase]
      apply ring_del
      rw [← hsplit]; exact hr
    refine ⟨free_value (list_del h ns[ns.length / 2]) ns[ns.length / 2], ?_, ?_, ?_⟩
    · simp only [q_delete_mid, if_neg hne, hloop]
    · exact (free_value_ring _).2 hr1
    · have hnd := ring_nodup hr
      have hnot : ns[ns.length / 2] ∉ ns.eraseIdx (ns.length / 2) := by
        rw [herase]
        rw [hsplit] at hnd
        have := List.nodup_middle.1 hnd
        exact (List.nodup_cons.1 this).1
      simp only [vals]
      rw [List.eraseIdx_eq_take_drop_succ (List.map h.value ns), ← List.map_take,
        ← List.map_drop, ← List.map_append, ← herase]
      apply List.map_congr_left
      intro x hx
      apply free_value_value_of_ne
      rintro rfl
      exact hnot hx
  · intro hn
    have : list_empty h head = true ∨ h.next (h.next head) = head := by
      rcases Nat.lt_or_ge 0 ns.length with hpos | hz
      · right
        rw [hn0, seg_next_getD hr.2 _ hpos]
        exact (getD_eq_head_iff hh _).2 (by omega)
      · left
        exact (ring_empty_iff hr).2 (List.length_eq_zero.1 (by omega))
    simp only [q_delete_mid, if_pos this]

/-! ## C7: `q_reverse` -/

/-- Exchanging `next` and `prev` on every node of a segment turns it around. -/
theorem seg_reverse {h h1 : Heap} {b : Nat} : ∀ {l : List Nat} {a : Nat}, Seg h a l b →
    (∀ x ∈ a :: l ++ [b], h1.next x = h.prev x ∧ h1.prev x = h.next x) →
    Seg h1 b l.reverse a
  | [], a, hs, hn => by
    simp only [Seg] at hs
    have h1' := hn a (by simp)
    have h2' := hn b (by simp)
    simp [Seg, h1', h2', hs]
  | n :: l, a, hs, hn => by
    simp only [Seg] at hs
    have ih := @seg_reverse h h1 b l n hs.2 (fun x hx => hn x (by simp at hx ⊢; tauto))
    rw [List.reverse_cons, seg_snoc]
    have h1' := hn a (by simp)
    have h2' := hn n (by simp)
    exact ⟨ih, by rw [h2'.1]; exact hs.1.2, by rw [h1'.2]; exact hs.1.1⟩

theorem q_reverse_loop_spec {h : Heap} {head : Nat} : ∀ (l : List Nat) (c : Nat) (h0 : Heap)
    (fuel : Nat), Seg h c l head → (c :: l).Nodup → head ∉ l →
    (∀ x ∈ c :: l, h0.next x = h.next x ∧ h0.prev x = h.prev x) → l.length < fuel →
    ∃ h1, q_reverse_loop head fuel h0 c = some h1 ∧
      (∀ x ∈ c :: l, h1.next x = h.prev x ∧ h1.prev x = h.next x) ∧
      (∀ x, x ∉ c :: l → h1.next x = h0.next x ∧ h1.prev x = h0.prev x) ∧
      h1.value = h0.value ∧ h1.q = h0.q ∧ h1.released = h0.released
  | [], c, h0, fuel, hs, _, _, hag, hf => by
    obtain ⟨f, rfl⟩ : ∃ f, fuel = f + 1 := ⟨fuel - 1, by simp at hf; omega⟩
    simp only [Seg] at hs
    have hc := hag c (by simp)
    refine ⟨(h0.setNext c (h0.prev c)).setPrev c (h0.next c), ?_, ?_, ?_, rfl, rfl, rfl⟩
    · simp [q_reverse_loop, hc.1, hs.1]
    · intro x hx
      simp only [List.mem_singleton] at hx
      subst hx
      simp [hc]
    · intro x hx
      simp only [List.mem_singleton] at hx
      simp [hx]
  | d :: l, c, h0, fuel, hs, hnd, hh, hag, hf => by
    obtain ⟨f, rfl⟩ : ∃ f, fuel = f + 1 := ⟨fuel - 1, by simp at hf; omega⟩
    simp only [Seg] at hs
    have hc := hag c (by simp)
    simp only [List.mem_cons, not_or] at hh
    have hd : d ≠ head := fun e => hh.1 e.symm
    have hnd' := (List.nodup_cons.1 hnd)
    let h2 := (h0.setNext c (h0.prev c)).setPrev c (h0.next c)
    have hag2 : ∀ x ∈ d :: l, h2.next x = h.next x ∧ h2.prev x = h.prev x := by
      intro x hx
      have hxc : x ≠ c := by rintro rfl; exact hnd'.1 hx
      have := hag x (List.mem_cons_of_mem _ hx)
      simp [h2, hxc, this]
    obtain ⟨h1, e1, e2, e3, e4, e5, e6⟩ :=
      q_reverse_loop_spec l d h2 f hs.2 hnd'.2 hh.2 hag2 (by simp at hf; omega)
    refine ⟨h1, ?_, ?_, ?_, ?_, ?_, ?_⟩
    · simp only [q_reverse_loop, hc.1, hs.1.1]
      rw [if_pos hd]
      simpa [h2, hc.1, hs.1.1] using e1
    · intro x hx
      rcases List.mem_cons.1 hx with rfl | hx
      · have := e3 x hnd'.1
        simp [this, h2, hc]
      · exact e2 x hx
    · intro x hx
      have hxc : x ≠ c := by rintro rfl; simp at hx
      have := e3 x (fun hm => hx (List.mem_cons_of_mem _ hm))
      simp [this, h2, hxc]
    · simpa [h2] using e4
    · simpa [h2] using e5
    · simpa [h2] using e6

theorem q_reverse_ring {h : Heap} {head : Nat} {ns : List Nat} {fuel : Nat}
    (hr : Ring h head ns) (hf : ns.length < fuel) :
    ∃ h1, q_reverse fuel h (some head) = some h1 ∧ Ring h1 head ns.reverse ∧
      h1.value = h.value ∧ h1.q = h.q ∧ h1.released = h.released ∧
      (∀ x ∈ head :: ns, h1.next x = h.prev x ∧ h1.prev x = h.next x) ∧
      (∀ x, x ∉ head :: ns → h1.next x = h.next x ∧ h1.prev x = h.prev x) := by
  by_cases he : list_empty h head = true
  · have hnil := (ring_empty_iff hr).1 he
    subst hnil
    have := ring_nil_iff.1 hr
    refine ⟨h, by simp [q_reverse, he], hr, rfl, rfl, rfl, ?_, fun _ _ => ⟨rfl, rfl⟩⟩
    intro x hx
    simp only [List.mem_singleton] at hx
    subst hx
    simp [this]
  · obtain ⟨h1, e1, e2, e3, e4, e5, e6⟩ := q_reverse_loop_spec (h := h) ns head h fuel hr.2 hr.1
      (ring_head_not_mem hr) (fun _ _ => ⟨rfl, rfl⟩) hf
    refine ⟨h1, by simp [q_reverse, he, e1], ?_, e4, e5, e6, e2, e3⟩
    refine ⟨?_, seg_reverse hr.2 (fun x hx => e2 x (by simp at hx ⊢; tauto))⟩
    have := hr.1
    simp only [List.nodup_cons, List.mem_reverse, List.nodup_reverse] at this ⊢
    exact this

/-- C7: `q_reverse` exchanges `next` and `prev` of every node of the ring,
the sentinel included, which leaves the elements in the reverse of their
head-to-tail order, values untouched; applying it a second time gives back
the original order. -/
theorem q_reverse_spec (h : Heap) (head : Nat) (ns : List Nat) (fuel : Nat)
    (hr : Ring h head ns) (hf : ns.length < fuel) :
    ∃ h1, q_reverse fuel h (some head) = some h1 ∧ Ring h1 head ns.reverse ∧
      vals h1 ns.reverse = (vals h ns).reverse ∧
      (∀ x ∈ head :: ns, h1.next x = h.prev x ∧ h1.prev x = h.next x) ∧
      ∃ h2, q_reverse fuel h1 (some head) = some h2 ∧ Ring h2 head ns ∧
        vals h2 ns = vals h ns := by
  obtain ⟨h1, e1, e2, e3, _, _, e6, _⟩ := q_reverse_ring hr hf
  obtain ⟨h2, f1, f2, f3, _, _, _, _⟩ := q_reverse_ring e2 (by simpa using hf)
  refine ⟨h1, e1, e2, by simp [vals, e3], e6, h2, f1, by simpa using f2, by simp [vals, f3, e3]⟩

/-! ## C4: `q_ascend` -/

theorem noSmallerRight_sublist (v : Nat → CString) :
    ∀ l : List Nat, (noSmallerRight v l).Sublist l
  | [] => List.Sublist.slnil
  | x :: l => by
    simp only [noSmallerRight]
    split
    · exact (noSmallerRight_sublist v l).cons _
    · exact (noSmallerRight_sublist v l).cons₂ _

theorem noSmallerRight_append (v : Nat → CString) (suf : List Nat) :
    ∀ pre : List Nat, (noSmallerRight v (pre ++ suf)).Sublist (pre ++ noSmallerRight v suf)
  | [] => by simp
  | x :: pre => by
    simp only [List.cons_append, noSmallerRight]
    split
    · exact (noSmallerRight_append v suf pre).cons _
    · exact (noSmallerRight_append v suf pre).cons₂ _

/-- Membership in `noSmallerRight`, position by position. -/
theorem mem_noSmallerRight (v : Nat → CString) : ∀ (pre : List Nat) (x : Nat) (post : List Nat),
    (pre ++ x :: post).Nodup →
    (x ∈ noSmallerRight v (pre ++ x :: post) ↔ ¬ ∃ y ∈ post, strcmp (v y) (v x) < 0)
  | [], x, post, hnd => by
    simp only [List.nil_append, noSmallerRight]
    have hx : x ∉ noSmallerRight v post := fun hm =>
      (List.nodup_cons.1 hnd).1 ((noSmallerRight_sublist v post).subset hm)
    split
    · rename_i hex; simp [hx, hex]
    · rename_i hex; simp [hex]
  | a :: pre, x, post, hnd => by
    have hax : x ≠ a := by
      rintro rfl
      have := (List.nodup_cons.1 hnd).1
      simp at this
    have ih := mem_noSmallerRight v pre x post (List.nodup_cons.1 hnd).2
    simp only [List.cons_append, noSmallerRight]
    split
    · exact ih
    · simp only [List.mem_cons, hax, false_or]; exact ih

theorem q_ascend_loop_spec (head : Nat) (v : Nat → CString) :
    ∀ (k : Nat) (suf pre : List Nat) (h : Heap) (m : Nat) (fuel : Nat), pre.length = k →
    Ring h head (pre ++ noSmallerRight v suf) →
    (∀ x ∈ pre ++ noSmallerRight v suf, h.value x = v x) →
    m ∈ noSmallerRight v suf → (∀ y ∈ suf, strcmp (v m) (v y) ≤ 0) → k < fuel →
    ∃ h1, q_ascend_loop head fuel h ((head :: pre).getLast (by simp)) m = some h1 ∧
      Ring h1 head (noSmallerRight v (pre ++ suf)) ∧
      (∀ x ∈ noSmallerRight v (pre ++ suf), h1.value x = v x) := by
  intro k
  induction k with
  | zero =>
    intro suf pre h m fuel hk hr hv _ _ hf
    obtain ⟨f, rfl⟩ : ∃ f, fuel = f + 1 := ⟨fuel - 1, by omega⟩
    have : pre = [] := List.length_eq_zero.1 hk
    subst this
    exact ⟨h, by simp [q_ascend_loop], by simpa using hr, by simpa using hv⟩
  | succ k ih =>
    intro suf pre h m fuel hk hr hv hm hmin hf
    obtain ⟨f, rfl⟩ : ∃ f, fuel = f + 1 := ⟨fuel - 1, by omega⟩
    rcases eq_nil_or_snoc pre with rfl | ⟨pre', c, rfl⟩
    · simp at hk
    have hk' : pre'.length = k := by simp at hk; omega
    have hr' : Ring h head (pre' ++ c :: noSmallerRight v suf) := by simpa using hr
    have hnd := ring_nodup hr'
    have hhead := ring_head_not_mem hr'
    have hc : c ≠ head := by rintro rfl; simp at hhead
    have hprev : h.prev c = (head :: pre').getLast (by simp) :=
      seg_prev_last ((seg_append _ _ _ _ _ _).1 hr'.2).1
    have hsub := (noSmallerRight_sublist v suf).subset
    have hvc : h.value c = v c := hv c (by simp)
    have hvm : h.value m = v m := hv m (by simp [hm])
    have hcnot : c ∉ pre' ++ noSmallerRight v suf :=
      (List.nodup_cons.1 (List.nodup_middle.1 hnd)).1
    have hlast : (head :: (pre' ++ [c])).getLast (by simp) = c := by
      rw [List.getLast_cons (by simp)]; simp
    simp only [hlast, q_ascend_loop]
    rw [if_pos hc, hvc, hvm, hprev]
    by_cases hgt : strcmp (v c) (v m) > 0
    · rw [if_pos hgt]
      have hex : ∃ y ∈ suf, strcmp (v y) (v c) < 0 :=
        ⟨m, hsub hm, (strcmp_pos_iff _ _).1 hgt⟩
      have hkeep : noSmallerRight v (c :: suf) = noSmallerRight v suf := by
        simp only [noSmallerRight, if_pos hex]
      have hr2 : Ring (q_release_element (list_del h c) c) head
          (pre' ++ noSmallerRight v (c :: suf)) := by
        rw [hkeep]
        exact (free_value_ring _).2 (ring_del hr')
      have hv2 : ∀ x ∈ pre' ++ noSmallerRight v (c :: suf),
          (q_release_element (list_del h c) c).value x = v x := by
        rw [hkeep]
        intro x hx
        have hxc : x ≠ c := by rintro rfl; exact hcnot hx
        rw [q_release_element, free_value_value_of_ne hxc]
        simp only [list_del_value]
        exact hv x (by simp at hx ⊢; tauto)
      have hmin2 : ∀ y ∈ c :: suf, strcmp (v m) (v y) ≤ 0 := by
        intro y hy
        rcases List.mem_cons.1 hy with rfl | hy
        · have := (strcmp_pos_iff _ _).1 hgt; omega
        · exact hmin y hy
      have := ih (c :: suf) pre' _ m f hk' hr2 hv2 (hkeep ▸ hm) hmin2 (by omega)
      simpa using this
    · rw [if_neg hgt]
      have hle : strcmp (v c) (v m) ≤ 0 := by omega
      have hnex : ¬ ∃ y ∈ suf, strcmp (v y) (v c) < 0 := by
        rintro ⟨y, hy, hlt⟩
        have h1 := strcmp_trans hle (hmin y hy)
        have h2 := strcmp_antisymm (v c) (v y)
        omega
      have hkeep : noSmallerRight v (c :: suf) = c :: noSmallerRight v suf := by
        simp only [noSmallerRight, if_neg hnex]
      have hr2 : Ring h head (pre' ++ noSmallerRight v (c :: suf)) := by rw [hkeep]; exact hr'
      have hv2 : ∀ x ∈ pre' ++ noSmallerRight v (c :: suf), h.value x = v x := by
        rw [hkeep]; intro x hx; exact hv x (by simpa using hx)
      by_cases hlt : strcmp (v c) (v m) < 0
      · rw [if_pos hlt]
        have hmin2 : ∀ y ∈ c :: suf, strcmp (v c) (v y) ≤ 0 := by
          intro y hy
          rcases List.mem_cons.1 hy with rfl | hy
          · simp [strcmp_self]
          · exact strcmp_trans hle (hmin y hy)
        have := ih (c :: suf) pre' h c f hk' hr2 hv2 (by rw [hkeep]; simp) hmin2 (by omega)
        simpa using this
      · rw [if_neg hlt]
        have hmin2 : ∀ y ∈ c :: suf, strcmp (v m) (v y) ≤ 0 := by
          intro y hy
          rcases List.mem_cons.1 hy with rfl | hy
          · have := strcmp_antisymm (v y) (v m); omega
          · exact hmin y hy
        have := ih (c :: suf) pre' h m f hk' hr2 hv2 (by rw [hkeep]; simp [hm]) hmin2 (by omega)
        simpa using this

theorem noSmallerRight_small (v : Nat → CString) (ns : List Nat) (hn : ns.length ≤ 1) :
    noSmallerRight v ns = ns := by
  match ns, hn with
  | [], _ => rfl
  | [x], _ => simp [noSmallerRight]

theorem ring_short_iff {h : Heap} {head : Nat} {ns : List Nat} (hr : Ring h head ns) :
    (list_empty h head = true ∨ h.next (h.next head) = head) ↔ ns.length ≤ 1 := by
  have hh := ring_head_not_mem hr
  have hn0 : h.next head = ns.getD 0 head := by
    rw [ring_next_head hr]; cases ns <;> simp
  constructor
  · rintro (hc | hc)
    · have := (ring_empty_iff hr).1 hc
      subst this; simp
    · by_contra hlt
      rw [hn0, seg_next_getD hr.2 _ (by omega)] at hc
      have := (getD_eq_head_iff hh _).1 hc
      omega
  · intro hn
    rcases Nat.lt_or_ge 0 ns.length with hpos | hz
    · right
      rw [hn0, seg_next_getD hr.2 _ hpos]
      exact (getD_eq_head_iff hh _).2 (by omega)
    · left
      exact (ring_empty_iff hr).2 (List.length_eq_zero.1 (by omega))

theorem q_ascend_ring {h : Heap} {head : Nat} {ns : List Nat} {fuel : Nat}
    (hr : Ring h head ns) (hf : ns.length < fuel) :
    ∃ h1, q_ascend fuel h (some head) =
        some (((noSmallerRight h.value ns).length : Int), h1) ∧
      Ring h1 head (noSmallerRight h.value ns) ∧
      (∀ x ∈ noSmallerRight h.value ns, h1.value x = h.value x) ∧
      (ns.length ≤ 1 → h1 = h) := by
  have hlen : (noSmallerRight h.value ns).length ≤ ns.length :=
    (noSmallerRight_sublist _ _).length_le
  by_cases hs : ns.length ≤ 1
  · have e := noSmallerRight_small h.value ns hs
    refine ⟨h, ?_, by rw [e]; exact hr, fun _ _ => rfl, fun _ => rfl⟩
    simp only [q_ascend, if_pos ((ring_short_iff hr).2 hs), q_size_ring hr hf, e]
    rfl
  · rcases eq_nil_or_snoc ns with rfl | ⟨pre, t, rfl⟩
    · simp at hs
    have hpl : h.prev head = t := by
      rw [seg_prev_last hr.2, List.getLast_cons (by simp)]; simp
    have hst : noSmallerRight h.value [t] = [t] := by simp [noSmallerRight]
    have hpt : h.prev t = (head :: pre).getLast (by simp) :=
      seg_prev_last ((seg_append _ _ _ _ _ _).1 hr.2).1
    obtain ⟨h1, e1, e2, e3⟩ := q_ascend_loop_spec head h.value pre.length [t] pre h t
      fuel rfl (by rw [hst]; exact hr) (fun _ _ => rfl) (by rw [hst]; simp)
      (by intro y hy; simp at hy; subst hy; simp [strcmp_self]) (by simp at hf; omega)
    refine ⟨h1, ?_, e2, e3, fun hc => absurd hc hs⟩
    simp only [q_ascend, if_neg (mt (ring_short_iff hr).1 hs), hpl, hpt, e1,
      q_size_ring e2 (lt_of_le_of_lt hlen hf)]
    rfl

/-- C4: after `q_ascend` the queue holds, in their original order and with
their values, exactly the elements that have no strictly smaller element
anywhere to their right, and the return value is the number of elements
that remain; on an absent, empty or single-element queue nothing is removed
and the current size is returned. -/
theorem q_ascend_spec (h : Heap) (head : Nat) (ns : List Nat) (fuel : Nat)
    (hr : Ring h head ns) (hf : ns.length < fuel) :
    (∃ h1 kept, q_ascend fuel h (some head) = some ((kept.length : Int), h1) ∧
      Ring h1 head kept ∧ vals h1 kept = vals h kept ∧ kept.Sublist ns ∧
      (∀ pre x post, ns = pre ++ x :: post →
        (x ∈ kept ↔ ¬ ∃ y ∈ post, strcmp (h.value y) (h.value x) < 0)) ∧
      (ns.length ≤ 1 → kept = ns ∧ h1 = h)) ∧
    q_ascend fuel h none = some (0, h) := by
  obtain ⟨h1, e1, e2, e3, e4⟩ := q_ascend_ring hr hf
  refine ⟨⟨h1, noSmallerRight h.value ns, e1, e2, List.map_congr_left e3,
    noSmallerRight_sublist _ _, ?_, fun hn => ⟨noSmallerRight_small _ _ hn, e4 hn⟩⟩, ?_⟩
  · intro pre x post hns
    subst hns
    exact mem_noSmallerRight h.value pre x post (ring_nodup hr)
  · simp [q_ascend, q_size]

/-! ## C5: `q_descend` -/

theorem noGreaterRight_sublist (v : Nat → CString) :
    ∀ l : List Nat, (noGreaterRight v l).Sublist l
  | [] => List.Sublist.slnil
  | x :: l => by
    simp only [noGreaterRight]
    split
    · exact (noGreaterRight_sublist v l).cons _
    · exact (noGreaterRight_sublist v l).cons₂ _

/-- Membership in `noGreaterRight`, position by position. -/
theorem mem_noGreaterRight (v : Nat → CString) : ∀ (pre : List Nat) (x : Nat) (post : List Nat),
    (pre ++ x :: post).Nodup →
    (x ∈ noGreaterRight v (pre ++ x :: post) ↔ ¬ ∃ y ∈ post, strcmp (v y) (v x) > 0)
  | [], x, post, hnd => by
    simp only [List.nil_append, noGreaterRight]
    have hx : x ∉ noGreaterRight v post := fun hm =>
      (List.nodup_cons.1 hnd).1 ((noGreaterRight_sublist v post).subset hm)
    split
    · rename_i hex; simp only [hx, false_iff, not_not]; exact hex
    · rename_i hex; simp only [List.mem_cons, true_or, true_iff]; exact hex
  | a :: pre, x, post, hnd => by
    have hax : x ≠ a := by
      rintro rfl
      have := (List.nodup_cons.1 hnd).1
      simp at this
    have ih := mem_noGreaterRight v pre x post (List.nodup_cons.1 hnd).2
    simp only [List.cons_append, noGreaterRight]
    split
    · exact ih
    · simp only [List.mem_cons, hax, false_or]; exact ih

/-- What `noGreaterRight` keeps is non-increasing. -/
theorem noGreaterRight_pairwise (v : Nat → CString) : ∀ l : List Nat,
    (noGreaterRight v l).Pairwise (fun x y => strcmp (v y) (v x) ≤ 0)
  | [] => List.Pairwise.nil
  | x :: l => by
    simp only [noGreaterRight]
    split
    · exact noGreaterRight_pairwise v l
    · rename_i hex
      refine List.Pairwise.cons ?_ (noGreaterRight_pairwise v l)
      intro y hy
      by_contra hc
      exact hex ⟨y, (noGreaterRight_sublist v l).subset hy, by omega⟩

theorem q_descend_loop_spec (head : Nat) (v : Nat → CString) :
    ∀ (k : Nat) (suf pre : List Nat) (h : Heap) (m : Nat) (fuel : Nat), pre.length = k →
    Ring h head (pre ++ noGreaterRight v suf) →
    (∀ x ∈ pre ++ noGreaterRight v suf, h.value x = v x) →
    m ∈ noGreaterRight v suf → (∀ y ∈ suf, strcmp (v y) (v m) ≤ 0) → k < fuel →
    ∃ h1, q_descend_loop head fuel h ((head :: pre).getLast (by simp)) m = some h1 ∧
      Ring h1 head (noGreaterRight v (pre ++ suf)) ∧
      (∀ x ∈ noGreaterRight v (pre ++ suf), h1.value x = v x) := by
  intro k
  induction k with
  | zero =>
    intro suf pre h m fuel hk hr hv _ _ hf
    obtain ⟨f, rfl⟩ : ∃ f, fuel = f + 1 := ⟨fuel - 1, by omega⟩
    have : pre = [] := List.length_eq_zero.1 hk
    subst this
    exact ⟨h, by simp [q_descend_loop], by simpa using hr, by simpa using hv⟩
  | succ k ih =>
    intro suf pre h m fuel hk hr hv hm hmax hf
    obtain ⟨f, rfl⟩ : ∃ f, fuel = f + 1 := ⟨fuel - 1, by omega⟩
    rcases eq_nil_or_snoc pre with rfl | ⟨pre', c, rfl⟩
    · simp at hk
    have hk' : pre'.length = k := by simp at hk; omega
    have hr' : Ring h head (pre' ++ c :: noGreaterRight v suf) := by simpa using hr
    have hnd := ring_nodup hr'
    have hhead := ring_head_not_mem hr'
    have hc : c ≠ head := by rintro rfl; simp at hhead
    have hprev : h.prev c = (head :: pre').getLast (by simp) :=
      seg_prev_last ((seg_append _ _ _ _ _ _).1 hr'.2).1
    have hsub := (noGreaterRight_sublist v suf).subset
    have hvc : h.value c = v c := hv c (by simp)
    have hvm : h.value m = v m := hv m (by simp [hm])
    have hcnot : c ∉ pre' ++ noGreaterRight v suf :=
      (List.nodup_cons.1 (List.nodup_middle.1 hnd)).1
    have hlast : (head :: (pre' ++ [c])).getLast (by simp) = c := by
      rw [List.getLast_cons (by simp)]; simp
    simp only [hlast, q_descend_loop]
    rw [if_pos hc, hvc, hvm, hprev]
    by_cases hlt : strcmp (v c) (v m) < 0
    · rw [if_pos hlt]
      have hex : ∃ y ∈ suf, strcmp (v y) (v c) > 0 :=
        ⟨m, hsub hm, (strcmp_pos_iff _ _).2 hlt⟩
      have hkeep : noGreaterRight v (c :: suf) = noGreaterRight v suf := by
        simp only [noGreaterRight, if_pos hex]
      have hr2 : Ring (q_release_element (list_del h c) c) head
          (pre' ++ noGreaterRight v (c :: suf)) := by
        rw [hkeep]
        exact (free_value_ring _).2 (ring_del hr')
      have hv2 : ∀ x ∈ pre' ++ noGreaterRight v (c :: suf),
          (q_release_element (list_del h c) c).value x = v x := by
        rw [hkeep]
        intro x hx
        have hxc : x ≠ c := by rintro rfl; exact hcnot hx
        rw [q_release_element, free_value_value_of_ne hxc]
        simp only [list_del_value]
        exact hv x (by simp at hx ⊢; tauto)
      have hmax2 : ∀ y ∈ c :: suf, strcmp (v y) (v m) ≤ 0 := by
        intro y hy
        rcases List.mem_cons.1 hy with rfl | hy
        · omega
        · exact hmax y hy
      have := ih (c :: suf) pre' _ m f hk' hr2 hv2 (hkeep ▸ hm) hmax2 (by omega)
      simpa using this
    · rw [if_neg hlt]
      have hge : strcmp (v m) (v c) ≤ 0 := by
        have := strcmp_antisymm (v c) (v m); omega
      have hnex : ¬ ∃ y ∈ suf, strcmp (v y) (v c) > 0 := by
        rintro ⟨y, hy, hgt⟩
        have h1 := strcmp_trans (hmax y hy) hge
        omega
      have hkeep : noGreaterRight v (c :: suf) = c :: noGreaterRight v suf := by
        simp only [noGreaterRight, if_neg hnex]
      have hr2 : Ring h head (pre' ++ noGreaterRight v (c :: suf)) := by rw [hkeep]; exact hr'
      have hv2 : ∀ x ∈ pre' ++ noGreaterRight v (c :: suf), h.value x = v x := by
        rw [hkeep]; intro x hx; exact hv x (by simpa using hx)
      by_cases hgt : strcmp (v c) (v m) > 0
      · rw [if_pos hgt]
        have hmax2 : ∀ y ∈ c :: suf, strcmp (v y) (v c) ≤ 0 := by
          intro y hy
          rcases List.mem_cons.1 hy with rfl | hy
          · simp [strcmp_self]
          · exact strcmp_trans (hmax y hy) hge
        have := ih (c :: suf) pre' h c f hk' hr2 hv2 (by rw [hkeep]; simp) hmax2 (by omega)
        simpa using this
      · rw [if_neg hgt]
        have hmax2 : ∀ y ∈ c :: suf, strcmp (v y) (v m) ≤ 0 := by
          intro y hy
          rcases List.mem_cons.1 hy with rfl | hy
          · omega
          · exact hmax y hy
        have := ih (c :: suf) pre' h m f hk' hr2 hv2 (by rw [hkeep]; simp [hm]) hmax2
          (by omega)
        simpa using this

theorem noGreaterRight_small (v : Nat → CString) (ns : List Nat) (hn : ns.length ≤ 1) :
    noGreaterRight v ns = ns := by
  match ns, hn with
  | [], _ => rfl
  | [x], _ => simp [noGreaterRight]

theorem q_descend_ring {h : Heap} {head : Nat} {ns : List Nat} {fuel : Nat}
    (hr : Ring h head ns) (hf : ns.length < fuel) :
    ∃ h1, q_descend fuel h (some head) =
        some (((noGreaterRight h.value ns).length : Int), h1) ∧
      Ring h1 head (noGreaterRight h.value ns) ∧
      (∀ x ∈ noGreaterRight h.value ns, h1.value x = h.value x) ∧
      (ns.length ≤ 1 → h1 = h) := by
  have hlen : (noGreaterRight h.value ns).length ≤ ns.length :=
    (noGreaterRight_sublist _ _).length_le
  by_cases hs : ns.length ≤ 1
  · have e := noGreaterRight_small h.value ns hs
    refine ⟨h, ?_, by rw [e]; exact hr, fun _ _ => rfl, fun _ => rfl⟩
    simp only [q_descend, if_pos ((ring_short_iff hr).2 hs), q_size_ring hr hf, e]
    rfl
  · rcases eq_nil_or_snoc ns with rfl | ⟨pre, t, rfl⟩
    · simp at hs
    have hpl : h.prev head = t := by
      rw [seg_prev_last hr.2, List.getLast_cons (by simp)]; simp
    have hst : noGreaterRight h.value [t] = [t] := by simp [noGreaterRight]
    have hpt : h.prev t = (head :: pre).getLast (by simp) :=
      seg_prev_last ((seg_append _ _ _ _ _ _).1 hr.2).1
    obtain ⟨h1, e1, e2, e3⟩ := q_descend_loop_spec head h.value pre.length [t] pre h
      t fuel rfl (by rw [hst]; exact hr) (fun _ _ => rfl) (by rw [hst]; simp)
      (by intro y hy; simp at hy; subst hy; simp [strcmp_self]) (by simp at hf; omega)
    refine ⟨h1, ?_, e2, e3, fun hc => absurd hc hs⟩
    simp only [q_descend, if_neg (mt (ring_short_iff hr).1 hs), hpl, hpt, e1,
      q_size_ring e2 (lt_of_le_of_lt hlen hf)]
    rfl

/-- C5: after `q_descend` the queue holds, in their original order and with
their values, exactly the elements that have no strictly greater element
anywhere to their right, so the surviving values read from head to tail are
non-increasing, and the return value is the number of elements that remain. -/
theorem q_descend_spec (h : Heap) (head : Nat) (ns : List Nat) (fuel : Nat)
    (hr : Ring h head ns) (hf : ns.length < fuel) :
    ∃ h1 kept, q_descend fuel h (some head) = some ((kept.length : Int), h1) ∧
      Ring h1 head kept ∧ vals h1 kept = vals h kept ∧ kept.Sublist ns ∧
      (∀ pre x post, ns = pre ++ x :: post →
        (x ∈ kept ↔ ¬ ∃ y ∈ post, strcmp (h.value y) (h.value x) > 0)) ∧
      (vals h1 kept).Pairwise (fun a b => strcmp b a ≤ 0) := by
  obtain ⟨h1, e1, e2, e3, _⟩ := q_descend_ring hr hf
  have hv : vals h1 (noGreaterRight h.value ns) = vals h (noGreaterRight h.value ns) :=
    List.map_congr_left e3
  refine ⟨h1, noGreaterRight h.value ns, e1, e2, hv, noGreaterRight_sublist _ _, ?_, ?_⟩
  · intro pre x post hns
    subst hns
    exact mem_noGreaterRight h.value pre x post (ring_nodup hr)
  · rw [hv, vals, List.pairwise_map]
    exact noGreaterRight_pairwise h.value ns

/-! ## C1: `q_sort` -/

theorem isort_spec : QsortSpec isort := by
  intro cmp arr htot htrans
  haveI : IsTotal Nat (fun a b => cmp a b ≤ 0) := ⟨htot⟩
  haveI : IsTrans Nat (fun a b => cmp a b ≤ 0) := ⟨htrans⟩
  exact ⟨List.perm_insertionSort _ _, List.sorted_insertionSort _ _⟩

theorem forRange_succ {σ : Type} (n : Nat) (body : Nat → σ → σ) (s : σ) :
    forRange (n + 1) body s = body n (forRange n body s) := by
  simp [forRange, List.range_succ]

theorem forRange_congr {σ : Type} {body body1 : Nat → σ → σ} :
    ∀ (n : Nat) (s : σ), (∀ i, i < n → ∀ t, body i t = body1 i t) →
      forRange n body s = forRange n body1 s := by
  intro n
  induction n with
  | zero => intro s _; rfl
  | succ n ih =>
    intro s hb
    rw [forRange_succ, forRange_succ, ih s (fun i hi t => hb i (by omega) t), hb n (by omega)]

/-- A `for` loop that handles `arr[i]` in round `i` is a fold over the array. -/
theorem forRange_getD {σ : Type} (g : Nat → σ → σ) (d : Nat) (s : σ) : ∀ l : List Nat,
    forRange l.length (fun i t => g (l.getD i d) t) s = l.foldl (fun t x => g x t) s := by
  intro l
  induction l using List.reverseRecOn with
  | nil => rfl
  | append_singleton l x ih =>
    rw [List.length_append, List.length_singleton, forRange_succ, List.foldl_append]
    simp only [List.foldl_cons, List.foldl_nil]
    rw [← ih]
    have h1 : (l ++ [x]).getD l.length d = x := by simp [List.getD_eq_getElem?_getD]
    rw [h1]
    congr 1
    apply forRange_congr
    intro i hi t
    have : (l ++ [x]).getD i d = l.getD i d := by
      simp [List.getD_eq_getElem?_getD, List.getElem?_append_left hi]
    rw [this]

theorem q_sort_collect_seg {h : Heap} {head : Nat} : ∀ (l : List Nat) (a : Nat)
    (pre rest : List Nat) (fuel : Nat), Seg h a l head → head ∉ l →
    rest.length = l.length → l.length < fuel →
    q_sort_collect h head fuel (h.next a) (pre ++ rest) pre.length = some (pre ++ l)
  | [], a, pre, rest, fuel, hs, _, hl, hf => by
    obtain ⟨f, rfl⟩ : ∃ f, fuel = f + 1 := ⟨fuel - 1, by simp at hf; omega⟩
    simp only [Seg] at hs
    have : rest = [] := List.length_eq_zero.1 (by simpa using hl)
    simp [q_sort_collect, hs.1, this]
  | n :: l, a, pre, rest, fuel, hs, hh, hl, hf => by
    obtain ⟨f, rfl⟩ : ∃ f, fuel = f + 1 := ⟨fuel - 1, by simp at hf; omega⟩
    simp only [Seg] at hs
    simp only [List.mem_cons, not_or] at hh
    have hn : n ≠ head := fun e => hh.1 e.symm
    cases rest with
    | nil => simp at hl
    | cons r rest =>
      simp only [q_sort_collect, hs.1.1]
      rw [if_pos hn]
      have hset : (pre ++ r :: rest).set pre.length n = (pre ++ [n]) ++ rest := by
        simp [List.set_append_right]
      rw [hset]
      have := q_sort_collect_seg l n (pre ++ [n]) rest f hs.2 hh.2 (by simpa using hl)
        (by simp at hf; omega)
      simpa using this

theorem rebuild_ring (head : Nat) : ∀ (l : List Nat) (h : Heap) (built : List Nat),
    Ring h head built → (head :: built ++ l).Nodup →
    Ring (l.foldl (fun t x => list_add_tail t x head) h) head (built ++ l) ∧
    (l.foldl (fun t x => list_add_tail t x head) h).value = h.value
  | [], h, built, hr, _ => by simpa using hr
  | x :: l, h, built, hr, hnd => by
    have hx : x ∉ head :: built := by
      have := List.nodup_middle.1 hnd
      intro hm
      exact (List.nodup_cons.1 this).1 (List.mem_append_left _ hm)
    have h1 := ring_add_tail hr hx
    have := rebuild_ring head l (list_add_tail h x head) (built ++ [x]) h1 (by simpa using hnd)
    simpa using this

theorem q_sort_ring {qsort : (Nat → Nat → Int) → List Nat → List Nat} {h : Heap} {head : Nat}
    {ns : List Nat} {fuel : Nat} (descend : Bool) (hr : Ring h head ns)
    (hf : ns.length < fuel) (hlen : 2 ≤ ns.length)
    (hp : (qsort (if descend then cmp_desc h else cmp_asc h) ns).Perm ns) :
    ∃ h1, q_sort qsort fuel h (some head) descend true = some h1 ∧
      Ring h1 head (qsort (if descend then cmp_desc h else cmp_asc h) ns) ∧
      h1.value = h.value := by
  have hshort : ¬ (list_empty h head = true ∨ h.next (h.next head) = head) := by
    rw [ring_short_iff hr]; omega
  have hcol := q_sort_collect_seg (h := h) ns head [] (List.replicate ns.length 0) fuel hr.2
    (ring_head_not_mem hr) (by simp) hf
  simp only [List.nil_append, List.length_nil] at hcol
  have hnd : (head :: [] ++ qsort (if descend then cmp_desc h else cmp_asc h) ns).Nodup := by
    have : (head :: ns).Nodup := hr.1
    exact (List.Perm.nodup_iff (List.Perm.cons head hp)).2 this
  have hre := rebuild_ring head (qsort (if descend then cmp_desc h else cmp_asc h) ns)
    (INIT_LIST_HEAD h head) [] (ring_init h head) hnd
  refine ⟨q_sort_rebuild (INIT_LIST_HEAD h head) head
    (qsort (if descend then cmp_desc h else cmp_asc h) ns) ns.length, ?_, ?_, ?_⟩
  · simp only [q_sort, if_neg hshort, q_size_ring hr hf, Int.toNat_ofNat, hcol]
    cases descend <;> simp
  · have e : q_sort_rebuild (INIT_LIST_HEAD h head) head
        (qsort (if descend then cmp_desc h else cmp_asc h) ns) ns.length =
        (qsort (if descend then cmp_desc h else cmp_asc h) ns).foldl
          (fun t x => list_add_tail t x head) (INIT_LIST_HEAD h head) := by
      rw [q_sort_rebuild, ← hp.length_eq]
      exact forRange_getD (fun x t => list_add_tail t x head) 0 _ _
    rw [e]
    simpa using hre.1
  · have e : q_sort_rebuild (INIT_LIST_HEAD h head) head
        (qsort (if descend then cmp_desc h else cmp_asc h) ns) ns.length =
        (qsort (if descend then cmp_desc h else cmp_asc h) ns).foldl
          (fun t x => list_add_tail t x head) (INIT_LIST_HEAD h head) := by
      rw [q_sort_rebuild, ← hp.length_eq]
      exact forRange_getD (fun x t => list_add_tail t x head) 0 _ _
    rw [e, hre.2]
    rfl

theorem cmp_total (h : Heap) (descend : Bool) (a b : Nat) :
    (if descend then cmp_desc h else cmp_asc h) a b ≤ 0 ∨
    (if descend then cmp_desc h else cmp_asc h) b a ≤ 0 := by
  cases descend <;> simp only [cmp_asc, cmp_desc, if_true, Bool.false_eq_true, if_false] <;>
    exact strcmp_total _ _

theorem cmp_trans (h : Heap) (descend : Bool) (a b c : Nat)
    (h1 : (if descend then cmp_desc h else cmp_asc h) a b ≤ 0)
    (h2 : (if descend then cmp_desc h else cmp_asc h) b c ≤ 0) :
    (if descend then cmp_desc h else cmp_asc h) a c ≤ 0 := by
  cases descend <;> simp only [cmp_asc, cmp_desc, if_true, Bool.false_eq_true, if_false] at *
  · exact strcmp_trans h1 h2
  · exact strcmp_trans h2 h1

/-- C1, as amended: with a `qsort` that meets the C standard, and the scratch array
allocated (or fewer than two elements, when none is asked for), `q_sort` leaves
a queue holding a permutation of its elements, values untouched, that reads
from head to tail in non-decreasing `strcmp` order when `descend` is false and
in non-increasing order when it is true. -/
theorem q_sort_spec (qsort : (Nat → Nat → Int) → List Nat → List Nat) (hq : QsortSpec qsort)
    (h : Heap) (head : Nat) (ns : List Nat) (fuel : Nat) (descend malloc_ok : Bool)
    (hr : Ring h head ns) (hf : ns.length < fuel)
    (hm : malloc_ok = true ∨ ns.length ≤ 1) :
    ∃ h1 ns1, q_sort qsort fuel h (some head) descend malloc_ok = some h1 ∧
      Ring h1 head ns1 ∧ ns1.Perm ns ∧ (vals h1 ns1).Perm (vals h ns) ∧
      (vals h1 ns1).length = (vals h ns).length ∧
      (descend = false → (vals h1 ns1).Pairwise (fun a b => strcmp a b ≤ 0)) ∧
      (descend = true → (vals h1 ns1).Pairwise (fun a b => strcmp b a ≤ 0)) := by
  by_cases hs : ns.length ≤ 1
  · refine ⟨h, ns, ?_, hr, List.Perm.refl _, List.Perm.refl _, rfl, ?_, ?_⟩
    · simp only [q_sort, if_pos ((ring_short_iff hr).2 hs)]
    · intro _
      match ns, hs with
      | [], _ => simp [vals]
      | [x], _ => simp [vals]
    · intro _
      match ns, hs with
      | [], _ => simp [vals]
      | [x], _ => simp [vals]
  · have hmt : malloc_ok = true := by
      rcases hm with hm | hm
      · exact hm
      · exact absurd hm hs
    subst hmt
    obtain ⟨hperm, hsorted⟩ := hq (if descend then cmp_desc h else cmp_asc h) ns
      (cmp_total h descend) (cmp_trans h descend)
    obtain ⟨h1, e1, e2, e3⟩ := q_sort_ring descend hr hf (by omega) hperm
    refine ⟨h1, _, e1, e2, hperm, ?_, ?_, ?_, ?_⟩
    · simp only [vals, e3]; exact hperm.map _
    · simp only [vals, List.length_map]; exact hperm.length_eq
    · intro hd
      subst hd
      simp only [vals, e3, List.pairwise_map]
      simpa [cmp_asc] using hsorted
    · intro hd
      subst hd
      simp only [vals, e3, List.pairwise_map]
      simpa [cmp_desc] using hsorted

/-- C1, as stated, fails: when the scratch array cannot be allocated `q_sort`
returns at once, and the queue `[c, a, b]` is still `[c, a, b]`, which is not
in non-decreasing order. -/
theorem q_sort_unsorted_when_malloc_fails :
    ∃ h1, q_sort isort 4 (mkQueue Heap.init 0 [str [99], str [97], str [98]]) (some 0)
        false false = some h1 ∧
      contents 4 h1 0 = [str [99], str [97], str [98]] ∧
      ¬ (contents 4 h1 0).Pairwise (fun a b => strcmp a b ≤ 0) :=
  ⟨mkQueue Heap.init 0 [str [99], str [97], str [98]], rfl, by decide, by decide⟩

/-- The amended C1 at the queue `[c, a, b]`, sorted ascending by insertion sort. -/
theorem q_sort_spec_witness :
    ∃ h1 ns1, q_sort isort 4 (mkQueue Heap.init 0 [str [99], str [97], str [98]]) (some 0)
        false true = some h1 ∧
      Ring h1 0 ns1 ∧ ns1.Perm [1, 2, 3] ∧
      (vals h1 ns1).Perm (vals (mkQueue Heap.init 0 [str [99], str [97], str [98]]) [1, 2, 3]) ∧
      (vals h1 ns1).length =
        (vals (mkQueue Heap.init 0 [str [99], str [97], str [98]]) [1, 2, 3]).length ∧
      (false = false → (vals h1 ns1).Pairwise (fun a b => strcmp a b ≤ 0)) ∧
      (false = true → (vals h1 ns1).Pairwise (fun a b => strcmp b a ≤ 0)) :=
  q_sort_spec isort isort_spec (mkQueue Heap.init 0 [str [99], str [97], str [98]]) 0 [1, 2, 3]
    4 false true (by decide) (by decide) (Or.inl rfl)

/-! ## C6: `q_reverseK` -/

theorem reverseGroupsAux_fuel {α : Type} {k : Nat} (hk : 0 < k) : ∀ (f g : Nat) (l : List α),
    l.length ≤ f → l.length ≤ g → reverseGroupsAux k f l = reverseGroupsAux k g l := by
  intro f
  induction f with
  | zero =>
    intro g l hl _
    have hl0 : l.length = 0 := by omega
    have hk0 : ¬ k ≤ l.length := by omega
    cases g <;> simp [reverseGroupsAux, hk0]
  | succ f ih =>
    intro g l hl hg
    by_cases hkl : k ≤ l.length
    · obtain ⟨m, rfl⟩ : ∃ m, g = m + 1 := ⟨g - 1, by omega⟩
      simp only [reverseGroupsAux, if_pos hkl]
      rw [ih m _ (by simp; omega) (by simp; omega)]
    · cases g <;> simp [reverseGroupsAux, hkl]

/-- The equation that defines `reverseGroups`. -/
theorem reverseGroups_eq {α : Type} {k : Nat} (hk : 0 < k) (l : List α) :
    reverseGroups k l =
      if k ≤ l.length then (l.take k).reverse ++ reverseGroups k (l.drop k) else l := by
  unfold reverseGroups
  cases hm : l.length with
  | zero =>
    have : ¬ k ≤ 0 := by omega
    simp [reverseGroupsAux, this]
  | succ m =>
    simp only [reverseGroupsAux, hm]
    split
    · rw [reverseGroupsAux_fuel hk m _ _ (by simp; omega) (le_refl _)]
    · rfl

theorem q_reverseK_count_seg {h : Heap} {head : Nat} {k : Int} : ∀ (l : List Nat) (a : Nat)
    (c : Int) (fuel : Nat), Seg h a l head → head ∉ l → l.length < fuel → c ≤ k →
    q_reverseK_count h head k fuel (h.next a) c = some (min (c + l.length) k)
  | [], a, c, fuel, hs, _, hf, hc => by
    obtain ⟨f, rfl⟩ : ∃ f, fuel = f + 1 := ⟨fuel - 1, by simp at hf; omega⟩
    simp only [Seg] at hs
    simp [q_reverseK_count, hs.1, hc]
  | n :: l, a, c, fuel, hs, hh, hf, hc => by
    obtain ⟨f, rfl⟩ : ∃ f, fuel = f + 1 := ⟨fuel - 1, by simp at hf; omega⟩
    simp only [Seg] at hs
    simp only [List.mem_cons, not_or] at hh
    have hn : n ≠ head := fun e => hh.1 e.symm
    simp only [q_reverseK_count, hs.1.1]
    by_cases hck : c < k
    · rw [if_pos ⟨hn, hck⟩]
      rw [q_reverseK_count_seg l n (c + 1) f hs.2 hh.2 (by simp at hf; omega) (by omega)]
      congr 2
      simp; omega
    · rw [if_neg (fun hc' => hck hc'.2)]
      congr 1
      simp only [List.length_cons, Nat.cast_add, Nat.cast_one]
      omega

theorem q_reverseK_fill_seg {h : Heap} {head a : Nat} {rest : List Nat} (K : Nat)
    (hs : Seg h a rest head) (hK : K ≤ rest.length) :
    ∀ j, j ≤ K →
      forRange j (fun i (s : List Nat × Nat) => (s.1.set i s.2, h.next s.2))
        (List.replicate K 0, h.next a) =
      (rest.take j ++ List.replicate (K - j) 0, rest.getD j head) := by
  intro j
  induction j with
  | zero =>
    intro _
    simp only [forRange, List.range_zero, List.foldl_nil, List.take_zero, List.nil_append,
      Nat.sub_zero, seg_next_head hs]
    cases rest <;> simp
  | succ j ih =>
    intro hj
    rw [forRange_succ, ih (by omega)]
    have hjl : j < rest.length := by omega
    simp only [seg_next_getD hs j hjl]
    congr 1
    have hlen : (rest.take j).length = j := by simp; omega
    rw [List.set_append_right _ _ (by omega), hlen, Nat.sub_self]
    obtain ⟨m, hm⟩ : ∃ m, K - j = m + 1 := ⟨K - j - 1, by omega⟩
    have hm' : K - (j + 1) = m := by omega
    rw [hm, hm', List.replicate_succ, List.set_cons_zero, List.getD_eq_getElem _ _ hjl]
    rw [List.take_succ, List.getElem?_eq_getElem hjl]
    simp only [Option.toList_some, List.append_assoc, List.singleton_append]

theorem q_reverseK_relink_spec (h : Heap) (K : Nat) (group : List Nat) (before after : Nat)
    (hg : group.Nodup) (hlen : group.length = K) :
    ∀ j, j ≤ K →
      (∀ i, i < j →
        (forRange j (fun i h =>
          (h.setPrev (group.getD i 0) (if i = K - 1 then before else group.getD (i + 1) 0)).setNext
            (group.getD i 0) (if i = 0 then after else group.getD (i - 1) 0)) h).next
          (group.getD i 0) = (if i = 0 then after else group.getD (i - 1) 0) ∧
        (forRange j (fun i h =>
          (h.setPrev (group.getD i 0) (if i = K - 1 then before else group.getD (i + 1) 0)).setNext
            (group.getD i 0) (if i = 0 then after else group.getD (i - 1) 0)) h).prev
          (group.getD i 0) = (if i = K - 1 then before else group.getD (i + 1) 0)) ∧
      (∀ x, (∀ i, i < j → x ≠ group.getD i 0) →
        (forRange j (fun i h =>
          (h.setPrev (group.getD i 0) (if i = K - 1 then before else group.getD (i + 1) 0)).setNext
            (group.getD i 0) (if i = 0 then after else group.getD (i - 1) 0)) h).next x =
          h.next x ∧
        (forRange j (fun i h =>
          (h.setPrev (group.getD i 0) (if i = K - 1 then before else group.getD (i + 1) 0)).setNext
            (group.getD i 0) (if i = 0 then after else group.getD (i - 1) 0)) h).prev x =
          h.prev x) ∧
      (forRange j (fun i h =>
          (h.setPrev (group.getD i 0) (if i = K - 1 then before else group.getD (i + 1) 0)).setNext
            (group.getD i 0) (if i = 0 then after else group.getD (i - 1) 0)) h).value =
        h.value := by
  intro j
  induction j with
  | zero =>
    intro _
    exact ⟨fun i hi => absurd hi (by omega), fun _ _ => ⟨rfl, rfl⟩, rfl⟩
  | succ j ih =>
    intro hj
    obtain ⟨ih1, ih2, ih3⟩ := ih (by omega)
    rw [forRange_succ]
    refine ⟨?_, ?_, ?_⟩
    · intro i hi
      by_cases hij : i = j
      · subst hij
        simp
      · have hne : group.getD i 0 ≠ group.getD j 0 := by
          rw [List.getD_eq_getElem _ _ (by omega), List.getD_eq_getElem _ _ (by omega)]
          intro e
          exact hij ((List.Nodup.getElem_inj_iff hg).1 e)
        have := ih1 i (by omega)
        simp only [setNext_next, setPrev_prev, setPrev_next, setNext_prev, if_neg hne]
        exact this
    · intro x hx
      have hxj := hx j (by omega)
      have := ih2 x (fun i hi => hx i (by omega))
      simp only [setNext_next, setPrev_prev, setPrev_next, setNext_prev, if_neg hxj]
      exact this
    · simpa using ih3

/-! ### Segments as chains of links -/

theorem seg_iff_chain (h : Heap) (b : Nat) : ∀ (l : List Nat) (a : Nat),
    Seg h a l b ↔ List.Chain' (Link h) (a :: l ++ [b])
  | [], a => by simp [Seg, Link]
  | n :: l, a => by
    have := seg_iff_chain h b l n
    simp only [Seg, this, List.cons_append, List.chain'_cons, Link]

theorem chain_frame {h h1 : Heap} : ∀ {l : List Nat}, List.Chain' (Link h) l →
    (∀ x ∈ l.dropLast, h1.next x = h.next x) → (∀ y ∈ l.tail, h1.prev y = h.prev y) →
    List.Chain' (Link h1) l
  | [], _, _, _ => List.chain'_nil
  | [_], _, _, _ => List.chain'_singleton _
  | x :: y :: l, hc, hn, hp => by
    rw [List.chain'_cons] at hc ⊢
    refine ⟨?_, chain_frame hc.2 (fun z hz => hn z ?_) (fun z hz => hp z ?_)⟩
    · have h1' := hn x (by simp)
      have h2' := hp y (by simp)
      simp only [Link, h1', h2']
      exact hc.1
    · simp only [List.dropLast_cons₂, List.mem_cons] at hz ⊢
      exact Or.inr hz
    · simp only [List.tail_cons, List.mem_cons] at hz ⊢
      exact Or.inr hz

theorem chain_append3 {R : Nat → Nat → Prop} {A G B : List Nat} {b x y a : Nat}
    (hA : List.Chain' R A) (hG : List.Chain' R G) (hB : List.Chain' R B)
    (hb : A.getLast? = some b) (hx : G.head? = some x) (hy : G.getLast? = some y)
    (ha : B.head? = some a) (h1 : R b x) (h2 : R y a) : List.Chain' R (A ++ G ++ B) := by
  rw [List.chain'_append, List.chain'_append]
  refine ⟨⟨hA, hG, ?_⟩, hB, ?_⟩
  · intro u hu v hv
    rw [hb] at hu; rw [hx] at hv
    simp only [Option.mem_def, Option.some.injEq] at hu hv
    subst hu; subst hv; exact h1
  · intro u hu v hv
    rw [List.getLast?_append, hy] at hu; rw [ha] at hv
    simp only [Option.mem_def, Option.or, Option.some.injEq] at hu hv
    subst hu; subst hv; exact h2

theorem chain_split3 {R : Nat → Nat → Prop} {A G B : List Nat} {b x y a : Nat}
    (hc : List.Chain' R (A ++ G ++ B))
    (hb : A.getLast? = some b) (hx : G.head? = some x) (hy : G.getLast? = some y)
    (ha : B.head? = some a) :
    List.Chain' R A ∧ List.Chain' R G ∧ List.Chain' R B ∧ R b x ∧ R y a := by
  rw [List.chain'_append, List.chain'_append] at hc
  obtain ⟨⟨hA, hG, h1⟩, hB, h2⟩ := hc
  refine ⟨hA, hG, hB, h1 b (by simp [hb]) x (by simp [hx]), h2 y ?_ a (by simp [ha])⟩
  simp [List.getLast?_append, hy, Option.or]

theorem getLast_not_mem_dropLast {l : List Nat} {b : Nat} (hnd : l.Nodup)
    (hb : l.getLast? = some b) : b ∉ l.dropLast := by
  have e := List.dropLast_append_getLast? b hb
  rw [← e] at hnd
  have := (List.nodup_append.1 hnd).2.2
  intro hm
  exact this hm (by simp) 

theorem head_not_mem_tail {l : List Nat} {a : Nat} (hnd : l.Nodup) (ha : l.head? = some a) :
    a ∉ l.tail := by
  cases l with
  | nil => simp at ha
  | cons x l =>
    simp only [List.head?_cons, Option.some.injEq] at ha
    subst ha
    exact (List.nodup_cons.1 hnd).1

/-- Relinking one group of a queue: when the nodes of `G` point at each other
the other way round, the node before the group points at its last node and
the node after it points back at its first, the group sits in the queue
reversed. -/
theorem reverse_group_ring {h h3 : Heap} {head b a : Nat} {done G rest : List Nat}
    (hr : Ring h head (done ++ G ++ rest)) (hK : 1 ≤ G.length)
    (hb : (head :: done).getLast? = some b) (ha : (rest ++ [head]).head? = some a)
    (hn : ∀ i, i < G.length → h3.next (G.getD i 0) = if i = 0 then a else G.getD (i - 1) 0)
    (hp : ∀ i, i < G.length →
      h3.prev (G.getD i 0) = if i = G.length - 1 then b else G.getD (i + 1) 0)
    (hbn : h3.next b = G.getD (G.length - 1) 0) (hap : h3.prev a = G.getD 0 0)
    (hfn : ∀ x, x ∉ G → x ≠ b → h3.next x = h.next x)
    (hfp : ∀ x, x ∉ G → x ≠ a → h3.prev x = h.prev x) :
    Ring h3 head (done ++ G.reverse ++ rest) := by
  have hnd : (head :: (done ++ G ++ rest)).Nodup := hr.1
  have hnd3 : (head :: (done ++ G.reverse ++ rest)).Nodup := by
    refine (List.Perm.nodup_iff ?_).2 hnd
    exact List.Perm.cons _ ((List.Perm.append_left _ (List.reverse_perm G)).append_right _)
  refine ⟨hnd3, ?_⟩
  have hch := (seg_iff_chain h head _ head).1 hr.2
  have e1 : head :: (done ++ G ++ rest) ++ [head] = (head :: done) ++ G ++ (rest ++ [head]) := by
    simp
  have e3 : head :: (done ++ G.reverse ++ rest) ++ [head] =
      (head :: done) ++ G.reverse ++ (rest ++ [head]) := by simp
  rw [seg_iff_chain, e3]
  rw [e1] at hch
  have hG0 : G.head? = some (G.getD 0 0) := by
    cases G with
    | nil => simp at hK
    | cons g G => simp
  have hGl : G.getLast? = some (G.getD (G.length - 1) 0) := by
    rw [List.getLast?_eq_getElem?, List.getD_eq_getElem?_getD]
    have : G.length - 1 < G.length := by omega
    rw [List.getElem?_eq_getElem this]; rfl
  obtain ⟨cA, _, cB, _, _⟩ := chain_split3 hch hb hG0 hGl ha
  have hndA : (head :: done).Nodup := by
    have : ((head :: done) ++ (G ++ rest)).Nodup := by simpa using hnd
    exact (List.nodup_append.1 this).1
  have hndB : (rest ++ [head]).Nodup := by
    have h1 : (head :: (done ++ G ++ rest)).Nodup := hnd
    have h2 : (rest ++ [head]).Nodup := by
      rw [List.nodup_append]
      simp only [List.nodup_cons, List.mem_append, not_or, List.nodup_append] at h1
      refine ⟨h1.2.2.1, by simp, ?_⟩
      intro x hx hy
      simp only [List.mem_singleton] at hy
      subst hy
      exact h1.1.2 hx
    exact h2
  have hbA : b ∈ head :: done := List.mem_of_mem_getLast? hb
  have haB : a ∈ rest ++ [head] := List.mem_of_mem_head? ha
  -- separation facts
  simp only [List.nodup_cons, List.mem_append, not_or, List.nodup_append] at hnd
  obtain ⟨⟨⟨hhd, hhG⟩, hhr⟩, ⟨⟨hndd, hndG, hdG⟩, hndr, hdGr⟩⟩ := hnd
  have hbG : b ∉ G := by
    rcases List.mem_cons.1 hbA with rfl | hm
    · exact hhG
    · exact fun hg => hdG hm hg
  have haG : a ∉ G := by
    rcases List.mem_append.1 haB with hm | hm
    · exact fun hg => hdGr (List.mem_append_right _ hg) hm
    · simp only [List.mem_singleton] at hm; subst hm; exact hhG
  have cA3 : List.Chain' (Link h3) (head :: done) := by
    refine chain_frame cA ?_ ?_
    · intro x hx
      have hxA : x ∈ head :: done := List.mem_of_mem_dropLast hx
      apply hfn
      · rcases List.mem_cons.1 hxA with rfl | hm
        · exact hhG
        · exact fun hg => hdG hm hg
      · rintro rfl
        exact getLast_not_mem_dropLast hndA hb hx
    · intro y hy
      simp only [List.tail_cons] at hy
      apply hfp
      · exact fun hg => hdG hy hg
      · rintro rfl
        rcases List.mem_append.1 haB with hm | hm
        · exact hdGr (List.mem_append_left _ hy) hm
        · simp only [List.mem_singleton] at hm; subst hm; exact hhd hy
  have cB3 : List.Chain' (Link h3) (rest ++ [head]) := by
    refine chain_frame cB ?_ ?_
    · intro x hx
      rw [List.dropLast_concat] at hx
      apply hfn
      · exact fun hg => hdGr (List.mem_append_right _ hg) hx
      · rintro rfl
        rcases List.mem_cons.1 hbA with e | hm
        · subst e; exact hhr hx
        · exact hdGr (List.mem_append_left _ hm) hx
    · intro y hy
      have hyB : y ∈ rest ++ [head] := List.mem_of_mem_tail hy
      apply hfp
      · rcases List.mem_append.1 hyB with hm | hm
        · exact fun hg => hdGr (List.mem_append_right _ hg) hm
        · simp only [List.mem_singleton] at hm; subst hm; exact hhG
      · rintro rfl
        exact head_not_mem_tail hndB ha hy
  have cG3 : List.Chain' (Link h3) G.reverse := by
    rw [List.chain'_iff_get]
    intro i hi
    simp only [List.length_reverse] at hi
    simp only [List.get_eq_getElem, List.getElem_reverse]
    have e1 : G.length - 1 - i < G.length := by omega
    have e2 : G.length - 1 - (i + 1) < G.length := by omega
    have hn' := hn (G.length - 1 - i) e1
    have hp' := hp (G.length - 1 - (i + 1)) e2
    rw [List.getD_eq_getElem _ _ e1] at hn'
    rw [List.getD_eq_getElem _ _ e2] at hp'
    rw [if_neg (by omega)] at hn' hp'
    have e3 : G.length - 1 - i - 1 = G.length - 1 - (i + 1) := by omega
    have e4 : G.length - 1 - (i + 1) + 1 = G.length - 1 - i := by omega
    rw [e3, List.getD_eq_getElem _ _ e2] at hn'
    rw [e4, List.getD_eq_getElem _ _ e1] at hp'
    exact ⟨hn', hp'⟩
  refine chain_append3 cA3 cG3 cB3 hb (by rw [List.head?_reverse]; exact hGl)
    (by rw [List.getLast?_reverse]; exact hG0) ha ?_ ?_
  · refine ⟨hbn, ?_⟩
    have := hp (G.length - 1) (by omega)
    rw [if_pos rfl] at this
    exact this
  · refine ⟨?_, hap⟩
    have := hn 0 (by omega)
    rw [if_pos rfl] at this
    exact this

theorem ring_suffix_seg {h : Heap} {head : Nat} {done rest : List Nat}
    (hr : Ring h head (done ++ rest)) :
    Seg h ((head :: done).getLast (by simp)) rest head := by
  rcases eq_nil_or_snoc done with rfl | ⟨d, b, rfl⟩
  · simpa using hr.2
  · have := hr.2
    rw [List.append_assoc, List.singleton_append, seg_append] at this
    have e : (head :: (d ++ [b])).getLast (by simp) = b := by
      rw [List.getLast_cons (by simp)]; simp
    rw [e]
    exact this.2

/-- One round of the outer loop of `q_reverseK` on the group `G`. -/
theorem q_reverseK_group_ring {h : Heap} {head b a : Nat} {done G rest : List Nat}
    (hr : Ring h head (done ++ G ++ rest)) (hK : 1 ≤ G.length)
    (hb : (head :: done).getLast? = some b) (ha : (rest ++ [head]).head? = some a) :
    Ring (((q_reverseK_relink h G.length G b a).setNext b (G.getD (G.length - 1) 0)).setPrev a
      (G.getD 0 0)) head (done ++ G.reverse ++ rest) ∧
    (((q_reverseK_relink h G.length G b a).setNext b (G.getD (G.length - 1) 0)).setPrev a
      (G.getD 0 0)).value = h.value := by
  have hnd : (head :: (done ++ G ++ rest)).Nodup := hr.1
  have hbA : b ∈ head :: done := List.mem_of_mem_getLast? hb
  have haB : a ∈ rest ++ [head] := List.mem_of_mem_head? ha
  simp only [List.nodup_cons, List.mem_append, not_or, List.nodup_append] at hnd
  obtain ⟨⟨⟨hhd, hhG⟩, hhr⟩, ⟨⟨hndd, hndG, hdG⟩, hndr, hdGr⟩⟩ := hnd
  have hbG : b ∉ G := by
    rcases List.mem_cons.1 hbA with rfl | hm
    · exact hhG
    · exact fun hg => hdG hm hg
  have haG : a ∉ G := by
    rcases List.mem_append.1 haB with hm | hm
    · exact fun hg => hdGr (List.mem_append_right _ hg) hm
    · simp only [List.mem_singleton] at hm; subst hm; exact hhG
  obtain ⟨r1, r2, r3⟩ := q_reverseK_relink_spec h G.length G b a hndG rfl G.length (le_refl _)
  have hmem : ∀ i, i < G.length → G.getD i 0 ∈ G := by
    intro i hi
    rw [List.getD_eq_getElem _ _ hi]
    exact List.getElem_mem hi
  have hout : ∀ x, x ∉ G → ∀ i, i < G.length → x ≠ G.getD i 0 := by
    intro x hx i hi e
    exact hx (e ▸ hmem i hi)
  refine ⟨reverse_group_ring hr hK hb ha ?_ ?_ ?_ ?_ ?_ ?_, ?_⟩
  · intro i hi
    have hne : G.getD i 0 ≠ b := fun e => hbG (e ▸ hmem i hi)
    simp only [setPrev_next, setNext_next, if_neg hne]
    exact (r1 i hi).1
  · intro i hi
    have hne : G.getD i 0 ≠ a := fun e => haG (e ▸ hmem i hi)
    simp only [setPrev_prev, setNext_prev, if_neg hne]
    exact (r1 i hi).2
  · simp
  · simp
  · intro x hx hxb
    simp only [setPrev_next, setNext_next, if_neg hxb]
    exact (r2 x (hout x hx)).1
  · intro x hx hxa
    simp only [setPrev_prev, setNext_prev, if_neg hxa]
    exact (r2 x (hout x hx)).2
  · simp only [setPrev_value, setNext_value]
    exact r3

theorem q_reverseK_loop_spec (head : Nat) {k : Int} (hk : 2 ≤ k) {malloc_ok : Nat → Bool}
    (hm : ∀ g, malloc_ok g = true) (fuel0 : Nat) :
    ∀ (n : Nat) (rest done : List Nat) (h : Heap) (g fuel : Nat), rest.length ≤ n →
    Ring h head (done ++ rest) → rest.length < fuel → rest.length < fuel0 →
    ∃ h1, q_reverseK_loop head k malloc_ok fuel0 fuel h (rest.headD head) g = some h1 ∧
      Ring h1 head (done ++ reverseGroups k.toNat rest) ∧ h1.value = h.value := by
  have hKpos : 0 < k.toNat := by omega
  intro n
  induction n with
  | zero =>
    intro rest done h g fuel hn hr hf _
    obtain ⟨f, rfl⟩ : ∃ f, fuel = f + 1 := ⟨fuel - 1, by omega⟩
    have : rest = [] := List.length_eq_zero.1 (by omega)
    subst this
    refine ⟨h, by simp [q_reverseK_loop], ?_, rfl⟩
    rw [reverseGroups_eq hKpos, if_neg (by simp; omega)]
    simpa using hr
  | succ n ih =>
    intro rest done h g fuel hn hr hf hf0
    obtain ⟨f, rfl⟩ : ∃ f, fuel = f + 1 := ⟨fuel - 1, by omega⟩
    cases hrest : rest with
    | nil =>
      subst hrest
      refine ⟨h, by simp [q_reverseK_loop], ?_, rfl⟩
      rw [reverseGroups_eq hKpos, if_neg (by simp; omega)]
      simpa using hr
    | cons c tl =>
      rw [← hrest]
      have hhead := ring_head_not_mem hr
      have hhr : head ∉ rest := fun hm' => hhead (List.mem_append_right _ hm')
      have hc : rest.headD head ≠ head := by
        rw [hrest]; simp only [List.headD_cons]
        rintro rfl
        exact hhr (by rw [hrest]; simp)
      have hseg := ring_suffix_seg hr
      have hcur : h.next ((head :: done).getLast (by simp)) = rest.headD head :=
        seg_next_head hseg
      have hcount := q_reverseK_count_seg (k := k) rest _ 0 fuel0 hseg hhr hf0 (by omega)
      rw [hcur] at hcount
      simp only [q_reverseK_loop]
      rw [if_pos hc, hcount]
      simp only [zero_add]
      by_cases hlt : (rest.length : Int) < k
      · have hmin : min (rest.length : Int) k < k := by omega
        rw [if_pos hmin]
        refine ⟨h, rfl, ?_, rfl⟩
        rw [reverseGroups_eq hKpos, if_neg (by omega)]
        exact hr
      · have hmin : ¬ min (rest.length : Int) k < k := by omega
        rw [if_neg hmin]
        simp only [hm, Bool.not_true, Bool.false_eq_true, if_false]
        have hKle : k.toNat ≤ rest.length := by omega
        have hfill := q_reverseK_fill_seg k.toNat hseg hKle k.toNat (le_refl _)
        rw [hcur] at hfill
        have hgroup : (q_reverseK_fill h k.toNat (rest.headD head)).1 = rest.take k.toNat := by
          rw [q_reverseK_fill, hfill]; simp
        rw [hgroup]
        have hGlen : (rest.take k.toNat).length = k.toNat := by simp; omega
        have hsplit : done ++ rest = done ++ rest.take k.toNat ++ rest.drop k.toNat := by
          rw [List.append_assoc, List.take_append_drop]
        have hr' : Ring h head (done ++ rest.take k.toNat ++ rest.drop k.toNat) := by
          rw [← hsplit]; exact hr
        have hg0 : (rest.take k.toNat).getD 0 0 = c := by
          rw [hrest]
          obtain ⟨m, hm'⟩ : ∃ m, k.toNat = m + 1 := ⟨k.toNat - 1, by omega⟩
          rw [hm']; simp
        have hbefore : h.prev ((rest.take k.toNat).getD 0 0) =
            (head :: done).getLast (by simp) := by
          rw [hg0]
          have := hr.2
          rw [hrest, seg_append] at this
          exact seg_prev_last this.1
        have hlastG : (rest.take k.toNat).getD (k.toNat - 1) 0 = rest.getD (k.toNat - 1) head := by
          have hlt1 : k.toNat - 1 < rest.length := by omega
          rw [List.getD_eq_getElem?_getD, List.getD_eq_getElem?_getD,
            List.getElem?_take_of_lt (by omega), List.getElem?_eq_getElem hlt1]
          rfl
        have hafter : h.next ((rest.take k.toNat).getD (k.toNat - 1) 0) =
            (rest.drop k.toNat).headD head := by
          rw [hlastG, seg_next_getD hseg _ (by omega)]
          have e : k.toNat - 1 + 1 = k.toNat := by omega
          rw [e]
          cases hd : rest.drop k.toNat with
          | nil =>
            have : rest.length ≤ k.toNat := by
              have := congrArg List.length hd; simp at this; omega
            rw [List.getD_eq_default _ _ this]; rfl
          | cons d tl' =>
            have hlt' : k.toNat < rest.length := by
              have := congrArg List.length hd; simp at this; omega
            have := List.cons_getElem_drop_succ (l := rest) (n := k.toNat) (h := hlt')
            rw [hd] at this
            simp only [List.headD_cons]
            rw [List.getD_eq_getElem _ _ hlt']
            exact (List.cons.inj this).1
        have hb : (head :: done).getLast? = some ((head :: done).getLast (by simp)) :=
          List.getLast?_eq_getLast _ _
        have ha : (rest.drop k.toNat ++ [head]).head? = some ((rest.drop k.toNat).headD head) := by
          cases rest.drop k.toNat <;> simp
        have hround := q_reverseK_group_ring hr' (by omega) hb ha
        rw [hGlen] at hround
        simp only [hbefore, hafter]
        obtain ⟨h1, e1, e2, e3⟩ := ih (rest.drop k.toNat) (done ++ (rest.take k.toNat).reverse) _
          (g + 1) f (by simp; omega) hround.1 (by simp; omega) (by simp; omega)
        refine ⟨h1, e1, ?_, by rw [e3, hround.2]⟩
        rw [reverseGroups_eq hKpos rest, if_pos hKle, ← List.append_assoc]
        exact e2

theorem reverseGroupsAux_map {α β : Type} (f : α → β) (k : Nat) : ∀ (n : Nat) (l : List α),
    (reverseGroupsAux k n l).map f = reverseGroupsAux k n (l.map f) := by
  intro n
  induction n with
  | zero => intro l; rfl
  | succ n ih =>
    intro l
    simp only [reverseGroupsAux, List.length_map]
    split
    · rw [List.map_append, ih, List.map_reverse, List.map_take, List.map_drop]
    · rfl

theorem reverseGroups_map {α β : Type} (f : α → β) (k : Nat) (l : List α) :
    (reverseGroups k l).map f = reverseGroups k (l.map f) := by
  simp only [reverseGroups, List.length_map]
  exact reverseGroupsAux_map f k _ l

/-- Where `reverseGroups` takes each entry from: entry `i` of a full group
comes from the mirrored position of that group, an entry of the short final
group from position `i` itself. -/
theorem reverseGroups_getElem? {α : Type} {k : Nat} (hk : 0 < k) : ∀ (n : Nat) (l : List α),
    l.length ≤ n → ∀ i, i < l.length →
    (reverseGroups k l)[i]? =
      l[if (i / k + 1) * k ≤ l.length then i / k * k + (k - 1 - i % k) else i]? := by
  intro n
  induction n with
  | zero => intro l hl i hi; omega
  | succ n ih =>
    intro l hl i hi
    rw [reverseGroups_eq hk]
    by_cases hkl : k ≤ l.length
    · rw [if_pos hkl]
      have hlen : (l.take k).reverse.length = k := by simp; omega
      by_cases hik : i < k
      · rw [List.getElem?_append_left (by omega), List.getElem?_reverse (by simp; omega)]
        have e1 : i / k = 0 := Nat.div_eq_of_lt hik
        have e2 : i % k = i := Nat.mod_eq_of_lt hik
        have e3 : (List.take k l).length = k := by simp; omega
        rw [e1, e2, e3, if_pos (by omega), List.getElem?_take_of_lt (by omega)]
        congr 1; omega
      · have hik' : k ≤ i := by omega
        rw [List.getElem?_append_right (by omega), hlen,
          ih (l.drop k) (by simp; omega) (i - k) (by simp; omega), List.getElem?_drop]
        have e1 : i / k = (i - k) / k + 1 := by
          conv_lhs => rw [show i = (i - k) + k by omega]
          exact Nat.add_div_right _ hk
        have e2 : i % k = (i - k) % k := by
          conv_lhs => rw [show i = (i - k) + k by omega]
          exact Nat.add_mod_right _ _
        have e3 : (l.drop k).length = l.length - k := by simp
        rw [e1, e2, e3]
        have e4 : ((i - k) / k + 1 + 1) * k = ((i - k) / k + 1) * k + k := by ring
        have e5 : ((i - k) / k + 1) * k = (i - k) / k * k + k := by ring
        rw [e4]
        congr 1
        by_cases hc : ((i - k) / k + 1) * k ≤ l.length - k
        · rw [if_pos hc, if_pos (by omega), e5]; omega
        · rw [if_neg hc, if_neg (by omega)]; omega
    · rw [if_neg hkl]
      have e1 : i / k = 0 := Nat.div_eq_of_lt (by omega)
      rw [e1, if_neg (by omega)]

/-- C6: for `k ≥ 2` and every scratch allocation succeeding, `q_reverseK`
leaves the original sequence cut into consecutive groups of exactly `k`
elements with each full group reversed and the final group of fewer than `k`
elements in its original order, values untouched; for `k ≤ 1`, and for `k`
greater than the number of elements, memory is left as it was. -/
theorem q_reverseK_spec (h : Heap) (head : Nat) (ns : List Nat) (fuel : Nat) (k : Int)
    (malloc_ok : Nat → Bool) (hr : Ring h head ns) (hf : ns.length < fuel) :
    (2 ≤ k → (∀ g, malloc_ok g = true) →
      ∃ h1, q_reverseK fuel h (some head) k malloc_ok = some h1 ∧
        Ring h1 head (reverseGroups k.toNat ns) ∧
        vals h1 (reverseGroups k.toNat ns) = reverseGroups k.toNat (vals h ns) ∧
        ∀ i, i < ns.length →
          (vals h1 (reverseGroups k.toNat ns))[i]? =
            (vals h ns)[if (i / k.toNat + 1) * k.toNat ≤ ns.length then
              i / k.toNat * k.toNat + (k.toNat - 1 - i % k.toNat) else i]?) ∧
    (k ≤ 1 → q_reverseK fuel h (some head) k malloc_ok = some h) ∧
    ((ns.length : Int) < k → q_reverseK fuel h (some head) k malloc_ok = some h) := by
  have hseg : Seg h head ns head := hr.2
  have hhead := ring_head_not_mem hr
  refine ⟨?_, ?_, ?_⟩
  · intro hk hm
    obtain ⟨h1, e1, e2, e3⟩ := q_reverseK_loop_spec head hk hm fuel ns.length ns [] h
      0 fuel (le_refl _) (by simpa using hr) hf hf
    have hv : vals h1 (reverseGroups k.toNat ns) = reverseGroups k.toNat (vals h ns) := by
      simp only [vals, e3]
      exact reverseGroups_map _ _ _
    refine ⟨h1, ?_, by simpa using e2, hv, ?_⟩
    · simp only [q_reverseK]
      by_cases he : list_empty h head = true
      · have hnil := (ring_empty_iff hr).1 he
        subst hnil
        obtain ⟨f, rfl⟩ : ∃ f, fuel = f + 1 := ⟨fuel - 1, by omega⟩
        simp [q_reverseK_loop] at e1
        subst e1
        simp [he]
      · rw [if_neg (by rintro (hc | hc); exact he hc; omega), ring_next_head hr]
        exact e1
    · intro i hi
      rw [hv]
      have := reverseGroups_getElem? (k := k.toNat) (by omega) _ (vals h ns) (le_refl _) i
        (by simpa [vals] using hi)
      simpa [vals] using this
  · intro hk
    simp [q_reverseK, hk]
  · intro hk
    simp only [q_reverseK]
    by_cases hc : list_empty h head = true ∨ k ≤ 1
    · rw [if_pos hc]
    · rw [if_neg hc]
      push_neg at hc
      obtain ⟨f, rfl⟩ : ∃ f, fuel = f + 1 := ⟨fuel - 1, by omega⟩
      have hne : ns ≠ [] := fun e => hc.1 ((ring_empty_iff hr).2 e)
      have hcur : h.next head ≠ head := by
        intro e; exact hc.1 (by simp [list_empty, e])
      have hcount := q_reverseK_count_seg (k := k) ns head 0 (f + 1) hseg hhead hf (by omega)
      have hmin : min (0 + (ns.length : Int)) k < k := by omega
      simp only [q_reverseK_loop]
      rw [if_pos hcur, hcount]
      simp only [if_pos hmin]

/-! ## C2: `merge_two` and `q_merge` -/

/-- Linking a fresh node in before the node `p` of a queue. -/
theorem ring_insert_before {h h1 : Heap} {head p x : Nat} {pre post : List Nat}
    (hr : Ring h head (pre ++ p :: post)) (hx : x ∉ head :: (pre ++ p :: post))
    (hn : ∀ y, h1.next y = if y = x then p else if y = h.prev p then x else h.next y)
    (hp : ∀ y, h1.prev y = if y = p then x else if y = x then h.prev p else h.prev y) :
    Ring h1 head (pre ++ x :: p :: post) := by
  have h1' : Cyc h (p :: (post ++ head :: pre)) := by
    have := (cyc_rotate h (head :: pre) (p :: post)).1 (by simpa [Ring] using hr)
    simpa using this
  have hx' : x ∉ p :: (post ++ head :: pre) := by
    intro hm; apply hx
    simp only [List.mem_cons, List.mem_append] at hm ⊢
    tauto
  have h2 := cyc_insert_before h1' hx' hn hp
  have h3 : Cyc h1 ((p :: post) ++ (head :: (pre ++ [x]))) := by simpa using h2
  have := (cyc_rotate h1 (p :: post) (head :: (pre ++ [x]))).1 h3
  simpa [Ring] using this

/-- The `else` branch of the loop of `merge_two`: the first node `q` of the
source is taken out and linked in before `p` in the destination. -/
theorem merge_two_move {h : Heap} {dest src p q : Nat} {done ps qs : List Nat}
    (hd : Ring h dest (done ++ p :: ps)) (hs : Ring h src (q :: qs))
    (hdis : ∀ x, x ∈ dest :: (done ++ p :: ps) → x ∉ src :: q :: qs) :
    Ring ((((((list_del h q).setPrev q ((list_del h q).prev p)).setNext q p).setNext
        ((((list_del h q).setPrev q ((list_del h q).prev p)).setNext q p).prev p) q).setPrev p q))
      dest (done ++ q :: p :: ps) ∧
    Ring ((((((list_del h q).setPrev q ((list_del h q).prev p)).setNext q p).setNext
        ((((list_del h q).setPrev q ((list_del h q).prev p)).setNext q p).prev p) q).setPrev p q))
      src qs ∧
    (∀ y, y ∉ dest :: (done ++ p :: ps) → y ∉ src :: q :: qs →
      ((((((list_del h q).setPrev q ((list_del h q).prev p)).setNext q p).setNext
        ((((list_del h q).setPrev q ((list_del h q).prev p)).setNext q p).prev p) q).setPrev
          p q)).next y = h.next y ∧
      ((((((list_del h q).setPrev q ((list_del h q).prev p)).setNext q p).setNext
        ((((list_del h q).setPrev q ((list_del h q).prev p)).setNext q p).prev p) q).setPrev
          p q)).prev y = h.prev y) := by
  have hpd : p ∈ dest :: (done ++ p :: ps) := by simp
  have hqs : q ∈ src :: q :: qs := by simp
  have hpq : p ≠ q := fun e => hdis p hpd (by rw [e]; exact hqs)
  -- after `list_del`
  have hs1 : Ring (list_del h q) src qs := by simpa using @ring_del h src q [] qs (by simpa using hs)
  have hfr : ∀ y, y ∉ src :: q :: qs →
      (list_del h q).next y = h.next y ∧ (list_del h q).prev y = h.prev y :=
    fun y hy => list_del_frame hs hqs hy
  have hd1 : Ring (list_del h q) dest (done ++ p :: ps) :=
    (ring_congr (fun x hx => (hfr x (hdis x hx)).1) (fun x hx => (hfr x (hdis x hx)).2)).2 hd
  have hpp : (list_del h q).prev p ∈ dest :: (done ++ p :: ps) := (cyc_closed hd1 hpd).2
  have hppq : (list_del h q).prev p ≠ q := fun e => hdis _ hpp (by rw [e]; exact hqs)
  have hqd : q ∉ dest :: (done ++ p :: ps) := fun hm => hdis q hm hqs
  have hn : ∀ y, ((((((list_del h q).setPrev q ((list_del h q).prev p)).setNext q p).setNext
        ((((list_del h q).setPrev q ((list_del h q).prev p)).setNext q p).prev p) q).setPrev
          p q)).next y =
      if y = q then p else if y = (list_del h q).prev p then q else (list_del h q).next y := by
    intro y
    simp only [setPrev_next, setNext_next, setPrev_prev, setNext_prev, if_neg hpq]
    by_cases h1 : y = q
    · subst h1; simp [hppq.symm]
    · simp [h1]
  have hp : ∀ y, ((((((list_del h q).setPrev q ((list_del h q).prev p)).setNext q p).setNext
        ((((list_del h q).setPrev q ((list_del h q).prev p)).setNext q p).prev p) q).setPrev
          p q)).prev y =
      if y = p then q else if y = q then (list_del h q).prev p else (list_del h q).prev y := by
    intro y
    simp only [setPrev_next, setNext_next, setPrev_prev, setNext_prev]
  refine ⟨ring_insert_before hd1 hqd hn hp, ?_, ?_⟩
  · refine (ring_congr ?_ ?_).2 hs1
    · intro x hx
      have hxq : x ≠ q := by
        rintro rfl
        have := hs.1
        simp only [List.nodup_cons, List.mem_cons, not_or] at this hx
        rcases hx with rfl | hx
        · exact this.1.1 rfl
        · exact this.2.1 hx
      have hxs : x ∈ src :: q :: qs := by
        simp only [List.mem_cons] at hx ⊢; tauto
      have hxpp : x ≠ (list_del h q).prev p := fun e => hdis _ hpp (by rw [← e]; exact hxs)
      rw [hn, if_neg hxq, if_neg hxpp]
    · intro x hx
      have hxq : x ≠ q := by
        rintro rfl
        have := hs.1
        simp only [List.nodup_cons, List.mem_cons, not_or] at this hx
        rcases hx with rfl | hx
        · exact this.1.1 rfl
        · exact this.2.1 hx
      have hxs : x ∈ src :: q :: qs := by
        simp only [List.mem_cons] at hx ⊢; tauto
      have hxp : x ≠ p := fun e => hdis p hpd (by rw [← e]; exact hxs)
      rw [hp, if_neg hxp, if_neg hxq]
  · intro y hyd hys
    have hyq : y ≠ q := fun e => hys (by rw [e]; exact hqs)
    have hyp : y ≠ p := fun e => hyd (by rw [e]; exact hpd)
    have hypp : y ≠ (list_del h q).prev p := fun e => hyd (by rw [e]; exact hpp)
    rw [hn, hp, if_neg hyq, if_neg hypp, if_neg hyp, if_neg hyq]
    exact hfr y hys

theorem ring_chain {h : Heap} {head : Nat} {ns : List Nat} (hr : Ring h head ns) :
    List.Chain' (Link h) (head :: ns) ∧ Link h ((head :: ns).getLast (by simp)) head := by
  have hc := (seg_iff_chain h head ns head).1 hr.2
  have e : head :: ns ++ [head] = (head :: ns) ++ [head] := rfl
  rw [e, List.chain'_append] at hc
  refine ⟨hc.1, hc.2.2 _ ?_ head (by simp)⟩
  rw [List.getLast?_eq_getLast _ (by simp)]
  simp

/-- The tail of `merge_two`: what is left of the source, from `q` on, is hung
on the end of the destination, and the source is made an empty ring. -/
theorem merge_two_splice {h : Heap} {dest src q : Nat} {D qs : List Nat}
    (hd : Ring h dest D) (hs : Ring h src (q :: qs))
    (hdis : ∀ x, x ∈ dest :: D → x ∉ src :: q :: qs) :
    Ring (INIT_LIST_HEAD
        ((((h.setNext (h.prev dest) q).setPrev q (h.prev dest)).setPrev dest
          (((h.setNext (h.prev dest) q).setPrev q (h.prev dest)).prev src)).setNext
          ((((h.setNext (h.prev dest) q).setPrev q (h.prev dest)).setPrev dest
            (((h.setNext (h.prev dest) q).setPrev q (h.prev dest)).prev src)).prev src) dest)
        src) dest (D ++ q :: qs) ∧
    (∀ y, y ∉ dest :: D → y ∉ src :: q :: qs →
      (INIT_LIST_HEAD
        ((((h.setNext (h.prev dest) q).setPrev q (h.prev dest)).setPrev dest
          (((h.setNext (h.prev dest) q).setPrev q (h.prev dest)).prev src)).setNext
          ((((h.setNext (h.prev dest) q).setPrev q (h.prev dest)).setPrev dest
            (((h.setNext (h.prev dest) q).setPrev q (h.prev dest)).prev src)).prev src) dest)
        src).next y = h.next y ∧
      (INIT_LIST_HEAD
        ((((h.setNext (h.prev dest) q).setPrev q (h.prev dest)).setPrev dest
          (((h.setNext (h.prev dest) q).setPrev q (h.prev dest)).prev src)).setNext
          ((((h.setNext (h.prev dest) q).setPrev q (h.prev dest)).setPrev dest
            (((h.setNext (h.prev dest) q).setPrev q (h.prev dest)).prev src)).prev src) dest)
        src).prev y = h.prev y) := by
  obtain ⟨cA, lA⟩ := ring_chain hd
  obtain ⟨cS, lS⟩ := ring_chain hs
  have cQ : List.Chain' (Link h) (q :: qs) := (List.chain'_cons'.1 cS).2
  have ht : h.prev dest = (dest :: D).getLast (by simp) := lA.2
  have hl : h.prev src = (q :: qs).getLast (by simp) := by
    rw [lS.2, List.getLast_cons (by simp)]
  have htm : h.prev dest ∈ dest :: D := by rw [ht]; exact List.getLast_mem _
  have hlm : h.prev src ∈ q :: qs := by rw [hl]; exact List.getLast_mem _
  have hndA : (dest :: D).Nodup := hd.1
  have hndS : (src :: q :: qs).Nodup := hs.1
  have hndQ : (q :: qs).Nodup := (List.nodup_cons.1 hndS).2
  have hsrcA : src ∉ dest :: D := fun hm => hdis src hm (by simp)
  have hsq : src ≠ q := by
    rintro rfl; simp at hndS
  have hsd : src ≠ dest := fun e => hsrcA (by rw [e]; simp)
  have hqA : q ∉ dest :: D := fun hm => hdis q hm (by simp)
  have hqd : q ≠ dest := fun e => hqA (by rw [e]; simp)
  have hlA : h.prev src ∉ dest :: D := fun hm => hdis _ hm (List.mem_cons_of_mem _ hlm)
  have htl : h.prev dest ≠ h.prev src := fun e => hlA (by rw [← e]; exact htm)
  have hlsrc : h.prev src ≠ src := by
    intro e
    have := (List.nodup_cons.1 hndS).1
    exact this (by rw [← e]; exact hlm)
  have htsrc : h.prev dest ≠ src := fun e => hsrcA (by rw [← e]; exact htm)
  -- the links after the four writes and `INIT_LIST_HEAD`
  have hn : ∀ y, y ≠ src → (INIT_LIST_HEAD
        ((((h.setNext (h.prev dest) q).setPrev q (h.prev dest)).setPrev dest
          (((h.setNext (h.prev dest) q).setPrev q (h.prev dest)).prev src)).setNext
          ((((h.setNext (h.prev dest) q).setPrev q (h.prev dest)).setPrev dest
            (((h.setNext (h.prev dest) q).setPrev q (h.prev dest)).prev src)).prev src) dest)
        src).next y =
      if y = h.prev src then dest else if y = h.prev dest then q else h.next y := by
    intro y hy
    simp only [INIT_LIST_HEAD, setPrev_next, setNext_next, setPrev_prev, setNext_prev,
      if_neg hy, if_neg hsd, if_neg hsq]
  have hp : ∀ y, y ≠ src → (INIT_LIST_HEAD
        ((((h.setNext (h.prev dest) q).setPrev q (h.prev dest)).setPrev dest
          (((h.setNext (h.prev dest) q).setPrev q (h.prev dest)).prev src)).setNext
          ((((h.setNext (h.prev dest) q).setPrev q (h.prev dest)).setPrev dest
            (((h.setNext (h.prev dest) q).setPrev q (h.prev dest)).prev src)).prev src) dest)
        src).prev y =
      if y = dest then h.prev src else if y = q then h.prev dest else h.prev y := by
    intro y hy
    simp only [INIT_LIST_HEAD, setPrev_next, setNext_next, setPrev_prev, setNext_prev,
      if_neg hy, if_neg hsq]
  refine ⟨⟨?_, ?_⟩, ?_⟩
  · have : ((dest :: D) ++ (q :: qs)).Nodup := by
      rw [List.nodup_append]
      refine ⟨hndA, hndQ, ?_⟩
      intro x hx hxq
      exact hdis x hx (List.mem_cons_of_mem _ hxq)
    simpa using this
  · rw [seg_iff_chain]
    have e : dest :: (D ++ q :: qs) ++ [dest] = (dest :: D) ++ (q :: qs) ++ [dest] := by simp
    rw [e]
    have hneA : ∀ x, x ∈ dest :: D → x ≠ src := fun x hx e => hsrcA (by rw [← e]; exact hx)
    have hneQ : ∀ x, x ∈ q :: qs → x ≠ src := by
      intro x hx e
      exact (List.nodup_cons.1 hndS).1 (by rw [← e]; exact hx)
    refine chain_append3 (b := h.prev dest) (x := q) (y := h.prev src) (a := dest) ?_ ?_
      (List.chain'_singleton _) ?_ (by simp) ?_ (by simp) ?_ ?_
    · refine chain_frame cA ?_ ?_
      · intro x hx
        have hxA := List.mem_of_mem_dropLast hx
        rw [hn x (hneA x hxA), if_neg, if_neg]
        · rintro rfl
          exact getLast_not_mem_dropLast hndA (by rw [ht]; exact List.getLast?_eq_getLast _ _) hx
        · rintro rfl; exact hlA hxA
      · intro y hy
        simp only [List.tail_cons] at hy
        have hyA : y ∈ dest :: D := List.mem_cons_of_mem _ hy
        rw [hp y (hneA y hyA), if_neg, if_neg]
        · rintro rfl; exact hqA hyA
        · rintro rfl; exact (List.nodup_cons.1 hndA).1 hy
    · refine chain_frame cQ ?_ ?_
      · intro x hx
        have hxQ := List.mem_of_mem_dropLast hx
        rw [hn x (hneQ x hxQ), if_neg, if_neg]
        · rintro rfl; exact hdis _ htm (List.mem_cons_of_mem _ hxQ)
        · rintro rfl
          exact getLast_not_mem_dropLast hndQ (by rw [hl]; exact List.getLast?_eq_getLast _ _) hx
      · intro y hy
        simp only [List.tail_cons] at hy
        have hyQ : y ∈ q :: qs := List.mem_cons_of_mem _ hy
        rw [hp y (hneQ y hyQ), if_neg, if_neg]
        · rintro rfl; exact (List.nodup_cons.1 hndQ).1 hy
        · rintro rfl; exact hdis _ (by simp) (List.mem_cons_of_mem _ hyQ)
    · rw [ht]; exact List.getLast?_eq_getLast _ _
    · rw [hl]; exact List.getLast?_eq_getLast _ _
    · refine ⟨?_, ?_⟩
      · rw [hn _ htsrc, if_neg htl, if_pos rfl]
      · rw [hp _ hsq.symm, if_neg hqd, if_pos rfl]
    · refine ⟨?_, ?_⟩
      · rw [hn _ hlsrc, if_pos rfl]
      · rw [hp _ hsd.symm, if_pos rfl]
  · intro y hyd hys
    have hysrc : y ≠ src := fun e => hys (by rw [e]; simp)
    rw [hn y hysrc, hp y hysrc, if_neg, if_neg, if_neg, if_neg]
    · simp
    · rintro rfl; exact hys (by simp)
    · rintro rfl; exact hyd (by simp)
    · rintro rfl; exact hyd htm
    · rintro rfl; exact hys (List.mem_cons_of_mem _ hlm)

theorem ring_next_mid {h : Heap} {head p : Nat} {pre post : List Nat}
    (hr : Ring h head (pre ++ p :: post)) : h.next p = post.headD head :=
  seg_next_head ((seg_append _ _ _ _ _ _).1 hr.2).2

theorem merge_two_loop_spec (dest src : Nat) (descend : Bool) (v : Nat → CString) :
    ∀ (n : Nat) (ps qs done : List Nat) (h : Heap) (fuel : Nat),
    ps.length + qs.length ≤ n → n < fuel →
    Ring h dest (done ++ ps) → Ring h src qs →
    (∀ x, x ∈ dest :: (done ++ ps) → x ∉ src :: qs) → h.value = v →
    ∃ h1 D qs1, merge_two_loop dest src descend fuel h (ps.headD dest) (qs.headD src) =
        some (h1, qs1.headD src) ∧
      Ring h1 dest D ∧ Ring h1 src qs1 ∧
      D ++ qs1 = done ++ List.merge ps qs (mergeLe v descend) ∧
      (∀ x, x ∈ dest :: D → x ∉ src :: qs1) ∧
      h1.value = v ∧ h1.q = h.q ∧ h1.released = h.released ∧
      (∀ y, y ∉ dest :: (done ++ ps) → y ∉ src :: qs →
        h1.next y = h.next y ∧ h1.prev y = h.prev y) := by
  intro n
  induction n with
  | zero =>
    intro ps qs done h fuel hn hf hd hs hdis hv
    obtain ⟨f, rfl⟩ : ∃ f, fuel = f + 1 := ⟨fuel - 1, by omega⟩
    have hps : ps = [] := List.length_eq_zero.1 (by omega)
    have hqs : qs = [] := List.length_eq_zero.1 (by omega)
    subst hps; subst hqs
    refine ⟨h, done, [], by simp [merge_two_loop], by simpa using hd, hs, by simp,
      by simpa using hdis, hv, rfl, rfl, fun _ _ _ => ⟨rfl, rfl⟩⟩
  | succ n ih =>
    intro ps qs done h fuel hn hf hd hs hdis hv
    obtain ⟨f, rfl⟩ : ∃ f, fuel = f + 1 := ⟨fuel - 1, by omega⟩
    cases ps with
    | nil =>
      refine ⟨h, done, qs, by simp [merge_two_loop], by simpa using hd, hs, by simp,
        by simpa using hdis, hv, rfl, rfl, fun _ _ _ => ⟨rfl, rfl⟩⟩
    | cons p ps =>
      cases qs with
      | nil =>
        refine ⟨h, done ++ p :: ps, [], by simp [merge_two_loop], hd, hs, by simp,
          hdis, hv, rfl, rfl, fun _ _ _ => ⟨rfl, rfl⟩⟩
      | cons q qs =>
        have hpd : p ≠ dest := by
          rintro rfl
          exact ring_head_not_mem hd (by simp)
        have hqs : q ≠ src := by
          rintro rfl
          exact ring_head_not_mem hs (by simp)
        simp only [List.headD_cons, merge_two_loop]
        rw [if_pos ⟨hpd, hqs⟩]
        by_cases hle : (if descend then -strcmp (h.value p) (h.value q)
            else strcmp (h.value p) (h.value q)) ≤ 0
        · rw [if_pos hle]
          have hm : mergeLe v descend p q = true := by
            rw [← hv]; simp only [mergeLe, decide_eq_true_eq]; exact hle
          have hd' : Ring h dest ((done ++ [p]) ++ ps) := by simpa using hd
          obtain ⟨h1, D, qs1, e1, e2, e3, e4, e5, e6, e7, e8, e9⟩ :=
            ih ps (q :: qs) (done ++ [p]) h f (by simp at hn ⊢; omega) (by omega) hd' hs
              (by simpa using hdis) hv
          rw [ring_next_mid hd]
          refine ⟨h1, D, qs1, by simpa using e1, e2, e3, ?_, e5, e6, e7, e8, ?_⟩
          · rw [e4, List.cons_merge_cons_pos _ _ _ hm]; simp
          · intro y hy1 hy2
            exact e9 y (by simpa using hy1) hy2
        · rw [if_neg hle]
          have hm : ¬ mergeLe v descend p q = true := by
            rw [← hv]; simp only [mergeLe, decide_eq_true_eq]; exact hle
          obtain ⟨m1, m2, m3⟩ := merge_two_move hd hs hdis
          have hd' : Ring ((((((list_del h q).setPrev q ((list_del h q).prev p)).setNext q
              p).setNext ((((list_del h q).setPrev q ((list_del h q).prev p)).setNext q p).prev
              p) q).setPrev p q)) dest ((done ++ [q]) ++ p :: ps) := by simpa using m1
          have hdis' : ∀ x, x ∈ dest :: ((done ++ [q]) ++ p :: ps) → x ∉ src :: qs := by
            intro x hx hxs
            have hnd := hs.1
            simp only [List.nodup_cons, List.mem_cons, not_or] at hnd
            simp only [List.mem_cons, List.mem_append, List.mem_singleton] at hx
            have hx' : x = q ∨ x ∈ dest :: (done ++ p :: ps) := by
              simp only [List.mem_cons, List.mem_append]; tauto
            rcases hx' with rfl | hx'
            · simp only [List.mem_cons] at hxs
              rcases hxs with rfl | hxs
              · exact hnd.1.1 rfl
              · exact hnd.2.1 hxs
            · exact hdis x hx' (by simp only [List.mem_cons] at hxs ⊢; tauto)
          obtain ⟨h1, D, qs1, e1, e2, e3, e4, e5, e6, e7, e8, e9⟩ :=
            ih (p :: ps) qs (done ++ [q]) _ f (by simp at hn ⊢; omega) (by omega) hd' m2
              hdis' (by simpa using hv)
          have hnq : h.next q = qs.headD src := by
            have := hs.2
            simp only [Seg] at this
            exact seg_next_head this.2
          rw [hnq]
          refine ⟨h1, D, qs1, by simpa using e1, e2, e3, ?_, e5, e6, by simpa using e7,
            by simpa using e8, ?_⟩
          · rw [e4, List.cons_merge_cons_neg _ _ _ hm]; simp
          · intro y hy1 hy2
            have hyq : y ≠ q := fun e => hy2 (by rw [e]; simp)
            have hy1' : y ∉ dest :: ((done ++ [q]) ++ p :: ps) := by
              intro hm'; apply hy1
              simp only [List.mem_cons, List.mem_append, List.mem_singleton] at hm' ⊢
              tauto
            have hy2' : y ∉ src :: qs := by
              intro hm'; apply hy2
              simp only [List.mem_cons] at hm' ⊢; tauto
            have a1 := e9 y hy1' hy2'
            have a2 := m3 y hy1 hy2
            exact ⟨a1.1.trans a2.1, a1.2.trans a2.2⟩

/-- Source `merge_two` on two separate queues: the destination ends up holding
the merge of the two sequences, the source is an empty ring, no value changes
and no node outside the two queues is touched. -/
theorem merge_two_spec {dest src : Nat} (descend : Bool) {h : Heap} {D Q : List Nat}
    {fuel : Nat} (hd : Ring h dest D) (hs : Ring h src Q)
    (hdis : ∀ x, x ∈ dest :: D → x ∉ src :: Q) (hf : D.length + Q.length < fuel) :
    ∃ h1, merge_two fuel h dest src descend = some h1 ∧
      Ring h1 dest (List.merge D Q (mergeLe h.value descend)) ∧ Ring h1 src [] ∧
      h1.value = h.value ∧ h1.q = h.q ∧ h1.released = h.released ∧
      (∀ y, y ∉ dest :: D → y ∉ src :: Q → h1.next y = h.next y ∧ h1.prev y = h.prev y) := by
  obtain ⟨h1, D1, qs1, e1, e2, e3, e4, e5, e6, e7, e8, e9⟩ :=
    merge_two_loop_spec dest src descend h.value (D.length + Q.length) D Q []
      h fuel (le_refl _) hf (by simpa using hd) hs (by simpa using hdis) rfl
  have hnd : h.next dest = D.headD dest := ring_next_head hd
  have hns : h.next src = Q.headD src := ring_next_head hs
  simp only [List.nil_append] at e4 e9
  simp only [merge_two, hnd, hns, e1]
  cases qs1 with
  | nil =>
    simp only [List.headD_nil, ne_eq, not_true_eq_false, if_false]
    have hsd : src ∉ dest :: D1 := fun hm => e5 src hm (by simp)
    refine ⟨_, rfl, ?_, ring_init _ _, by simpa [INIT_LIST_HEAD] using e6,
      by simpa [INIT_LIST_HEAD] using e7, by simpa [INIT_LIST_HEAD] using e8, ?_⟩
    · rw [← e4, List.append_nil]
      refine (ring_congr ?_ ?_).2 e2
      · intro x hx
        have : x ≠ src := fun e => hsd (by rw [← e]; exact hx)
        simp [INIT_LIST_HEAD, this]
      · intro x hx
        have : x ≠ src := fun e => hsd (by rw [← e]; exact hx)
        simp [INIT_LIST_HEAD, this]
    · intro y hy1 hy2
      have : y ≠ src := fun e => hy2 (by rw [e]; simp)
      have := e9 y hy1 hy2
      simpa [INIT_LIST_HEAD, ‹y ≠ src›] using this
  | cons q qs =>
    have hq : q ≠ src := by
      rintro rfl
      exact ring_head_not_mem e3 (by simp)
    simp only [List.headD_cons, ne_eq, hq, not_false_eq_true, if_true]
    obtain ⟨s1, s2⟩ := merge_two_splice e2 e3 e5
    refine ⟨_, rfl, ?_, ring_init _ _, by simpa [INIT_LIST_HEAD] using e6,
      by simpa [INIT_LIST_HEAD] using e7, by simpa [INIT_LIST_HEAD] using e8, ?_⟩
    · rw [← e4]; exact s1
    · intro y hy1 hy2
      have hperm : ∀ z, z ∈ D1 ++ q :: qs ↔ z ∈ D ∨ z ∈ Q := by
        intro z
        rw [e4, List.mem_merge]
      have hy1' : y ∉ dest :: D1 := by
        intro hm
        simp only [List.mem_cons] at hm hy1 hy2
        rcases hm with rfl | hm
        · exact hy1 (Or.inl rfl)
        · have := (hperm y).1 (List.mem_append_left _ hm)
          tauto
      have hy2' : y ∉ src :: q :: qs := by
        intro hm
        simp only [List.mem_cons] at hm hy1 hy2
        rcases hm with rfl | hm
        · exact hy2 (Or.inl rfl)
        · have := (hperm y).1 (List.mem_append_right _ (by simpa using hm))
          tauto
      have a1 := s2 y hy1' hy2'
      have a2 := e9 y hy1 hy2
      exact ⟨a1.1.trans a2.1, a1.2.trans a2.2⟩

theorem q_merge_loop_spec (chead dest : Nat) (descend : Bool) (v : Nat → CString)
    (fuel0 : Nat) :
    ∀ (es : List Entry) (pre D : List Nat) (h : Heap) (fuel : Nat),
    Ring h chead (pre ++ es.map Prod.fst) → Ring h dest D →
    (∀ e ∈ es, Attached h e.1 e.2) →
    ((chead :: (pre ++ es.map Prod.fst)) ++ ((dest :: D) ++ chainNodes es)).Nodup →
    h.value = v → D.length + (chainElems es).length < fuel0 → es.length < fuel →
    ∃ h1, q_merge_loop chead dest descend fuel0 fuel h ((es.map Prod.fst).headD chead) =
        some h1 ∧
      Ring h1 dest (mergeChain (mergeLe v descend) D es) ∧ h1.value = v ∧
      (∀ e ∈ es, ∀ s ns, e.2 = some (s, ns) → Ring h1 s [] ∧ h1.q e.1 = none) ∧
      (∀ y, y ∉ (dest :: D) ++ chainNodes es → h1.next y = h.next y ∧ h1.prev y = h.prev y) ∧
      (∀ c, c ∉ es.map Prod.fst → h1.q c = h.q c) := by
  intro es
  induction es with
  | nil =>
    intro pre D h fuel hc hd _ _ hv _ hf
    obtain ⟨f, rfl⟩ : ∃ f, fuel = f + 1 := ⟨fuel - 1, by omega⟩
    refine ⟨h, by simp [q_merge_loop], hd, hv, ?_, fun _ _ => ⟨rfl, rfl⟩, fun _ _ => rfl⟩
    intro e he; simp at he
  | cons e es ih =>
    intro pre D h fuel hc hd hat hnd hv hf0 hf
    obtain ⟨f, rfl⟩ : ∃ f, fuel = f + 1 := ⟨fuel - 1, by omega⟩
    obtain ⟨c, o⟩ := e
    have hc' : Ring h chead (pre ++ c :: es.map Prod.fst) := by simpa using hc
    have hcne : c ≠ chead := by
      rintro rfl
      exact ring_head_not_mem hc' (by simp)
    have hnext : h.next c = (es.map Prod.fst).headD chead := ring_next_mid hc'
    have hcs : Ring h chead ((pre ++ [c]) ++ es.map Prod.fst) := by simpa using hc'
    have hc_notin : c ∉ es.map Prod.fst := by
      have := ring_nodup hc'
      exact (List.nodup_cons.1 (List.nodup_append.1 this).2.1).1
    simp only [List.map_cons, List.headD_cons, q_merge_loop]
    rw [if_pos hcne]
    cases o with
    | none =>
      have hq : h.q c = none := hat (c, none) (by simp)
      simp only [hq, hnext]
      have hnd' : ((chead :: ((pre ++ [c]) ++ es.map Prod.fst)) ++
          ((dest :: D) ++ chainNodes es)).Nodup := by
        simpa [chainNodes] using hnd
      obtain ⟨h1, e1, e2, e3, e4, e5, e6⟩ := ih (pre ++ [c]) D h f hcs hd
        (fun e he => hat e (List.mem_cons_of_mem _ he)) hnd' hv
        (by simpa [chainElems] using hf0) (by simp at hf; omega)
      refine ⟨h1, e1, by simpa [mergeChain] using e2, e3, ?_, ?_, ?_⟩
      · intro e he s ns hes
        rcases List.mem_cons.1 he with rfl | he
        · simp at hes
        · exact e4 e he s ns hes
      · intro y hy
        exact e5 y (by simpa [chainNodes] using hy)
      · intro c' hc''
        exact e6 c' (fun hm => hc'' (by simp [hm]))
    | some sq =>
      obtain ⟨s, ns⟩ := sq
      obtain ⟨hq, hs⟩ : h.q c = some s ∧ Ring h s ns := hat (c, some (s, ns)) (by simp)
      -- separation
      have hnd0 := hnd
      simp only [chainNodes] at hnd
      have hsplit : (chead :: (pre ++ (c, some (s, ns)).1 :: es.map Prod.fst)) ++
          ((dest :: D) ++ (s :: ns ++ chainNodes es)) =
          ((chead :: (pre ++ c :: es.map Prod.fst)) ++ (dest :: D)) ++
            (s :: (ns ++ chainNodes es)) := by simp
      simp only [List.map_cons] at hnd
      rw [hsplit] at hnd
      have hperm1 := @List.perm_middle Nat s
        ((chead :: (pre ++ c :: es.map Prod.fst)) ++ (dest :: D)) (ns ++ chainNodes es)
      have hnd1 := (List.Perm.nodup_iff hperm1).1 hnd
      have hs_notin := (List.nodup_cons.1 hnd1).1
      have hnd2 := (List.nodup_cons.1 hnd1).2
      have hdis : ∀ x, x ∈ dest :: D → x ∉ s :: ns := by
        intro x hx hxs
        rcases List.mem_cons.1 hxs with rfl | hxs
        · exact hs_notin (by simp only [List.mem_append]; exact Or.inl (Or.inr hx))
        · have := (List.nodup_append.1 hnd2).2.2
          exact this (List.mem_append_right _ hx) (List.mem_append_left _ hxs)
      have hlen : D.length + ns.length < fuel0 := by
        simp [chainElems] at hf0; omega
      obtain ⟨h1, m1, m2, m3, m4, m5, m6, m7⟩ := merge_two_spec descend hd hs hdis hlen
      simp only [hq, m1, setQ_next]
      -- nodes outside both queues keep their links
      have hout : ∀ y, y ∈ (chead :: (pre ++ c :: es.map Prod.fst)) ++ chainNodes es →
          y ∉ dest :: D ∧ y ∉ s :: ns := by
        intro y hy
        have hd2 := (List.nodup_append.1 hnd2).2.2
        have hd3 := (List.nodup_append.1 (List.nodup_append.1 hnd2).1).2.2
        have hn3 := (List.nodup_append.1 (List.nodup_append.1 hnd2).2.1).2.2
        rcases List.mem_append.1 hy with hy | hy
        · refine ⟨fun hm => hd3 hy hm, fun hm => ?_⟩
          rcases List.mem_cons.1 hm with rfl | hm
          · exact hs_notin (by simp only [List.mem_append]; exact Or.inl (Or.inl hy))
          · exact hd2 (List.mem_append_left _ hy) (List.mem_append_left _ hm)
        · refine ⟨fun hm => hd2 (List.mem_append_right _ hm) (List.mem_append_right _ hy),
            fun hm => ?_⟩
          rcases List.mem_cons.1 hm with rfl | hm
          · exact hs_notin (by simp only [List.mem_append]; exact Or.inr (Or.inr hy))
          · exact hn3 hm hy
      have hfr : ∀ y, y ∈ (chead :: (pre ++ c :: es.map Prod.fst)) ++ chainNodes es →
          h1.next y = h.next y ∧ h1.prev y = h.prev y :=
        fun y hy => m7 y (hout y hy).1 (hout y hy).2
      have hcn : h1.next c = h.next c := (hfr c (by simp)).1
      rw [hcn, hnext]
      have hcs2 : Ring (h1.setQ c none) chead ((pre ++ [c]) ++ es.map Prod.fst) := by
        refine (ring_congr ?_ ?_).2 hcs
        · intro x hx
          exact (hfr x (by simp at hx ⊢; tauto)).1
        · intro x hx
          exact (hfr x (by simp at hx ⊢; tauto)).2
      have hd2' : Ring (h1.setQ c none) dest (List.merge D ns (mergeLe v descend)) := by
        rw [← hv]
        exact (ring_congr (by simp) (by simp)).2 m2
      have hmem_nodes : ∀ (l : List Entry) (e : Entry), e ∈ l → ∀ s' ns', e.2 = some (s', ns') →
          ∀ x, x ∈ s' :: ns' → x ∈ chainNodes l := by
        intro l
        induction l with
        | nil => intro e he; simp at he
        | cons a l ihl =>
          intro e he s' ns' hes x hx
          obtain ⟨ca, oa⟩ := a
          rcases List.mem_cons.1 he with rfl | he
          · simp only at hes
            subst hes
            simp only [chainNodes, List.cons_append, List.mem_cons, List.mem_append] at hx ⊢
            tauto
          · have := ihl e he s' ns' hes x hx
            cases oa with
            | none => simpa [chainNodes] using this
            | some sa =>
              obtain ⟨a1, a2⟩ := sa
              simp only [chainNodes, List.cons_append, List.mem_cons, List.mem_append]
              tauto
      have hat2 : ∀ e ∈ es, Attached (h1.setQ c none) e.1 e.2 := by
        intro e he
        have hae := hat e (List.mem_cons_of_mem _ he)
        have hec : e.1 ≠ c := by
          intro hcc
          exact hc_notin (by rw [← hcc]; exact List.mem_map_of_mem _ he)
        obtain ⟨c1, o1⟩ := e
        cases o1 with
        | none =>
          simp only [Attached] at hae ⊢
          simp only [setQ_q, if_neg hec, m5, hae]
        | some sq1 =>
          obtain ⟨s1, ns1⟩ := sq1
          simp only [Attached] at hae ⊢
          refine ⟨by simp only [setQ_q, if_neg hec, m5, hae.1], ?_⟩
          refine (ring_congr ?_ ?_).2 hae.2
          · intro x hx
            exact (hfr x (List.mem_append_right _
              (hmem_nodes es _ he s1 ns1 rfl x hx))).1
          · intro x hx
            exact (hfr x (List.mem_append_right _
              (hmem_nodes es _ he s1 ns1 rfl x hx))).2
      have hnd3 : ((chead :: ((pre ++ [c]) ++ es.map Prod.fst)) ++
          ((dest :: List.merge D ns (mergeLe v descend)) ++ chainNodes es)).Nodup := by
        have hp : ((chead :: ((pre ++ [c]) ++ es.map Prod.fst)) ++
            ((dest :: List.merge D ns (mergeLe v descend)) ++ chainNodes es)).Perm
            (((chead :: (pre ++ c :: es.map Prod.fst)) ++ (dest :: D)) ++
              (ns ++ chainNodes es)) := by
          have hm := @List.merge_perm_append Nat (mergeLe v descend) D ns
          have e1 : ((chead :: (pre ++ c :: es.map Prod.fst)) ++ (dest :: D)) ++
              (ns ++ chainNodes es) =
              (chead :: ((pre ++ [c]) ++ es.map Prod.fst)) ++
                ((dest :: (D ++ ns)) ++ chainNodes es) := by simp
          rw [e1]
          exact List.Perm.append_left _ (List.Perm.append_right _ (List.Perm.cons _ hm))
        exact (List.Perm.nodup_iff hp).2 hnd2
      have hlen2 : (List.merge D ns (mergeLe v descend)).length + (chainElems es).length <
          fuel0 := by
        simp [chainElems] at hf0 ⊢; omega
      obtain ⟨h2, e1, e2, e3, e4, e5, e6⟩ := ih (pre ++ [c]) _ (h1.setQ c none) f hcs2 hd2' hat2
        hnd3 (by simpa [hv] using m4) hlen2 (by simp at hf; omega)
      refine ⟨h2, e1, by simpa [mergeChain] using e2, e3, ?_, ?_, ?_⟩
      · intro e he s' ns' hes
        rcases List.mem_cons.1 he with rfl | he
        · simp only [Option.some.injEq, Prod.mk.injEq] at hes
          obtain ⟨rfl, rfl⟩ := hes
          have hs1 : s ∉ (dest :: List.merge D ns (mergeLe v descend)) ++ chainNodes es := by
            intro hm
            have hs_in : s ∈ s :: ns := by simp
            rcases List.mem_append.1 hm with hm | hm
            · rcases List.mem_cons.1 hm with rfl | hm
              · exact hdis s (by simp) hs_in
              · rcases List.mem_merge.1 hm with hm | hm
                · exact hdis s (List.mem_cons_of_mem _ hm) hs_in
                · exact (List.nodup_cons.1 hs.1).1 hm
            · exact (hout s (List.mem_append_right _ hm)).2 hs_in
          have hfs := e5 s hs1
          refine ⟨?_, ?_⟩
          · refine (ring_congr (h := h1.setQ c none) ?_ ?_).2
              ((ring_congr (by simp) (by simp)).2 m3)
            · intro x hx; simp only [List.mem_singleton] at hx; subst hx; exact hfs.1
            · intro x hx; simp only [List.mem_singleton] at hx; subst hx; exact hfs.2
          · rw [e6 c hc_notin]; simp
        · exact e4 e he s' ns' hes
      · intro y hy
        have hy1 : y ∉ (dest :: List.merge D ns (mergeLe v descend)) ++ chainNodes es := by
          intro hm; apply hy
          simp only [chainNodes, List.cons_append, List.mem_cons, List.mem_append,
            List.mem_merge] at hm ⊢
          tauto
        have hy2 : y ∉ dest :: D := by
          intro hm; apply hy
          simp only [List.mem_cons, List.mem_append] at hm ⊢; tauto
        have hy3 : y ∉ s :: ns := by
          intro hm; apply hy
          simp only [chainNodes, List.cons_append, List.mem_cons, List.mem_append] at hm ⊢
          tauto
        have a1 := e5 y hy1
        have a2 := m7 y hy2 hy3
        simp only [setQ_next, setQ_prev] at a1
        exact ⟨a1.1.trans a2.1, a1.2.trans a2.2⟩
      · intro c' hc''
        have hcc : c' ≠ c := fun e => hc'' (by simp [e])
        rw [e6 c' (fun hm => hc'' (by simp [hm]))]
        simp [hcc, m5]

theorem mergeLe_iff (v : Nat → CString) (descend : Bool) (p q : Nat) :
    mergeLe v descend p q = true ↔
      (if descend then strcmp (v q) (v p) else strcmp (v p) (v q)) ≤ 0 := by
  cases descend
  · simp [mergeLe]
  · simp only [mergeLe, decide_eq_true_eq, if_true]
    rw [strcmp_antisymm (v p) (v q)]

theorem mergeLe_trans (v : Nat → CString) (descend : Bool) (a b c : Nat)
    (h1 : mergeLe v descend a b = true) (h2 : mergeLe v descend b c = true) :
    mergeLe v descend a c = true := by
  rw [mergeLe_iff] at *
  cases descend
  · exact strcmp_trans h1 h2
  · exact strcmp_trans h2 h1

theorem mergeLe_total (v : Nat → CString) (descend : Bool) (a b : Nat) :
    (mergeLe v descend a b || mergeLe v descend b a) = true := by
  rw [Bool.or_eq_true, mergeLe_iff, mergeLe_iff]
  cases descend
  · exact strcmp_total _ _
  · exact (strcmp_total _ _).symm

theorem mergeChain_perm (le : Nat → Nat → Bool) : ∀ (es : List Entry) (D : List Nat),
    (mergeChain le D es).Perm (D ++ chainElems es)
  | [], D => by simp [mergeChain, chainElems]
  | (_, none) :: es, D => by simpa [mergeChain, chainElems] using mergeChain_perm le es D
  | (_, some (_, ns)) :: es, D => by
    have h1 := mergeChain_perm le es (List.merge D ns le)
    have h2 := @List.merge_perm_append Nat le D ns
    simp only [mergeChain, chainElems]
    rw [← List.append_assoc]
    exact h1.trans (List.Perm.append_right _ h2)

theorem mergeChain_sorted (v : Nat → CString) (descend : Bool) : ∀ (es : List Entry)
    (D : List Nat), D.Pairwise (fun a b => mergeLe v descend a b = true) →
    (∀ e ∈ es, ∀ s ns, e.2 = some (s, ns) →
      ns.Pairwise (fun a b => mergeLe v descend a b = true)) →
    (mergeChain (mergeLe v descend) D es).Pairwise (fun a b => mergeLe v descend a b = true)
  | [], D, hD, _ => by simpa [mergeChain] using hD
  | (c, none) :: es, D, hD, hes => by
    simp only [mergeChain]
    exact mergeChain_sorted v descend es D hD
      (fun e he => hes e (List.mem_cons_of_mem _ he))
  | (c, some (s, ns)) :: es, D, hD, hes => by
    simp only [mergeChain]
    refine mergeChain_sorted v descend es _ ?_ (fun e he => hes e (List.mem_cons_of_mem _ he))
    exact List.sorted_merge (mergeLe_trans v descend) (mergeLe_total v descend) D ns hD
      (hes (c, some (s, ns)) (List.mem_cons_self _ _) s ns rfl)

/-- C2: on a well-formed chain whose first entry has the queue `dest`
attached and whose attached queues are all sorted in the direction of
`descend`, `q_merge` leaves `dest` holding exactly the elements of all
attached queues, values untouched, in sorted order for that direction, leaves
every other attached queue an empty ring with its reference in the chain
cleared, and returns the total number of elements. -/
theorem q_merge_spec (h : Heap) (chead c0 dest : Nat) (D : List Nat) (es : List Entry)
    (fuel : Nat) (descend : Bool)
    (hc : ChainOK h chead ((c0, some (dest, D)) :: es))
    (hsorted : ∀ e ∈ (c0, some (dest, D)) :: es, ∀ s ns, e.2 = some (s, ns) →
      (vals h ns).Pairwise (fun a b => (if descend then strcmp b a else strcmp a b) ≤ 0))
    (hf : es.length + 1 < fuel) (hf0 : D.length + (chainElems es).length < fuel) :
    ∃ h1 M, q_merge fuel h (some chead) descend = some ((M.length : Int), h1) ∧
      Ring h1 dest M ∧ M.Perm (D ++ chainElems es) ∧
      (vals h1 M).Perm (vals h (D ++ chainElems es)) ∧
      (vals h1 M).Pairwise (fun a b => (if descend then strcmp b a else strcmp a b) ≤ 0) ∧
      M.length = D.length + (chainElems es).length ∧
      (∀ e ∈ es, ∀ s ns, e.2 = some (s, ns) → Ring h1 s [] ∧ h1.q e.1 = none) := by
  obtain ⟨hring, hat, hnd⟩ := hc
  have hring' : Ring h chead (c0 :: es.map Prod.fst) := by simpa using hring
  have hfirst := hat (c0, some (dest, D)) (by simp)
  simp only [Attached] at hfirst
  obtain ⟨hq0, hd⟩ := hfirst
  have hn0 : h.next chead = c0 := by
    have := ring_next_head hring'
    simpa using this
  have hc0 : c0 ≠ chead := by
    rintro rfl
    exact ring_head_not_mem hring' (by simp)
  have hn1 : h.next c0 = (es.map Prod.fst).headD chead := @ring_next_mid h chead c0 [] (es.map Prod.fst) hring'
  have hnd' : ((chead :: ([c0] ++ es.map Prod.fst)) ++ ((dest :: D) ++ chainNodes es)).Nodup := by
    simpa [chainNodes] using hnd
  obtain ⟨h1, e1, e2, e3, e4, _, _⟩ := q_merge_loop_spec chead dest descend
    h.value fuel es [c0] D h fuel (by simpa using hring') hd
    (fun e he => hat e (List.mem_cons_of_mem _ he)) hnd' rfl hf0 (by omega)
  have hperm := mergeChain_perm (mergeLe h.value descend) es D
  have hlen : (mergeChain (mergeLe h.value descend) D es).length =
      D.length + (chainElems es).length := by
    rw [hperm.length_eq]; simp
  have hconv : ∀ ns : List Nat,
      (vals h ns).Pairwise (fun a b => (if descend then strcmp b a else strcmp a b) ≤ 0) ↔
      ns.Pairwise (fun a b => mergeLe h.value descend a b = true) := by
    intro ns
    simp only [vals, List.pairwise_map, mergeLe_iff]
  have hsortedM := mergeChain_sorted h.value descend es D
    ((hconv D).1 (hsorted (c0, some (dest, D)) (List.mem_cons_self _ _) dest D rfl))
    (fun e he s ns hes => (hconv ns).1 (hsorted e (List.mem_cons_of_mem _ he) s ns hes))
  refine ⟨h1, mergeChain (mergeLe h.value descend) D es, ?_, e2, hperm, ?_, ?_, hlen, e4⟩
  · have hne : ¬ (list_empty h chead = true ∨ c0 = chead) := by
      simp only [list_empty, hn0, beq_iff_eq, or_self]
      exact hc0
    simp only [q_merge, hn0, if_neg hne, hq0, hn1, e1, q_size_ring e2 (by omega : _ < fuel)]
    rfl
  · simp only [vals, e3]
    exact hperm.map _
  · have : vals h1 (mergeChain (mergeLe h.value descend) D es) =
        vals h (mergeChain (mergeLe h.value descend) D es) := by simp only [vals, e3]
    rw [this]
    exact (hconv _).2 hsortedM

/-! ## The theorems at concrete queues -/

/-- C3: on the sorted queue `[a, a, b, c, c]`, in a memory whose released
buffers are overwritten, `q_delete_dup` returns true and leaves `[a, b, c]`:
the removal loop compares against `dup_val`, which points into the string of
the first element of the run, and that string is released together with the
element, so the second member of each run no longer compares equal. -/
theorem q_delete_dup_reads_released_value :
    (q_delete_dup 6 queueAABCC (some 0)).map (fun r => (r.1, contents 6 r.2 0)) =
      some (true, [str [97], str [98], str [99]]) := by
  decide

/-- C2 at the chain of the two sorted queues `[1, 3, 5]` and `[2, 4]`. -/
theorem q_merge_spec_witness :
    ChainOK chain135_24 100 [(101, some (0, [1, 2, 3])), (102, some (10, [11, 12]))] ∧
    ∃ h1 M, q_merge 6 chain135_24 (some 100) false = some ((M.length : Int), h1) ∧
      Ring h1 0 M ∧ M.Perm ([1, 2, 3] ++ chainElems [(102, some (10, [11, 12]))]) ∧
      (vals h1 M).Perm
        (vals chain135_24 ([1, 2, 3] ++ chainElems [(102, some (10, [11, 12]))])) ∧
      (vals h1 M).Pairwise (fun a b => (if false then strcmp b a else strcmp a b) ≤ 0) ∧
      M.length = [1, 2, 3].length + (chainElems [(102, some (10, [11, 12]))]).length ∧
      (∀ e ∈ [((102 : Nat), some ((10 : Nat), [(11 : Nat), 12]))], ∀ s ns,
        e.2 = some (s, ns) → Ring h1 s [] ∧ h1.q e.1 = none) :=
  ⟨by decide,
    q_merge_spec chain135_24 100 101 0 [1, 2, 3] [(102, some (10, [11, 12]))] 6 false
      (by decide)
      (by
        intro e he s ns hes
        simp only [List.mem_cons, List.mem_singleton, List.not_mem_nil, or_false] at he
        rcases he with rfl | rfl
        · simp only [Option.some.injEq, Prod.mk.injEq] at hes
          obtain ⟨rfl, rfl⟩ := hes
          decide
        · simp only [Option.some.injEq, Prod.mk.injEq] at hes
          obtain ⟨rfl, rfl⟩ := hes
          decide)
      (by decide) (by decide)⟩

/-- C4 at the queue `[5, 2, 8, 1, 9]`. -/
theorem q_ascend_spec_witness :
    Ring queue52819 0 [1, 2, 3, 4, 5] ∧
    ((∃ h1 kept, q_ascend 6 queue52819 (some 0) = some ((kept.length : Int), h1) ∧
      Ring h1 0 kept ∧ vals h1 kept = vals queue52819 kept ∧ kept.Sublist [1, 2, 3, 4, 5] ∧
      (∀ pre x post, [1, 2, 3, 4, 5] = pre ++ x :: post →
        (x ∈ kept ↔ ¬ ∃ y ∈ post, strcmp (queue52819.value y) (queue52819.value x) < 0)) ∧
      ([1, 2, 3, 4, 5].length ≤ 1 → kept = [1, 2, 3, 4, 5] ∧ h1 = queue52819)) ∧
    q_ascend 6 queue52819 none = some (0, queue52819)) :=
  ⟨by decide, q_ascend_spec queue52819 0 [1, 2, 3, 4, 5] 6 (by decide) (by decide)⟩

/-- C5 at the queue `[5, 2, 8, 1, 9]`. -/
theorem q_descend_spec_witness :
    Ring queue52819 0 [1, 2, 3, 4, 5] ∧
    ∃ h1 kept, q_descend 6 queue52819 (some 0) = some ((kept.length : Int), h1) ∧
      Ring h1 0 kept ∧ vals h1 kept = vals queue52819 kept ∧ kept.Sublist [1, 2, 3, 4, 5] ∧
      (∀ pre x post, [1, 2, 3, 4, 5] = pre ++ x :: post →
        (x ∈ kept ↔ ¬ ∃ y ∈ post, strcmp (queue52819.value y) (queue52819.value x) > 0)) ∧
      (vals h1 kept).Pairwise (fun a b => strcmp b a ≤ 0) :=
  ⟨by decide, q_descend_spec queue52819 0 [1, 2, 3, 4, 5] 6 (by decide) (by decide)⟩

/-- C6 at the queue `[5, 2, 8, 1, 9]` with `k = 2`. -/
theorem q_reverseK_spec_witness :
    Ring queue52819 0 [1, 2, 3, 4, 5] ∧
    ((2 ≤ (2 : Int) → (∀ g, (fun _ : Nat => true) g = true) →
      ∃ h1, q_reverseK 6 queue52819 (some 0) 2 (fun _ => true) = some h1 ∧
        Ring h1 0 (reverseGroups (2 : Int).toNat [1, 2, 3, 4, 5]) ∧
        vals h1 (reverseGroups (2 : Int).toNat [1, 2, 3, 4, 5]) =
          reverseGroups (2 : Int).toNat (vals queue52819 [1, 2, 3, 4, 5]) ∧
        ∀ i, i < [1, 2, 3, 4, 5].length →
          (vals h1 (reverseGroups (2 : Int).toNat [1, 2, 3, 4, 5]))[i]? =
            (vals queue52819 [1, 2, 3, 4, 5])[if (i / (2 : Int).toNat + 1) * (2 : Int).toNat ≤
                [1, 2, 3, 4, 5].length then
              i / (2 : Int).toNat * (2 : Int).toNat + ((2 : Int).toNat - 1 - i % (2 : Int).toNat)
              else i]?) ∧
    ((2 : Int) ≤ 1 → q_reverseK 6 queue52819 (some 0) 2 (fun _ => true) = some queue52819) ∧
    ((([1, 2, 3, 4, 5] : List Nat).length : Int) < 2 →
      q_reverseK 6 queue52819 (some 0) 2 (fun _ => true) = some queue52819)) :=
  ⟨by decide,
    q_reverseK_spec queue52819 0 [1, 2, 3, 4, 5] 6 2 (fun _ => true) (by decide) (by decide)⟩

/-- C7 at the queue `[c, a, b]`. -/
theorem q_reverse_spec_witness :
    Ring queueCAB 0 [1, 2, 3] ∧
    ∃ h1, q_reverse 4 queueCAB (some 0) = some h1 ∧ Ring h1 0 [1, 2, 3].reverse ∧
      vals h1 [1, 2, 3].reverse = (vals queueCAB [1, 2, 3]).reverse ∧
      (∀ x ∈ [0, 1, 2, 3], h1.next x = queueCAB.prev x ∧ h1.prev x = queueCAB.next x) ∧
      ∃ h2, q_reverse 4 h1 (some 0) = some h2 ∧ Ring h2 0 [1, 2, 3] ∧
        vals h2 [1, 2, 3] = vals queueCAB [1, 2, 3] :=
  ⟨by decide, q_reverse_spec queueCAB 0 [1, 2, 3] 4 (by decide) (by decide)⟩

/-- C8 at the queue `[5, 2, 8, 1, 9]`. -/
theorem q_delete_mid_spec_witness :
    Ring queue52819 0 [1, 2, 3, 4, 5] ∧
    ((2 ≤ [1, 2, 3, 4, 5].length → ∃ h1, q_delete_mid 6 queue52819 (some 0) = some (true, h1) ∧
      Ring h1 0 ([1, 2, 3, 4, 5].eraseIdx ([1, 2, 3, 4, 5].length / 2)) ∧
      vals h1 ([1, 2, 3, 4, 5].eraseIdx ([1, 2, 3, 4, 5].length / 2)) =
        (vals queue52819 [1, 2, 3, 4, 5]).eraseIdx ([1, 2, 3, 4, 5].length / 2)) ∧
    ([1, 2, 3, 4, 5].length ≤ 1 → q_delete_mid 6 queue52819 (some 0) = some (false, queue52819)) ∧
    q_delete_mid 6 queue52819 none = some (false, queue52819)) :=
  ⟨by decide, q_delete_mid_spec queue52819 0 [1, 2, 3, 4, 5] 6 (by decide) (by decide)⟩

/-- C9 at the queue `[c, a, b]`. -/
theorem q_swap_spec_witness :
    Ring queueCAB 0 [1, 2, 3] ∧
    ∃ h1, q_swap 4 queueCAB (some 0) = some h1 ∧ Ring h1 0 [1, 2, 3] ∧
      (vals h1 [1, 2, 3]).length = (vals queueCAB [1, 2, 3]).length ∧
      (∀ i, 2 * i + 1 < [1, 2, 3].length →
        (vals h1 [1, 2, 3])[2 * i]? = (vals queueCAB [1, 2, 3])[2 * i + 1]? ∧
        (vals h1 [1, 2, 3])[2 * i + 1]? = (vals queueCAB [1, 2, 3])[2 * i]?) ∧
      ([1, 2, 3].length % 2 = 1 →
        (vals h1 [1, 2, 3])[[1, 2, 3].length - 1]? =
          (vals queueCAB [1, 2, 3])[[1, 2, 3].length - 1]?) :=
  ⟨by decide, q_swap_spec queueCAB 0 [1, 2, 3] 4 (by decide) (by decide)⟩

/-- C10 at the queue `[c, a, b]`, the new element at address 4 holding `"d"`. -/
theorem q_insert_head_tail_spec_witness :
    Ring queueCAB 0 [1, 2, 3] ∧
    ((∀ e, (InsertAlloc.mk (some 4) true).new_elem = some e →
      (InsertAlloc.mk (some 4) true).strdup_ok = true →
      ((q_insert_head queueCAB (some 0) (str [100]) (InsertAlloc.mk (some 4) true)).1 = true ∧
        Ring (q_insert_head queueCAB (some 0) (str [100]) (InsertAlloc.mk (some 4) true)).2 0
          (e :: [1, 2, 3]) ∧
        vals (q_insert_head queueCAB (some 0) (str [100]) (InsertAlloc.mk (some 4) true)).2
          (e :: [1, 2, 3]) = str [100] :: vals queueCAB [1, 2, 3]) ∧
      ((q_insert_tail queueCAB (some 0) (str [100]) (InsertAlloc.mk (some 4) true)).1 = true ∧
        Ring (q_insert_tail queueCAB (some 0) (str [100]) (InsertAlloc.mk (some 4) true)).2 0
          ([1, 2, 3] ++ [e]) ∧
        vals (q_insert_tail queueCAB (some 0) (str [100]) (InsertAlloc.mk (some 4) true)).2
          ([1, 2, 3] ++ [e]) = vals queueCAB [1, 2, 3] ++ [str [100]])) ∧
    (((InsertAlloc.mk (some 4) true).new_elem = none ∨
        (InsertAlloc.mk (some 4) true).strdup_ok = false) →
      q_insert_head queueCAB (some 0) (str [100]) (InsertAlloc.mk (some 4) true) =
        (false, queueCAB) ∧
      q_insert_tail queueCAB (some 0) (str [100]) (InsertAlloc.mk (some 4) true) =
        (false, queueCAB))) :=
  ⟨by decide,
    q_insert_head_tail_spec queueCAB 0 [1, 2, 3] (str [100]) (InsertAlloc.mk (some 4) true)
      (by decide)
      (by
        intro e he
        simp only [Option.some.injEq] at he
        subst he
        decide)⟩

/-! # Removal, size, and the properties that hold of every queue -/

/-! ## C11 to C14: removal -/

theorem size_minus_one_pos {c : Nat} (h1 : 1 ≤ c) (h2 : c < SIZE_RANGE) :
    size_minus_one c = c - 1 := by
  simp only [size_minus_one, SIZE_RANGE] at *
  omega

theorem strncpy_succ (s : CString) (n : Nat) :
    strncpy s (n + 1) = strncpy s n ++ [(n, (s.map CChar.val).getD n 0)] := by
  simp [strncpy, List.range_succ]

theorem mem_strncpy (s : CString) (n : Nat) (w : Nat × Nat) :
    w ∈ strncpy s n ↔ w.1 < n ∧ w.2 = (s.map CChar.val).getD w.1 0 := by
  simp only [strncpy, List.mem_map, List.mem_range]
  constructor
  · rintro ⟨i, hi, rfl⟩
    exact ⟨hi, rfl⟩
  · rintro ⟨h1, h2⟩
    exact ⟨w.1, h1, by rw [← h2]⟩

theorem store_append (buf : Nat → Nat) (ws : List (Nat × Nat)) (i b : Nat) :
    store buf (ws ++ [(i, b)]) = Function.update (store buf ws) i b := by
  simp [store, List.foldl_append]

theorem store_strncpy (buf : Nat → Nat) (s : CString) : ∀ (n i : Nat),
    store buf (strncpy s n) i = if i < n then (s.map CChar.val).getD i 0 else buf i := by
  intro n
  induction n with
  | zero => intro i; simp [strncpy, store]
  | succ n ih =>
    intro i
    rw [strncpy_succ, store_append, Function.update_apply]
    by_cases hi : i = n
    · subst hi; simp
    · rw [if_neg hi, ih]
      by_cases h1 : i < n
      · rw [if_pos h1, if_pos (by omega)]
      · rw [if_neg h1, if_neg (by omega)]

theorem store_copy_out (buf : Nat → Nat) (s : CString) {c : Nat} (h1 : 1 ≤ c)
    (h2 : c < SIZE_RANGE) (i : Nat) :
    store buf (copy_out s c) i =
      if i = c - 1 then 0 else if i < c - 1 then (s.map CChar.val).getD i 0 else buf i := by
  rw [copy_out, size_minus_one_pos h1 h2, store_append, Function.update_apply, store_strncpy]

theorem mem_copy_out (s : CString) {c : Nat} (h1 : 1 ≤ c) (h2 : c < SIZE_RANGE)
    (w : Nat × Nat) (hw : w ∈ copy_out s c) : w.1 < c := by
  rw [copy_out, size_minus_one_pos h1 h2, List.mem_append] at hw
  rcases hw with hw | hw
  · have := ((mem_strncpy _ _ _).1 hw).1
    omega
  · simp only [List.mem_singleton] at hw
    subst hw
    simp only
    omega

theorem ring_prev_head {h : Heap} {head x : Nat} {pre : List Nat}
    (hr : Ring h head (pre ++ [x])) : h.prev head = x := by
  rw [seg_prev_last hr.2, List.getLast_cons (by simp)]
  simp

theorem q_remove_head_cons {h : Heap} {head x : Nat} {rest : List Nat}
    (hr : Ring h head (x :: rest)) (sp : Option Nat) (bufsize : Nat) :
    q_remove_head h (some head) sp bufsize =
      ⟨some x, list_del h x,
        match sp with
        | some _ => copy_out (h.value x) bufsize
        | none => []⟩ := by
  have hne : ¬ list_empty h head = true := by
    rw [ring_empty_iff hr]; simp
  have hn : h.next head = x := by simpa using ring_next_head hr
  simp only [q_remove_head, if_neg hne, hn, list_del_value]
  cases sp <;> rfl

theorem q_remove_tail_snoc {h : Heap} {head x : Nat} {pre : List Nat}
    (hr : Ring h head (pre ++ [x])) (sp : Option Nat) (bufsize : Nat) :
    q_remove_tail h (some head) sp bufsize =
      ⟨some x, list_del h x,
        match sp with
        | some _ => copy_out (h.value x) bufsize
        | none => []⟩ := by
  have hne : ¬ list_empty h head = true := by
    rw [ring_empty_iff hr]; simp
  simp only [q_remove_tail, if_neg hne, ring_prev_head hr, list_del_value]
  cases sp <;> rfl

/-- C11: on a queue with elements `x :: rest`, `q_remove_head` returns `x`
and leaves `rest`; on a queue `pre ++ [x]`, `q_remove_tail` returns `x` and
leaves `pre`, no value changing in either; on an absent or empty queue both
return `NULL`, store nothing and leave memory as it was. -/
theorem q_remove_head_tail_spec (h : Heap) (head : Nat) (ns : List Nat) (sp : Option Nat)
    (bufsize : Nat) (hr : Ring h head ns) :
    (∀ x rest, ns = x :: rest →
      (q_remove_head h (some head) sp bufsize).elem = some x ∧
      Ring (q_remove_head h (some head) sp bufsize).heap head rest ∧
      (q_remove_head h (some head) sp bufsize).heap.value = h.value) ∧
    (∀ pre x, ns = pre ++ [x] →
      (q_remove_tail h (some head) sp bufsize).elem = some x ∧
      Ring (q_remove_tail h (some head) sp bufsize).heap head pre ∧
      (q_remove_tail h (some head) sp bufsize).heap.value = h.value) ∧
    (ns = [] →
      q_remove_head h (some head) sp bufsize = ⟨none, h, []⟩ ∧
      q_remove_tail h (some head) sp bufsize = ⟨none, h, []⟩) ∧
    q_remove_head h none sp bufsize = ⟨none, h, []⟩ ∧
    q_remove_tail h none sp bufsize = ⟨none, h, []⟩ := by
  refine ⟨?_, ?_, ?_, rfl, rfl⟩
  · intro x rest hns
    subst hns
    rw [q_remove_head_cons hr]
    exact ⟨rfl, by simpa using @ring_del h head x [] rest (by simpa using hr), rfl⟩
  · intro pre x hns
    subst hns
    rw [q_remove_tail_snoc hr]
    exact ⟨rfl, by simpa using @ring_del h head x pre [] hr, rfl⟩
  · intro hns
    subst hns
    have he := (ring_empty_iff hr).2 rfl
    simp [q_remove_head, q_remove_tail, he]

/-- C12: on an empty queue, a successful `q_insert_tail` of the value `v`
followed by `q_remove_head` returns the element just inserted, whose value
is `v`, and leaves the queue empty again. -/
theorem insert_tail_remove_head_spec (h : Heap) (head e : Nat) (v : CString)
    (sp : Option Nat) (bufsize : Nat) (hr : Ring h head []) (he : e ≠ head) :
    (q_insert_tail h (some head) v ⟨some e, true⟩).1 = true ∧
    (q_remove_head (q_insert_tail h (some head) v ⟨some e, true⟩).2 (some head) sp
      bufsize).elem = some e ∧
    (q_remove_head (q_insert_tail h (some head) v ⟨some e, true⟩).2 (some head) sp
      bufsize).heap.value e = v ∧
    Ring (q_remove_head (q_insert_tail h (some head) v ⟨some e, true⟩).2 (some head) sp
      bufsize).heap head [] := by
  have hr0 : Ring (h.setValue e v) head [] := (ring_congr (by simp) (by simp)).2 hr
  have hr1 : Ring (list_add_tail (h.setValue e v) e head) head [e] := by
    simpa using ring_add_tail hr0 (by simpa using he)
  have hq : q_insert_tail h (some head) v ⟨some e, true⟩ =
      (true, list_add_tail (h.setValue e v) e head) := by
    simp [q_insert_tail]
  rw [hq, q_remove_head_cons hr1]
  refine ⟨rfl, rfl, by simp, ?_⟩
  simpa using @ring_del _ head e [] [] (by simpa using hr1)

/-- C13: when a buffer of capacity `c ≥ 1` is supplied, after `q_remove_head`
(and after `q_remove_tail`) the first `min (length s) (c - 1)` bytes of the
buffer are those of the value `s` of the removed element, the byte right
after them is NUL, and the element returned still holds all of `s`. -/
theorem q_remove_copy_spec (h : Heap) (head : Nat) (ns : List Nat) (sp c : Nat)
    (buf : Nat → Nat) (hr : Ring h head ns) (hc1 : 1 ≤ c) (hc2 : c < SIZE_RANGE) :
    (∀ x rest, ns = x :: rest →
      (∀ i, i < min (h.value x).length (c - 1) →
        ((h.value x).map CChar.val)[i]? =
          some (store buf (q_remove_head h (some head) (some sp) c).stores i)) ∧
      store buf (q_remove_head h (some head) (some sp) c).stores
        (min (h.value x).length (c - 1)) = 0 ∧
      (q_remove_head h (some head) (some sp) c).elem = some x ∧
      (q_remove_head h (some head) (some sp) c).heap.value x = h.value x) ∧
    (∀ pre x, ns = pre ++ [x] →
      (∀ i, i < min (h.value x).length (c - 1) →
        ((h.value x).map CChar.val)[i]? =
          some (store buf (q_remove_tail h (some head) (some sp) c).stores i)) ∧
      store buf (q_remove_tail h (some head) (some sp) c).stores
        (min (h.value x).length (c - 1)) = 0 ∧
      (q_remove_tail h (some head) (some sp) c).elem = some x ∧
      (q_remove_tail h (some head) (some sp) c).heap.value x = h.value x) := by
  have key : ∀ s : CString,
      (∀ i, i < min s.length (c - 1) →
        (s.map CChar.val)[i]? = some (store buf (copy_out s c) i)) ∧
      store buf (copy_out s c) (min s.length (c - 1)) = 0 := by
    intro s
    constructor
    · intro i hi
      have h1 : i < s.length := lt_of_lt_of_le hi (min_le_left _ _)
      have h2 : i < c - 1 := lt_of_lt_of_le hi (min_le_right _ _)
      rw [store_copy_out buf s hc1 hc2, if_neg (by omega), if_pos h2,
        List.getD_eq_getElem?_getD]
      have h3 : i < (s.map CChar.val).length := by simpa using h1
      rw [List.getElem?_eq_getElem h3]
      rfl
    · rw [store_copy_out buf s hc1 hc2]
      by_cases h1 : min s.length (c - 1) = c - 1
      · rw [if_pos h1]
      · have h2 : min s.length (c - 1) = s.length := by omega
        have h3 : s.length < c - 1 := by omega
        rw [if_neg h1, h2, if_pos h3]
        exact List.getD_eq_default _ _ (by simp)
  constructor
  · intro x rest hns
    subst hns
    rw [q_remove_head_cons hr]
    exact ⟨(key _).1, (key _).2, rfl, rfl⟩
  · intro pre x hns
    subst hns
    rw [q_remove_tail_snoc hr]
    exact ⟨(key _).1, (key _).2, rfl, rfl⟩

/-- C14, as amended: when a buffer of capacity `c` with `1 ≤ c` is supplied to
`q_remove_head` or `q_remove_tail` on a non-empty queue, every byte stored
lies at an index below `c`, and afterwards the byte at index `c - 1` is NUL,
so the buffer is NUL-terminated within its `c` bytes. -/
theorem q_remove_stores_in_bounds (h : Heap) (head : Nat) (ns : List Nat) (sp c : Nat)
    (buf : Nat → Nat) (hr : Ring h head ns) (hne : ns ≠ []) (hc1 : 1 ≤ c)
    (hc2 : c < SIZE_RANGE) :
    (∀ w ∈ (q_remove_head h (some head) (some sp) c).stores, w.1 < c) ∧
    store buf (q_remove_head h (some head) (some sp) c).stores (c - 1) = 0 ∧
    (∀ w ∈ (q_remove_tail h (some head) (some sp) c).stores, w.1 < c) ∧
    store buf (q_remove_tail h (some head) (some sp) c).stores (c - 1) = 0 := by
  have key : ∀ s : CString, store buf (copy_out s c) (c - 1) = 0 := by
    intro s
    rw [store_copy_out buf s hc1 hc2, if_pos rfl]
  obtain ⟨x, rest, hx⟩ : ∃ x rest, ns = x :: rest := by
    cases ns with
    | nil => exact absurd rfl hne
    | cons x rest => exact ⟨x, rest, rfl⟩
  obtain ⟨pre, y, hy⟩ : ∃ pre y, ns = pre ++ [y] := by
    rcases eq_nil_or_snoc ns with hn | hn
    · exact absurd hn hne
    · exact hn
  have hrx : Ring h head (x :: rest) := hx ▸ hr
  have hry : Ring h head (pre ++ [y]) := hy ▸ hr
  rw [q_remove_head_cons hrx, q_remove_tail_snoc hry]
  exact ⟨fun w hw => mem_copy_out _ hc1 hc2 w hw, key _, fun w hw => mem_copy_out _ hc1 hc2 w hw,
    key _⟩

/-- C14, as stated, fails at capacity 0: `bufsize - 1` wraps around to the
largest `size_t`, and `q_remove_head` on the queue `[c, a, b]` stores the
byte `c` at index 0 and a NUL at index 1 of a buffer that has no room at all
(and goes on storing NULs far beyond it). -/
theorem q_remove_head_overflows_empty_buffer :
    (0, 99) ∈ (q_remove_head queueCAB (some 0) (some 500) 0).stores ∧
    (1, 0) ∈ (q_remove_head queueCAB (some 0) (some 500) 0).stores ∧
    ¬ ∀ w ∈ (q_remove_head queueCAB (some 0) (some 500) 0).stores, w.1 < 0 := by
  have hr : Ring queueCAB 0 [1, 2, 3] := by decide
  have hv : queueCAB.value 1 = str [99] := by decide
  have hs : size_minus_one 0 = 18446744073709551615 := by decide
  rw [q_remove_head_cons hr]
  simp only [copy_out, hv, hs]
  have h0 : ((0 : Nat), (99 : Nat)) ∈ strncpy (str [99]) 18446744073709551615 := by
    rw [mem_strncpy]; exact ⟨by decide, by decide⟩
  have h1 : ((1 : Nat), (0 : Nat)) ∈ strncpy (str [99]) 18446744073709551615 := by
    rw [mem_strncpy]; exact ⟨by decide, by decide⟩
  refine ⟨List.mem_append_left _ h0, List.mem_append_left _ h1, ?_⟩
  intro hall
  exact absurd (hall _ (List.mem_append_left _ h0)) (by decide)

/-! ## C15: `q_size` -/

/-- C15: on a queue with element sequence `ns`, `q_size` returns the length
of `ns`, which is the number of nodes met when following `next` from the
sentinel until it is reached again; it returns 0 on an empty and on an absent
queue; and after an insertion, a removal or a reversal it returns the length
of the sequence that operation left. -/
theorem q_size_spec (h : Heap) (head : Nat) (ns : List Nat) (fuel : Nat)
    (hr : Ring h head ns) (hf : ns.length < fuel) :
    q_size fuel h (some head) = some (ns.length : Int) ∧
    nodesFrom h head fuel (h.next head) = ns ∧
    (ns = [] → q_size fuel h (some head) = some 0) ∧
    q_size fuel h none = some 0 ∧
    (∀ e v, e ∉ head :: ns →
      q_size (fuel + 1) (q_insert_tail h (some head) v ⟨some e, true⟩).2 (some head) =
        some (((ns ++ [e]).length : Nat) : Int)) ∧
    (∀ x rest, ns = x :: rest →
      q_size fuel (q_remove_head h (some head) none 0).heap (some head) =
        some (rest.length : Int)) ∧
    (∃ h1, q_reverse fuel h (some head) = some h1 ∧
      q_size fuel h1 (some head) = some (ns.reverse.length : Int)) := by
  refine ⟨q_size_ring hr hf, nodesFrom_seg (ring_head_not_mem hr) hr.2 hf, ?_, rfl, ?_, ?_, ?_⟩
  · intro hns
    subst hns
    simpa using q_size_ring hr hf
  · intro e v he
    have hr0 : Ring (h.setValue e v) head ns := (ring_congr (by simp) (by simp)).2 hr
    have hr1 : Ring (list_add_tail (h.setValue e v) e head) head (ns ++ [e]) :=
      ring_add_tail hr0 he
    have hq : q_insert_tail h (some head) v ⟨some e, true⟩ =
        (true, list_add_tail (h.setValue e v) e head) := by
      simp [q_insert_tail]
    rw [hq]
    exact q_size_ring hr1 (by simp; omega)
  · intro x rest hns
    subst hns
    rw [q_remove_head_cons hr]
    have hr1 : Ring (list_del h x) head rest := by
      simpa using @ring_del h head x [] rest (by simpa using hr)
    exact q_size_ring hr1 (by simp at hf; omega)
  · obtain ⟨h1, e1, e2, _⟩ := q_reverse_ring hr hf
    exact ⟨h1, e1, q_size_ring e2 (by simpa using hf)⟩

/-! ## C16: `q_delete_dup` without duplicates -/

theorem q_delete_dup_loop_distinct {head : Nat} (fuel0 : Nat) (removed : Bool) :
    ∀ (l : List Nat) (a : Nat) (h : Heap) (fuel : Nat), Seg h a l head → head ∉ l →
    (vals h l).Nodup → l.length < fuel →
    q_delete_dup_loop head fuel0 fuel h (h.next a) removed = some (removed, h)
  | [], a, h, fuel, hs, _, _, hf => by
    obtain ⟨f, rfl⟩ : ∃ f, fuel = f + 1 := ⟨fuel - 1, by simp at hf; omega⟩
    simp only [Seg] at hs
    simp [q_delete_dup_loop, hs.1]
  | x :: l, a, h, fuel, hs, hh, hnd, hf => by
    obtain ⟨f, rfl⟩ : ∃ f, fuel = f + 1 := ⟨fuel - 1, by simp at hf; omega⟩
    simp only [Seg] at hs
    simp only [List.mem_cons, not_or] at hh
    have hx : x ≠ head := fun e => hh.1 e.symm
    have hnd' : (vals h l).Nodup := by
      simp only [vals, List.map_cons, List.nodup_cons] at hnd
      exact hnd.2
    have ih := q_delete_dup_loop_distinct fuel0 removed l x h f hs.2 hh.2 hnd'
      (by simp at hf; omega)
    have hdup : (if h.next x ≠ head then
        (if strcmp (h.value x) (h.value (h.next x)) = 0 then true else false)
        else false) = false := by
      cases l with
      | nil =>
        simp only [Seg] at hs
        simp [hs.2.1]
      | cons y l =>
        simp only [Seg] at hs
        have hne : h.value x ≠ h.value y := by
          simp only [vals, List.map_cons, List.nodup_cons, List.mem_cons, not_or] at hnd
          exact hnd.1.1
        have : strcmp (h.value x) (h.value y) ≠ 0 := fun e => hne (strcmp_eq_zero.1 e)
        simp [hs.2.1.1, this]
    simp only [q_delete_dup_loop, hs.1.1]
    rw [if_pos hx, hdup]
    simpa using ih

/-- C16: on a queue whose values are pairwise distinct, sorted ascending or
in any other order, `q_delete_dup` removes nothing: it returns false and
leaves memory as it was, so the element sequence and the size are those from
before the call. -/
theorem q_delete_dup_distinct (h : Heap) (head : Nat) (ns : List Nat) (fuel : Nat)
    (hr : Ring h head ns) (hnd : (vals h ns).Nodup) (hf : ns.length < fuel) :
    q_delete_dup fuel h (some head) = some (false, h) ∧
    (q_delete_dup fuel h (some head)).map (fun r => contents fuel r.2 head) =
      some (vals h ns) ∧
    (q_delete_dup fuel h (some head)).bind (fun r => q_size fuel r.2 (some head)) =
      some (ns.length : Int) := by
  have key : q_delete_dup fuel h (some head) = some (false, h) := by
    simp only [q_delete_dup]
    split
    · rfl
    · exact q_delete_dup_loop_distinct fuel false ns head h fuel hr.2 (ring_head_not_mem hr)
        hnd hf
  refine ⟨key, ?_, ?_⟩
  · rw [key]
    simp [contents_ring hr hf]
  · rw [key]
    simp [q_size_ring hr hf]

/-! ## C19: what `q_ascend` leaves is non-decreasing -/

theorem noSmallerRight_pairwise (v : Nat → CString) : ∀ l : List Nat,
    (noSmallerRight v l).Pairwise (fun x y => strcmp (v x) (v y) ≤ 0)
  | [] => List.Pairwise.nil
  | x :: l => by
    simp only [noSmallerRight]
    split
    · exact noSmallerRight_pairwise v l
    · rename_i hex
      refine List.Pairwise.cons ?_ (noSmallerRight_pairwise v l)
      intro y hy
      by_contra hc
      refine hex ⟨y, (noSmallerRight_sublist v l).subset hy, ?_⟩
      have := strcmp_antisymm (v x) (v y)
      omega

/-- C19: for every queue, sorted or not, the sequence that survives
`q_ascend` is non-decreasing from head to tail: the value of every surviving
element is `<=` (by `strcmp`) the value of every surviving element after it. -/
theorem q_ascend_nondecreasing (h : Heap) (head : Nat) (ns : List Nat) (fuel : Nat)
    (hr : Ring h head ns) (hf : ns.length < fuel) :
    ∃ h1 kept, q_ascend fuel h (some head) = some ((kept.length : Int), h1) ∧
      Ring h1 head kept ∧ (vals h1 kept).Pairwise (fun a b => strcmp a b ≤ 0) := by
  obtain ⟨h1, e1, e2, e3, _⟩ := q_ascend_ring hr hf
  refine ⟨h1, noSmallerRight h.value ns, e1, e2, ?_⟩
  have hv : vals h1 (noSmallerRight h.value ns) = vals h (noSmallerRight h.value ns) :=
    List.map_congr_left e3
  rw [hv, vals, List.pairwise_map]
  exact noSmallerRight_pairwise h.value ns

/-! ## C17 and C18: `q_reverseK` when an allocation fails -/

theorem q_reverseK_count_ring {h : Heap} {head : Nat} {done rest : List Nat} (k : Int)
    (hk : 2 ≤ k) (hr : Ring h head (done ++ rest)) {fuel0 : Nat} (hf0 : rest.length < fuel0) :
    q_reverseK_count h head k fuel0 (rest.headD head) 0 = some (min (rest.length : Int) k) := by
  have hhead := ring_head_not_mem hr
  have hhr : head ∉ rest := fun hm => hhead (List.mem_append_right _ hm)
  have hseg := ring_suffix_seg hr
  have hcount := q_reverseK_count_seg (k := k) rest _ 0 fuel0 hseg hhr hf0 (by omega)
  rw [seg_next_head hseg] at hcount
  simpa using hcount

/-- The outer loop of `q_reverseK` stops, with memory as it is, when fewer
than `k` elements are left. -/
theorem q_reverseK_stop_short (head : Nat) {k : Int} (hk : 2 ≤ k) (malloc_ok : Nat → Bool)
    {fuel0 : Nat} {h : Heap} {done rest : List Nat} (g f : Nat)
    (hr : Ring h head (done ++ rest)) (hf0 : rest.length < fuel0)
    (hlt : rest.length < k.toNat) :
    q_reverseK_loop head k malloc_ok fuel0 (f + 1) h (rest.headD head) g = some h := by
  simp only [q_reverseK_loop]
  split
  · rw [q_reverseK_count_ring k hk hr hf0]
    have hmin : min (rest.length : Int) k < k := by omega
    simp only [if_pos hmin]
  · rfl

/-- The outer loop of `q_reverseK` stops, with memory as it is, when the
scratch array of the next group cannot be allocated. -/
theorem q_reverseK_stop_alloc (head : Nat) {k : Int} (hk : 2 ≤ k) (malloc_ok : Nat → Bool)
    {fuel0 : Nat} {h : Heap} {done rest : List Nat} (g f : Nat)
    (hr : Ring h head (done ++ rest)) (hf0 : rest.length < fuel0)
    (hm : malloc_ok g = false) :
    q_reverseK_loop head k malloc_ok fuel0 (f + 1) h (rest.headD head) g = some h := by
  simp only [q_reverseK_loop]
  split
  · rw [q_reverseK_count_ring k hk hr hf0]
    simp only [hm, Bool.not_false, if_true]
    split <;> rfl
  · rfl

/-- One round of the outer loop of `q_reverseK` whose allocation succeeds:
the first `k` elements that are left are reversed and the loop goes on
behind them. -/
theorem q_reverseK_round (head : Nat) {k : Int} (hk : 2 ≤ k) (malloc_ok : Nat → Bool)
    {fuel0 : Nat} {h : Heap} {done rest : List Nat} (g f : Nat)
    (hr : Ring h head (done ++ rest)) (hf0 : rest.length < fuel0)
    (hKle : k.toNat ≤ rest.length) (hm : malloc_ok g = true) :
    ∃ h3, q_reverseK_loop head k malloc_ok fuel0 (f + 1) h (rest.headD head) g =
        q_reverseK_loop head k malloc_ok fuel0 f h3 ((rest.drop k.toNat).headD head) (g + 1) ∧
      Ring h3 head ((done ++ (rest.take k.toNat).reverse) ++ rest.drop k.toNat) ∧
      h3.value = h.value := by
  have hKpos : 0 < k.toNat := by omega
  obtain ⟨c, tl, hrest⟩ : ∃ c tl, rest = c :: tl := by
    cases rest with
    | nil => simp at hKle; omega
    | cons c tl => exact ⟨c, tl, rfl⟩
  have hhead := ring_head_not_mem hr
  have hhr : head ∉ rest := fun hm' => hhead (List.mem_append_right _ hm')
  have hc : rest.headD head ≠ head := by
    rw [hrest]; simp only [List.headD_cons]
    rintro rfl
    exact hhr (by rw [hrest]; simp)
  have hseg := ring_suffix_seg hr
  have hcur : h.next ((head :: done).getLast (by simp)) = rest.headD head :=
    seg_next_head hseg
  simp only [q_reverseK_loop]
  rw [if_pos hc, q_reverseK_count_ring k hk hr hf0]
  have hmin : ¬ min (rest.length : Int) k < k := by omega
  simp only [if_neg hmin, hm, Bool.not_true, Bool.false_eq_true, if_false]
  have hfill := q_reverseK_fill_seg k.toNat hseg hKle k.toNat (le_refl _)
  rw [hcur] at hfill
  have hgroup : (q_reverseK_fill h k.toNat (rest.headD head)).1 = rest.take k.toNat := by
    rw [q_reverseK_fill, hfill]; simp
  rw [hgroup]
  have hGlen : (rest.take k.toNat).length = k.toNat := by simp; omega
  have hsplit : done ++ rest = done ++ rest.take k.toNat ++ rest.drop k.toNat := by
    rw [List.append_assoc, List.take_append_drop]
  have hr' : Ring h head (done ++ rest.take k.toNat ++ rest.drop k.toNat) := by
    rw [← hsplit]; exact hr
  have hg0 : (rest.take k.toNat).getD 0 0 = c := by
    rw [hrest]
    obtain ⟨m, hm'⟩ : ∃ m, k.toNat = m + 1 := ⟨k.toNat - 1, by omega⟩
    rw [hm']; simp
  have hbefore : h.prev ((rest.take k.toNat).getD 0 0) =
      (head :: done).getLast (by simp) := by
    rw [hg0]
    have := hr.2
    rw [hrest, seg_append] at this
    exact seg_prev_last this.1
  have hlastG : (rest.take k.toNat).getD (k.toNat - 1) 0 = rest.getD (k.toNat - 1) head := by
    have hlt1 : k.toNat - 1 < rest.length := by omega
    rw [List.getD_eq_getElem?_getD, List.getD_eq_getElem?_getD,
      List.getElem?_take_of_lt (by omega), List.getElem?_eq_getElem hlt1]
    rfl
  have hafter : h.next ((rest.take k.toNat).getD (k.toNat - 1) 0) =
      (rest.drop k.toNat).headD head := by
    rw [hlastG, seg_next_getD hseg _ (by omega)]
    have e : k.toNat - 1 + 1 = k.toNat := by omega
    rw [e]
    cases hd : rest.drop k.toNat with
    | nil =>
      have : rest.length ≤ k.toNat := by
        have := congrArg List.length hd; simp at this; omega
      rw [List.getD_eq_default _ _ this]; rfl
    | cons d tl' =>
      have hlt' : k.toNat < rest.length := by
        have := congrArg List.length hd; simp at this; omega
      have := @List.cons_getElem_drop_succ _ rest k.toNat hlt'
      rw [hd] at this
      simp only [List.headD_cons]
      rw [List.getD_eq_getElem _ _ hlt']
      exact (List.cons.inj this).1
  have hb : (head :: done).getLast? = some ((head :: done).getLast (by simp)) :=
    List.getLast?_eq_getLast _ _
  have ha : (rest.drop k.toNat ++ [head]).head? = some ((rest.drop k.toNat).headD head) := by
    cases rest.drop k.toNat <;> simp
  have hround := q_reverseK_group_ring hr' (by omega) hb ha
  rw [hGlen] at hround
  simp only [hbefore, hafter]
  exact ⟨_, rfl, hround.1, hround.2⟩

/-- The outer loop of `q_reverseK` when the allocation for group number
`g + j` is the first to fail and that group is a full one: the `j` groups
before it are reversed, everything from it on is as it was. -/
theorem q_reverseK_loop_fail (head : Nat) {k : Int} (hk : 2 ≤ k) (malloc_ok : Nat → Bool)
    (fuel0 : Nat) :
    ∀ (j : Nat) (rest done : List Nat) (h : Heap) (g fuel : Nat),
    Ring h head (done ++ rest) → rest.length < fuel → rest.length < fuel0 →
    (∀ i, i < j → malloc_ok (g + i) = true) → malloc_ok (g + j) = false →
    (j + 1) * k.toNat ≤ rest.length →
    ∃ h1, q_reverseK_loop head k malloc_ok fuel0 fuel h (rest.headD head) g = some h1 ∧
      Ring h1 head (done ++ (reverseGroups k.toNat (rest.take (j * k.toNat)) ++
        rest.drop (j * k.toNat))) ∧ h1.value = h.value := by
  have hKpos : 0 < k.toNat := by omega
  intro j
  induction j with
  | zero =>
    intro rest done h g fuel hr hf hf0 _ hbad _
    obtain ⟨f, rfl⟩ : ∃ f, fuel = f + 1 := ⟨fuel - 1, by omega⟩
    refine ⟨h, q_reverseK_stop_alloc head hk malloc_ok g f hr hf0 (by simpa using hbad), ?_, rfl⟩
    have e : reverseGroups k.toNat ([] : List Nat) = [] := by
      rw [reverseGroups_eq hKpos, if_neg (by simp; omega)]
    simpa [e] using hr
  | succ j ih =>
    intro rest done h g fuel hr hf hf0 hok hbad hlen
    obtain ⟨f, rfl⟩ : ∃ f, fuel = f + 1 := ⟨fuel - 1, by omega⟩
    have hexp : (j + 1 + 1) * k.toNat = (j + 1) * k.toNat + k.toNat := by ring
    have hexp2 : (j + 1) * k.toNat = j * k.toNat + k.toNat := by ring
    have hKle : k.toNat ≤ rest.length := by omega
    obtain ⟨h3, e1, e2, e3⟩ := q_reverseK_round head hk malloc_ok g f hr hf0 hKle
      (by simpa using hok 0 (by omega))
    obtain ⟨h1, a1, a2, a3⟩ := ih (rest.drop k.toNat) (done ++ (rest.take k.toNat).reverse) h3
      (g + 1) f e2 (by simp; omega) (by simp; omega)
      (fun i hi => by
        have := hok (i + 1) (by omega)
        rw [← this]; congr 1; omega)
      (by rw [← hbad]; congr 1; omega)
      (by rw [List.length_drop]; rw [hexp] at hlen; exact Nat.le_sub_of_add_le hlen)
    refine ⟨h1, e1.trans a1, ?_, a3.trans e3⟩
    have t1 : (rest.take ((j + 1) * k.toNat)).take k.toNat = rest.take k.toNat := by
      rw [List.take_take]; congr 1; omega
    have t2 : (rest.take ((j + 1) * k.toNat)).drop k.toNat =
        (rest.drop k.toNat).take (j * k.toNat) := by
      rw [List.drop_take]; congr 1; omega
    have t3 : rest.drop ((j + 1) * k.toNat) = (rest.drop k.toNat).drop (j * k.toNat) := by
      rw [List.drop_drop]; congr 1; omega
    have t4 : k.toNat ≤ (rest.take ((j + 1) * k.toNat)).length := by
      rw [List.length_take]
      exact le_min (by rw [hexp2]; exact Nat.le_add_left _ _) hKle
    rw [reverseGroups_eq hKpos (rest.take ((j + 1) * k.toNat)), if_pos t4, t1, t2, t3]
    simpa [List.append_assoc] using a2

/-- The outer loop of `q_reverseK`, whatever allocations succeed: it ends and
leaves a well-formed queue of the same elements with the same values. -/
theorem q_reverseK_loop_ring (head : Nat) {k : Int} (hk : 2 ≤ k) (malloc_ok : Nat → Bool)
    (fuel0 : Nat) :
    ∀ (n : Nat) (rest done : List Nat) (h : Heap) (g fuel : Nat), rest.length ≤ n →
    Ring h head (done ++ rest) → rest.length < fuel → rest.length < fuel0 →
    ∃ h1 r, q_reverseK_loop head k malloc_ok fuel0 fuel h (rest.headD head) g = some h1 ∧
      Ring h1 head (done ++ r) ∧ r.Perm rest ∧ h1.value = h.value := by
  intro n
  induction n with
  | zero =>
    intro rest done h g fuel hn hr hf hf0
    obtain ⟨f, rfl⟩ : ∃ f, fuel = f + 1 := ⟨fuel - 1, by omega⟩
    exact ⟨h, rest, q_reverseK_stop_short head hk malloc_ok g f hr hf0 (by omega), hr,
      List.Perm.refl _, rfl⟩
  | succ n ih =>
    intro rest done h g fuel hn hr hf hf0
    obtain ⟨f, rfl⟩ : ∃ f, fuel = f + 1 := ⟨fuel - 1, by omega⟩
    by_cases hlt : rest.length < k.toNat
    · exact ⟨h, rest, q_reverseK_stop_short head hk malloc_ok g f hr hf0 hlt, hr,
        List.Perm.refl _, rfl⟩
    · cases hm : malloc_ok g with
      | false =>
        exact ⟨h, rest, q_reverseK_stop_alloc head hk malloc_ok g f hr hf0 hm, hr,
          List.Perm.refl _, rfl⟩
      | true =>
        obtain ⟨h3, e1, e2, e3⟩ := q_reverseK_round head hk malloc_ok g f hr hf0 (by omega) hm
        obtain ⟨h1, r, a1, a2, a3, a4⟩ := ih (rest.drop k.toNat)
          (done ++ (rest.take k.toNat).reverse) h3 (g + 1) f (by simp; omega) e2
          (by simp; omega) (by simp; omega)
        refine ⟨h1, (rest.take k.toNat).reverse ++ r, e1.trans a1,
          by simpa [List.append_assoc] using a2, ?_, a4.trans e3⟩
        have : ((rest.take k.toNat).reverse ++ r).Perm (rest.take k.toNat ++ rest.drop k.toNat) :=
          List.Perm.append (List.reverse_perm _) a3
        simpa using this

theorem q_reverseK_ring {h : Heap} {head : Nat} {ns : List Nat} {fuel : Nat} (k : Int)
    (malloc_ok : Nat → Bool) (hr : Ring h head ns) (hf : ns.length < fuel) :
    ∃ h1 ms, q_reverseK fuel h (some head) k malloc_ok = some h1 ∧ Ring h1 head ms ∧
      ms.Perm ns ∧ h1.value = h.value := by
  by_cases hc : list_empty h head = true ∨ k ≤ 1
  · exact ⟨h, ns, by simp only [q_reverseK, if_pos hc], hr, List.Perm.refl _, rfl⟩
  · have hk : 2 ≤ k := by
      by_contra hlt
      exact hc (Or.inr (by omega))
    obtain ⟨h1, r, e1, e2, e3, e4⟩ := q_reverseK_loop_ring head hk malloc_ok fuel ns.length ns []
      h 0 fuel (le_refl _) (by simpa using hr) hf hf
    refine ⟨h1, r, ?_, by simpa using e2, e3, e4⟩
    simp only [q_reverseK, if_neg hc, ring_next_head hr]
    exact e1

/-- C17, as amended: when the scratch array cannot be allocated, `q_sort`
stops with memory exactly as it was, and so does `q_reverseK` when the
allocation that fails is the one for the first group; when it is the one for
a later full group `g`, `q_reverseK` stops with the `g` groups before it
reversed and every element from that group on where it was, no value
changed. -/
theorem alloc_failure_spec (qsort : (Nat → Nat → Int) → List Nat → List Nat) (h : Heap)
    (head : Nat) (ns : List Nat) (fuel : Nat) (k : Int) (descend : Bool)
    (malloc_ok : Nat → Bool) (hr : Ring h head ns) (hf : ns.length < fuel) :
    q_sort qsort fuel h (some head) descend false = some h ∧
    (malloc_ok 0 = false → q_reverseK fuel h (some head) k malloc_ok = some h) ∧
    (∀ g, 2 ≤ k → (∀ i, i < g → malloc_ok i = true) → malloc_ok g = false →
      (g + 1) * k.toNat ≤ ns.length →
      ∃ h1, q_reverseK fuel h (some head) k malloc_ok = some h1 ∧
        Ring h1 head (reverseGroups k.toNat (ns.take (g * k.toNat)) ++
          ns.drop (g * k.toNat)) ∧
        h1.value = h.value) := by
  obtain ⟨f, rfl⟩ : ∃ f, fuel = f + 1 := ⟨fuel - 1, by omega⟩
  refine ⟨?_, ?_, ?_⟩
  · simp only [q_sort]
    split
    · rfl
    · simp [q_size_ring hr hf]
  · intro hbad
    by_cases hc : list_empty h head = true ∨ k ≤ 1
    · simp only [q_reverseK, if_pos hc]
    · have hk : 2 ≤ k := by
        by_contra hlt
        exact hc (Or.inr (by omega))
      simp only [q_reverseK, if_neg hc, ring_next_head hr]
      exact @q_reverseK_stop_alloc head k hk malloc_ok (f + 1) h [] ns 0 f (by simpa using hr) hf hbad
  · intro g hk hok hbad hlen
    have hKpos : 0 < k.toNat := by omega
    have hne : ns ≠ [] := by
      rintro rfl
      have h1 : 0 < (g + 1) * k.toNat := Nat.mul_pos (by omega) hKpos
      simp at hlen
      omega
    have hc : ¬ (list_empty h head = true ∨ k ≤ 1) := by
      rintro (hc | hc)
      · exact hne ((ring_empty_iff hr).1 hc)
      · omega
    obtain ⟨h1, e1, e2, e3⟩ := q_reverseK_loop_fail head hk malloc_ok (f + 1) g ns [] h 0 (f + 1)
      (by simpa using hr) hf hf (fun i hi => by simpa using hok i hi) (by simpa using hbad) hlen
    refine ⟨h1, ?_, by simpa using e2, e3⟩
    simp only [q_reverseK, if_neg hc, ring_next_head hr]
    exact e1

/-- C17, as stated, fails: on the queue `[5, 2, 8, 1, 9]` with `k = 2`, when
the allocation for the first group succeeds and the one for the second
fails, `q_reverseK` stops with the first group already reversed, and the
queue reads `[2, 5, 8, 1, 9]`. -/
theorem q_reverseK_partial_when_malloc_fails :
    (q_reverseK 6 queue52819 (some 0) 2 (fun g => decide (g = 0))).map
        (fun h1 => contents 6 h1 0) =
      some [str [50], str [53], str [56], str [49], str [57]] ∧
    (q_reverseK 6 queue52819 (some 0) 2 (fun g => decide (g = 0))).map
        (fun h1 => contents 6 h1 0) ≠ some (contents 6 queue52819 0) := by
  decide

/-! ## C18: the ring invariant -/

theorem ring_links {h : Heap} {l : List Nat} (hc : Cyc h l) {x : Nat} (hx : x ∈ l) :
    h.prev (h.next x) = x ∧ h.next (h.prev x) = x := by
  obtain ⟨l1, l2, rfl⟩ := List.append_of_mem hx
  have h1 : Cyc h (x :: (l2 ++ l1)) := by
    simpa using (cyc_rotate h l1 (x :: l2)).1 hc
  have hs := h1.2
  rcases eq_nil_or_snoc (l2 ++ l1) with e | ⟨m, z, e⟩
  · rw [e] at hs
    simp only [Seg] at hs
    simp [hs.1, hs.2]
  · rw [e] at hs
    have hlast := (seg_snoc _ _ _ _ _).1 hs
    refine ⟨?_, by rw [hlast.2.2, hlast.2.1]⟩
    cases m with
    | nil =>
      simp only [List.nil_append, Seg] at hs
      rw [hs.1.1, hs.1.2]
    | cons y m =>
      simp only [List.cons_append, Seg] at hs
      rw [hs.1.1, hs.1.2]

theorem nextPath_of_seg {h : Heap} {b : Nat} : ∀ {l : List Nat} {a : Nat}, Seg h a l b →
    NextPath h a l b
  | [], _, hs => by simp only [Seg] at hs; exact hs.1
  | _ :: _, _, hs => by
    simp only [Seg] at hs
    exact ⟨hs.1.1, nextPath_of_seg hs.2⟩

theorem seg_of_nextPath {h : Heap} {b : Nat} : ∀ {l : List Nat} {a : Nat}, NextPath h a l b →
    (∀ x ∈ a :: l, h.prev (h.next x) = x) → Seg h a l b
  | [], a, hp, hi => by
    simp only [NextPath] at hp
    have := hi a (by simp)
    rw [hp] at this
    exact ⟨hp, this⟩
  | n :: l, a, hp, hi => by
    simp only [NextPath] at hp
    have := hi a (by simp)
    rw [hp.1] at this
    exact ⟨⟨hp.1, this⟩, seg_of_nextPath hp.2 (fun x hx => hi x (List.mem_cons_of_mem _ hx))⟩

theorem nextPath_pred {h : Heap} {b : Nat} : ∀ {l : List Nat} {a : Nat}, NextPath h a l b →
    ∀ y ∈ l, ∃ p ∈ a :: l, h.next p = y
  | [], _, _, y, hy => by simp at hy
  | n :: l, a, hp, y, hy => by
    simp only [NextPath] at hp
    rcases List.mem_cons.1 hy with rfl | hy
    · exact ⟨a, by simp, hp.1⟩
    · obtain ⟨p, hp1, hp2⟩ := nextPath_pred hp.2 y hy
      exact ⟨p, List.mem_cons_of_mem _ hp1, hp2⟩

theorem nextPath_nodup {h : Heap} {b : Nat} : ∀ {l : List Nat} {a : Nat}, NextPath h a l b →
    (∀ x ∈ a :: l, h.prev (h.next x) = x) → a ∉ l → (a :: l).Nodup
  | [], _, _, _, _ => by simp
  | n :: l, a, hp, hi, ha => by
    simp only [NextPath] at hp
    have hn : n ∉ l := by
      intro hm
      obtain ⟨p, hp1, hp2⟩ := nextPath_pred hp.2 n hm
      have e1 := hi p (List.mem_cons_of_mem _ hp1)
      have e2 := hi a (by simp)
      rw [hp2] at e1
      rw [hp.1] at e2
      exact ha (by rw [← e2, e1]; exact hp1)
    have ih := nextPath_nodup hp.2 (fun x hx => hi x (List.mem_cons_of_mem _ hx)) hn
    exact List.nodup_cons.2 ⟨ha, ih⟩

/-- The ring invariant as the data model words it is the one the proofs use. -/
theorem ring_iff_wellFormed (h : Heap) (head : Nat) (ns : List Nat) :
    Ring h head ns ↔ WellFormedRing h head ns := by
  constructor
  · intro hr
    exact ⟨nextPath_of_seg hr.2, ring_head_not_mem hr, fun n hn => ring_links hr hn⟩
  · rintro ⟨hp, hh, hi⟩
    exact ⟨nextPath_nodup hp (fun x hx => (hi x hx).1) hh,
      seg_of_nextPath hp (fun x hx => (hi x hx).1)⟩

/-- C18: on a well-formed ring, `q_reverse`, and `q_reverseK` for any `k` and
whatever its allocations do, leave a well-formed ring of the same elements:
every node `n` again has `n.next.prev == n` and `n.prev.next == n` and
following `next` from the sentinel leads back to it; `merge_two` on two
well-formed rings that share no node leaves the destination a well-formed
ring of all the elements and the source a sentinel that points at itself. -/
theorem ring_invariant_preserved (h : Heap) (head : Nat) (ns : List Nat) (fuel : Nat)
    (k : Int) (malloc_ok : Nat → Bool) (hw : WellFormedRing h head ns)
    (hf : ns.length < fuel) :
    (∃ h1 ms, q_reverse fuel h (some head) = some h1 ∧ WellFormedRing h1 head ms ∧
      ms.Perm ns) ∧
    (∃ h1 ms, q_reverseK fuel h (some head) k malloc_ok = some h1 ∧
      WellFormedRing h1 head ms ∧ ms.Perm ns) ∧
    (∀ src Q descend, WellFormedRing h src Q → (∀ x, x ∈ head :: ns → x ∉ src :: Q) →
      ns.length + Q.length < fuel →
      ∃ h1 ms, merge_two fuel h head src descend = some h1 ∧ WellFormedRing h1 head ms ∧
        ms.Perm (ns ++ Q) ∧ WellFormedRing h1 src [] ∧
        h1.next src = src ∧ h1.prev src = src) := by
  have hr := (ring_iff_wellFormed h head ns).2 hw
  refine ⟨?_, ?_, ?_⟩
  · obtain ⟨h1, e1, e2, _⟩ := q_reverse_ring hr hf
    exact ⟨h1, ns.reverse, e1, (ring_iff_wellFormed _ _ _).1 e2, List.reverse_perm ns⟩
  · obtain ⟨h1, ms, e1, e2, e3, _⟩ := q_reverseK_ring k malloc_ok hr hf
    exact ⟨h1, ms, e1, (ring_iff_wellFormed _ _ _).1 e2, e3⟩
  · intro src Q descend hwq hdis hlen
    have hq := (ring_iff_wellFormed h src Q).2 hwq
    obtain ⟨h1, e1, e2, e3, _, _, _, _⟩ := merge_two_spec descend hr hq hdis hlen
    have hnil := ring_nil_iff.1 e3
    exact ⟨h1, _, e1, (ring_iff_wellFormed _ _ _).1 e2,
      List.merge_perm_append (mergeLe h.value descend), (ring_iff_wellFormed _ _ _).1 e3,
      hnil.1, hnil.2⟩

/-! ## C20: `q_merge` keeps every element, and every queue's own order -/

theorem left_sublist_merge (le : Nat → Nat → Bool) : ∀ l r : List Nat,
    l.Sublist (List.merge l r le) := by
  intro l
  induction l with
  | nil => intro r; exact List.nil_sublist _
  | cons a l ih =>
    intro r
    induction r with
    | nil => simp [List.merge]
    | cons b r ihr =>
      by_cases hle : le a b = true
      · rw [List.cons_merge_cons_pos _ _ _ hle]
        exact (ih (b :: r)).cons₂ a
      · rw [List.cons_merge_cons_neg _ _ _ hle]
        exact ihr.cons b

theorem right_sublist_merge (le : Nat → Nat → Bool) : ∀ l r : List Nat,
    r.Sublist (List.merge l r le) := by
  intro l
  induction l with
  | nil => intro r; simp [List.merge]
  | cons a l ih =>
    intro r
    induction r with
    | nil => exact List.nil_sublist _
    | cons b r ihr =>
      by_cases hle : le a b = true
      · rw [List.cons_merge_cons_pos _ _ _ hle]
        exact (ih (b :: r)).cons a
      · rw [List.cons_merge_cons_neg _ _ _ hle]
        exact ihr.cons₂ b

theorem mergeChain_sublist (le : Nat → Nat → Bool) : ∀ (es : List Entry) (D : List Nat),
    D.Sublist (mergeChain le D es) ∧
    ∀ e ∈ es, ∀ s ns, e.2 = some (s, ns) → ns.Sublist (mergeChain le D es)
  | [], D => ⟨by simp [mergeChain], fun e he => by simp at he⟩
  | (c, none) :: es, D => by
    obtain ⟨a, b⟩ := mergeChain_sublist le es D
    refine ⟨by simpa [mergeChain] using a, ?_⟩
    intro e he s ns hes
    rcases List.mem_cons.1 he with rfl | he
    · simp at hes
    · simpa [mergeChain] using b e he s ns hes
  | (c, some (s0, n0)) :: es, D => by
    obtain ⟨a, b⟩ := mergeChain_sublist le es (List.merge D n0 le)
    simp only [mergeChain]
    refine ⟨(left_sublist_merge le D n0).trans a, ?_⟩
    intro e he s ns hes
    rcases List.mem_cons.1 he with rfl | he
    · simp only [Option.some.injEq, Prod.mk.injEq] at hes
      rw [← hes.2]
      exact (right_sublist_merge le D n0).trans a
    · exact b e he s ns hes

/-- What `q_merge` does on a well-formed chain whose first entry has the
queue `dest` attached, whatever the order inside the queues. -/
theorem q_merge_ring {h : Heap} {chead c0 dest : Nat} {D : List Nat} {es : List Entry}
    {fuel : Nat} (descend : Bool)
    (hc : ChainOK h chead ((c0, some (dest, D)) :: es))
    (hf : es.length + 1 < fuel) (hf0 : D.length + (chainElems es).length < fuel) :
    ∃ h1, q_merge fuel h (some chead) descend =
        some (((mergeChain (mergeLe h.value descend) D es).length : Int), h1) ∧
      Ring h1 dest (mergeChain (mergeLe h.value descend) D es) ∧ h1.value = h.value ∧
      (∀ e ∈ es, ∀ s ns, e.2 = some (s, ns) → Ring h1 s [] ∧ h1.q e.1 = none) := by
  obtain ⟨hring, hat, hnd⟩ := hc
  have hring' : Ring h chead (c0 :: es.map Prod.fst) := by simpa using hring
  have hfirst := hat (c0, some (dest, D)) (by simp)
  simp only [Attached] at hfirst
  obtain ⟨hq0, hd⟩ := hfirst
  have hn0 : h.next chead = c0 := by
    have := ring_next_head hring'
    simpa using this
  have hc0 : c0 ≠ chead := by
    rintro rfl
    exact ring_head_not_mem hring' (by simp)
  have hn1 : h.next c0 = (es.map Prod.fst).headD chead :=
    @ring_next_mid h chead c0 [] (es.map Prod.fst) hring'
  have hnd' : ((chead :: ([c0] ++ es.map Prod.fst)) ++ ((dest :: D) ++ chainNodes es)).Nodup := by
    simpa [chainNodes] using hnd
  obtain ⟨h1, e1, e2, e3, e4, _, _⟩ := q_merge_loop_spec chead dest descend
    h.value fuel es [c0] D h fuel (by simpa using hring') hd
    (fun e he => hat e (List.mem_cons_of_mem _ he)) hnd' rfl hf0 (by omega)
  have hlen : (mergeChain (mergeLe h.value descend) D es).length =
      D.length + (chainElems es).length := by
    rw [(mergeChain_perm (mergeLe h.value descend) es D).length_eq]; simp
  refine ⟨h1, ?_, e2, e3, e4⟩
  have hne : ¬ (list_empty h chead = true ∨ c0 = chead) := by
    simp only [list_empty, hn0, beq_iff_eq, or_self]
    exact hc0
  simp only [q_merge, hn0, if_neg hne, hq0, hn1, e1, q_size_ring e2 (by omega : _ < fuel)]
  rfl

/-- C20: on a well-formed chain of pairwise distinct queues whose first entry
has the queue `dest` attached, whatever the order inside the queues and for
either direction, `q_merge` leaves `dest` holding every element of every
attached queue exactly once, the elements of each input queue in the order
they had in that queue, no value changed, and returns the sum of the sizes of
the attached queues. -/
theorem q_merge_conserves (h : Heap) (chead c0 dest : Nat) (D : List Nat) (es : List Entry)
    (fuel : Nat) (descend : Bool)
    (hc : ChainOK h chead ((c0, some (dest, D)) :: es))
    (hf : es.length + 1 < fuel) (hf0 : D.length + (chainElems es).length < fuel) :
    ∃ h1 M, q_merge fuel h (some chead) descend =
        some (((D.length + (chainElems es).length : Nat) : Int), h1) ∧
      Ring h1 dest M ∧ M.Perm (D ++ chainElems es) ∧ M.Nodup ∧
      D.Sublist M ∧ (∀ e ∈ es, ∀ s ns, e.2 = some (s, ns) → ns.Sublist M) ∧
      h1.value = h.value ∧
      q_size fuel h1 (some dest) = some ((D.length + (chainElems es).length : Nat) : Int) := by
  obtain ⟨h1, e1, e2, e3, _⟩ := q_merge_ring descend hc hf hf0
  have hperm := mergeChain_perm (mergeLe h.value descend) es D
  have hlen : (mergeChain (mergeLe h.value descend) D es).length =
      D.length + (chainElems es).length := by
    rw [hperm.length_eq]; simp
  have hsub := mergeChain_sublist (mergeLe h.value descend) es D
  refine ⟨h1, _, by rw [e1, hlen], e2, hperm, ring_nodup e2, hsub.1, hsub.2, e3, ?_⟩
  rw [q_size_ring e2 (by omega : _ < fuel), hlen]

/-! ## The further theorems at concrete queues -/

/-- C11 at the queue `[c, a, b]`, no buffer supplied. -/
theorem q_remove_head_tail_spec_witness :
    Ring queueCAB 0 [1, 2, 3] ∧
    ((∀ x rest, [1, 2, 3] = x :: rest →
      (q_remove_head queueCAB (some 0) none 0).elem = some x ∧
      Ring (q_remove_head queueCAB (some 0) none 0).heap 0 rest ∧
      (q_remove_head queueCAB (some 0) none 0).heap.value = queueCAB.value) ∧
    (∀ pre x, [1, 2, 3] = pre ++ [x] →
      (q_remove_tail queueCAB (some 0) none 0).elem = some x ∧
      Ring (q_remove_tail queueCAB (some 0) none 0).heap 0 pre ∧
      (q_remove_tail queueCAB (some 0) none 0).heap.value = queueCAB.value) ∧
    (([1, 2, 3] : List Nat) = [] →
      q_remove_head queueCAB (some 0) none 0 = ⟨none, queueCAB, []⟩ ∧
      q_remove_tail queueCAB (some 0) none 0 = ⟨none, queueCAB, []⟩) ∧
    q_remove_head queueCAB none none 0 = ⟨none, queueCAB, []⟩ ∧
    q_remove_tail queueCAB none none 0 = ⟨none, queueCAB, []⟩) :=
  ⟨by decide, q_remove_head_tail_spec queueCAB 0 [1, 2, 3] none 0 (by decide)⟩

/-- C12 at the empty queue with sentinel 0, the new element at address 1
holding `"d"`. -/
theorem insert_tail_remove_head_spec_witness :
    (Ring Heap.init 0 [] ∧ (1 : Nat) ≠ 0) ∧
    (q_insert_tail Heap.init (some 0) (str [100]) ⟨some 1, true⟩).1 = true ∧
    (q_remove_head (q_insert_tail Heap.init (some 0) (str [100]) ⟨some 1, true⟩).2 (some 0)
      none 0).elem = some 1 ∧
    (q_remove_head (q_insert_tail Heap.init (some 0) (str [100]) ⟨some 1, true⟩).2 (some 0)
      none 0).heap.value 1 = str [100] ∧
    Ring (q_remove_head (q_insert_tail Heap.init (some 0) (str [100]) ⟨some 1, true⟩).2
      (some 0) none 0).heap 0 [] :=
  ⟨⟨by decide, by decide⟩,
    insert_tail_remove_head_spec Heap.init 0 1 (str [100]) none 0 (by decide) (by decide)⟩

/-- C13 at the queue `[c, a, b]` with a buffer of capacity 4 that held `0xff`
in every byte. -/
theorem q_remove_copy_spec_witness :
    (Ring queueCAB 0 [1, 2, 3] ∧ 1 ≤ 4 ∧ 4 < SIZE_RANGE) ∧
    (∀ x rest, [1, 2, 3] = x :: rest →
      (∀ i, i < min (queueCAB.value x).length (4 - 1) →
        ((queueCAB.value x).map CChar.val)[i]? =
          some (store (fun _ => 255) (q_remove_head queueCAB (some 0) (some 500) 4).stores i)) ∧
      store (fun _ => 255) (q_remove_head queueCAB (some 0) (some 500) 4).stores
        (min (queueCAB.value x).length (4 - 1)) = 0 ∧
      (q_remove_head queueCAB (some 0) (some 500) 4).elem = some x ∧
      (q_remove_head queueCAB (some 0) (some 500) 4).heap.value x = queueCAB.value x) ∧
    (∀ pre x, [1, 2, 3] = pre ++ [x] →
      (∀ i, i < min (queueCAB.value x).length (4 - 1) →
        ((queueCAB.value x).map CChar.val)[i]? =
          some (store (fun _ => 255) (q_remove_tail queueCAB (some 0) (some 500) 4).stores i)) ∧
      store (fun _ => 255) (q_remove_tail queueCAB (some 0) (some 500) 4).stores
        (min (queueCAB.value x).length (4 - 1)) = 0 ∧
      (q_remove_tail queueCAB (some 0) (some 500) 4).elem = some x ∧
      (q_remove_tail queueCAB (some 0) (some 500) 4).heap.value x = queueCAB.value x) :=
  ⟨⟨by decide, by decide, by decide⟩,
    q_remove_copy_spec queueCAB 0 [1, 2, 3] 500 4 (fun _ => 255) (by decide) (by decide)
      (by decide)⟩

/-- C14, as amended, at the queue `[c, a, b]` with a buffer of capacity 1. -/
theorem q_remove_stores_in_bounds_witness :
    (Ring queueCAB 0 [1, 2, 3] ∧ ([1, 2, 3] : List Nat) ≠ [] ∧ 1 ≤ 1 ∧ 1 < SIZE_RANGE) ∧
    (∀ w ∈ (q_remove_head queueCAB (some 0) (some 500) 1).stores, w.1 < 1) ∧
    store (fun _ => 255) (q_remove_head queueCAB (some 0) (some 500) 1).stores (1 - 1) = 0 ∧
    (∀ w ∈ (q_remove_tail queueCAB (some 0) (some 500) 1).stores, w.1 < 1) ∧
    store (fun _ => 255) (q_remove_tail queueCAB (some 0) (some 500) 1).stores (1 - 1) = 0 :=
  ⟨⟨by decide, by decide, by decide, by decide⟩,
    q_remove_stores_in_bounds queueCAB 0 [1, 2, 3] 500 1 (fun _ => 255) (by decide) (by decide)
      (by decide) (by decide)⟩

/-- C15 at the queue `[c, a, b]`. -/
theorem q_size_spec_witness :
    (Ring queueCAB 0 [1, 2, 3] ∧ [1, 2, 3].length < 4) ∧
    q_size 4 queueCAB (some 0) = some (([1, 2, 3] : List Nat).length : Int) ∧
    nodesFrom queueCAB 0 4 (queueCAB.next 0) = [1, 2, 3] ∧
    (([1, 2, 3] : List Nat) = [] → q_size 4 queueCAB (some 0) = some 0) ∧
    q_size 4 queueCAB none = some 0 ∧
    (∀ e v, e ∉ 0 :: [1, 2, 3] →
      q_size (4 + 1) (q_insert_tail queueCAB (some 0) v ⟨some e, true⟩).2 (some 0) =
        some ((([1, 2, 3] ++ [e]).length : Nat) : Int)) ∧
    (∀ x rest, [1, 2, 3] = x :: rest →
      q_size 4 (q_remove_head queueCAB (some 0) none 0).heap (some 0) =
        some (rest.length : Int)) ∧
    (∃ h1, q_reverse 4 queueCAB (some 0) = some h1 ∧
      q_size 4 h1 (some 0) = some (([1, 2, 3] : List Nat).reverse.length : Int)) :=
  ⟨⟨by decide, by decide⟩, q_size_spec queueCAB 0 [1, 2, 3] 4 (by decide) (by decide)⟩

/-- C16 at the sorted queue `[a, b, c]`. -/
theorem q_delete_dup_distinct_witness :
    (Ring queueABC 0 [1, 2, 3] ∧ (vals queueABC [1, 2, 3]).Nodup ∧
      (vals queueABC [1, 2, 3]).Pairwise (fun a b => strcmp a b ≤ 0)) ∧
    q_delete_dup 4 queueABC (some 0) = some (false, queueABC) ∧
    (q_delete_dup 4 queueABC (some 0)).map (fun r => contents 4 r.2 0) =
      some (vals queueABC [1, 2, 3]) ∧
    (q_delete_dup 4 queueABC (some 0)).bind (fun r => q_size 4 r.2 (some 0)) =
      some (([1, 2, 3] : List Nat).length : Int) :=
  ⟨⟨by decide, by decide, by decide⟩,
    q_delete_dup_distinct queueABC 0 [1, 2, 3] 4 (by decide) (by decide) (by decide)⟩

/-- C19 at the unsorted queue `[5, 2, 8, 1, 9]`. -/
theorem q_ascend_nondecreasing_witness :
    Ring queue52819 0 [1, 2, 3, 4, 5] ∧
    ∃ h1 kept, q_ascend 6 queue52819 (some 0) = some ((kept.length : Int), h1) ∧
      Ring h1 0 kept ∧ (vals h1 kept).Pairwise (fun a b => strcmp a b ≤ 0) :=
  ⟨by decide, q_ascend_nondecreasing queue52819 0 [1, 2, 3, 4, 5] 6 (by decide) (by decide)⟩

/-- C17, as amended, at the queue `[5, 2, 8, 1, 9]` with `k = 2`, the
allocation for the first group succeeding and the one for the second
failing. -/
theorem alloc_failure_spec_witness :
    (Ring queue52819 0 [1, 2, 3, 4, 5] ∧ [1, 2, 3, 4, 5].length < 6) ∧
    q_sort isort 6 queue52819 (some 0) false false = some queue52819 ∧
    ∃ h1, q_reverseK 6 queue52819 (some 0) 2 (fun g => decide (g = 0)) = some h1 ∧
      Ring h1 0 (reverseGroups (2 : Int).toNat ([1, 2, 3, 4, 5].take (1 * (2 : Int).toNat)) ++
        [1, 2, 3, 4, 5].drop (1 * (2 : Int).toNat)) ∧
      h1.value = queue52819.value :=
  ⟨⟨by decide, by decide⟩,
    (alloc_failure_spec isort queue52819 0 [1, 2, 3, 4, 5] 6 2 false (fun g => decide (g = 0))
      (by decide) (by decide)).1,
    (alloc_failure_spec isort queue52819 0 [1, 2, 3, 4, 5] 6 2 false (fun g => decide (g = 0))
      (by decide) (by decide)).2.2 1 (by decide)
      (by
        intro i hi
        have hi0 : i = 0 := by omega
        subst hi0
        rfl)
      (by decide) (by decide)⟩

/-- C18 at the two queues `[c, a, b]` (sentinel 0) and `[a, d]` (sentinel 10)
of one memory, with `k = 2`: `q_reverse` and `q_reverseK` run on the first,
`merge_two` merges the second into the first. -/
theorem ring_invariant_preserved_witness :
    (WellFormedRing queueCAB_AD 0 [1, 2, 3] ∧ [1, 2, 3].length < 6 ∧
      WellFormedRing queueCAB_AD 10 [11, 12] ∧
      (∀ x, x ∈ 0 :: [1, 2, 3] → x ∉ 10 :: [11, 12]) ∧
      [1, 2, 3].length + [11, 12].length < 6) ∧
    (∃ h1 ms, q_reverse 6 queueCAB_AD (some 0) = some h1 ∧ WellFormedRing h1 0 ms ∧
      ms.Perm [1, 2, 3]) ∧
    (∃ h1 ms, q_reverseK 6 queueCAB_AD (some 0) 2 (fun _ => true) = some h1 ∧
      WellFormedRing h1 0 ms ∧ ms.Perm [1, 2, 3]) ∧
    (∃ h1 ms, merge_two 6 queueCAB_AD 0 10 false = some h1 ∧ WellFormedRing h1 0 ms ∧
      ms.Perm ([1, 2, 3] ++ [11, 12]) ∧ WellFormedRing h1 10 [] ∧
      h1.next 10 = 10 ∧ h1.prev 10 = 10) :=
  ⟨⟨by decide, by decide, by decide, by decide, by decide⟩,
    (ring_invariant_preserved queueCAB_AD 0 [1, 2, 3] 6 2 (fun _ => true) (by decide)
      (by decide)).1,
    (ring_invariant_preserved queueCAB_AD 0 [1, 2, 3] 6 2 (fun _ => true) (by decide)
      (by decide)).2.1,
    (ring_invariant_preserved queueCAB_AD 0 [1, 2, 3] 6 2 (fun _ => true) (by decide)
      (by decide)).2.2 10 [11, 12] false (by decide) (by decide) (by decide)⟩

/-- C20 at the chain of the two unsorted queues `[5, 1, 3]` and `[4, 2]`. -/
theorem q_merge_conserves_witness :
    ChainOK chain513_42 100 [(101, some (0, [1, 2, 3])), (102, some (10, [11, 12]))] ∧
    ∃ h1 M, q_merge 6 chain513_42 (some 100) false =
        some (((([1, 2, 3] : List Nat).length +
          (chainElems [(102, some (10, [11, 12]))]).length : Nat) : Int), h1) ∧
      Ring h1 0 M ∧ M.Perm ([1, 2, 3] ++ chainElems [(102, some (10, [11, 12]))]) ∧ M.Nodup ∧
      [1, 2, 3].Sublist M ∧
      (∀ e ∈ [((102 : Nat), some ((10 : Nat), [(11 : Nat), 12]))], ∀ s ns,
        e.2 = some (s, ns) → ns.Sublist M) ∧
      h1.value = chain513_42.value ∧
      q_size 6 h1 (some 0) = some (((([1, 2, 3] : List Nat).length +
          (chainElems [(102, some (10, [11, 12]))]).length : Nat) : Int)) :=
  ⟨by decide,
    q_merge_conserves chain513_42 100 101 0 [1, 2, 3] [(102, some (10, [11, 12]))] 6 false
      (by decide) (by decide) (by decide)⟩

end Lab0
